import Mathlib

/-!
Verification of the Poindexter point-index core (`kdtree.go`, `kdtree_gonum.go`).

The Go code computes with `float64`; this development uses exact arithmetic in a
linear ordered field `F` (instantiated at `ℚ`, and at `ℝ` for the square-root
based metrics).  `math.MaxFloat64` is kept as the exact rational constant
`(2^53 - 1) * 2^971`, since the `Nearest` loop uses it as its initial bound.
Go slices of points become Lean lists; the Go `map[string]int` becomes an
association list with overwrite-on-insert, mirroring map assignment and
`delete`.  `sort.Slice` (an unspecified ascending reordering) is modelled by
`List.mergeSort` on the same comparison key; every property proved about a
sorted output is independent of the tie order the sort chooses.

The model covers the default build, in which `hasGonum()` is `false` and the
facade methods `Nearest` / `KNearest` / `Radius` are exactly their linear-scan
bodies; the pruning-tree engine of `kdtree_gonum.go` is modelled separately
(`buildGonumBackend`, `gonumNearest`, `gonumKNearest`, `gonumRadius`) and
compared against the linear engine.  The analytics fields (`TreeAnalytics`,
`PeerAnalytics`) only record counters and never influence any returned value,
so they are omitted from the state.
-/

namespace Poindexter

/-- `math.MaxFloat64 = (2 - 2^-52) * 2^1023 = (2^53 - 1) * 2^971`, the initial
value of `bestDist` in the `Nearest` loops. -/
def maxFloat64 (F : Type*) [LinearOrderedField F] : F :=
  (2 ^ 53 - 1) * 2 ^ 971

variable {F : Type*} [LinearOrderedField F]

/-- `KDPoint`: id (empty string = anonymous), coordinates, opaque payload.
The Go payload is a generic `T`; nothing in the code inspects it, so it is
modelled by a `ℕ` tag. -/
structure KDPoint (F : Type*) where
  ID : String
  Coords : List F
  Value : ℕ
  deriving DecidableEq

instance : Inhabited (KDPoint F) := ⟨⟨"", [], 0⟩⟩

/-- `ManhattanDistance.Distance`: sum of absolute per-axis differences.
The Go loop runs over the indices of `a`, reading `b[i]`; the two arguments
always have equal length at every call site, which the zip realises. -/
def ManhattanDistance (a b : List F) : F :=
  (a.zip b).foldl
    (fun sum p =>
      sum + (if p.1 - p.2 < 0 then -(p.1 - p.2) else p.1 - p.2)) 0

/-- `ChebyshevDistance.Distance`: running maximum of absolute per-axis
differences, starting from `0`. -/
def ChebyshevDistance (a b : List F) : F :=
  (a.zip b).foldl
    (fun m p =>
      let d := if p.1 - p.2 < 0 then -(p.1 - p.2) else p.1 - p.2
      if d > m then d else m) 0

/-- The sum `Σ (a_i - b_i)^2` accumulated by `EuclideanDistance.Distance`. -/
def sumSqDiff (a b : List F) : F :=
  (a.zip b).foldl (fun sum p => sum + (p.1 - p.2) * (p.1 - p.2)) 0

/-- `EuclideanDistance.Distance`: `math.Sqrt` of the sum of squared
differences (over `ℝ`, where the square root lives). -/
noncomputable def EuclideanDistance (a b : List ℝ) : ℝ :=
  Real.sqrt (sumSqDiff a b)

/-- The three sums `dot`, `na2`, `nb2` accumulated by
`CosineDistance.Distance`. -/
def cosineSums (a b : List F) : F × F × F :=
  (a.zip b).foldl
    (fun s p => (s.1 + p.1 * p.2, s.2.1 + p.1 * p.1, s.2.2 + p.2 * p.2))
    (0, 0, 0)

/-- `CosineDistance.Distance`: `1 - cosine similarity` with the zero-vector
edge cases and the `[0,2]` clamp, exactly as in the source. -/
noncomputable def CosineDistance (a b : List ℝ) : ℝ :=
  let s := cosineSums a b
  if s.2.1 = 0 ∧ s.2.2 = 0 then 0
  else if s.2.1 = 0 ∨ s.2.2 = 0 then 1
  else
    let den := Real.sqrt s.2.1 * Real.sqrt s.2.2
    if den = 0 then 1
    else
      let cos := s.1 / den
      let cos2 := if cos > 1 then 1 else if cos < -1 then -1 else cos
      let d := 1 - cos2
      if d < 0 then 0 else if d > 2 then 2 else d

/-- The three weighted sums `dot`, `na2`, `nb2` accumulated by
`WeightedCosineDistance.Distance` (`wi*ai*bi`, `wi*ai*ai`, `wi*bi*bi`). -/
def weightedCosineSums (w a b : List F) : F × F × F :=
  (w.zip (a.zip b)).foldl
    (fun s p =>
      let wi := p.1
      let ai := p.2.1
      let bi := p.2.2
      let v := wi * ai
      (s.1 + v * bi, s.2.1 + v * ai, s.2.2 + (wi * bi) * bi))
    (0, 0, 0)

/-- `WeightedCosineDistance.Distance`: falls back to the unweighted cosine
distance when the weights are empty or any lengths mismatch, otherwise the
weighted similarity with the same edge cases and clamp. -/
noncomputable def WeightedCosineDistance (w a b : List ℝ) : ℝ :=
  if w.length = 0 ∨ w.length ≠ a.length ∨ a.length ≠ b.length then
    CosineDistance a b
  else
    let s := weightedCosineSums w a b
    if s.2.1 = 0 ∧ s.2.2 = 0 then 0
    else if s.2.1 = 0 ∨ s.2.2 = 0 then 1
    else
      let den := Real.sqrt s.2.1 * Real.sqrt s.2.2
      if den = 0 then 1
      else
        let cos := s.1 / den
        let cos2 := if cos > 1 then 1 else if cos < -1 then -1 else cos
        let d := 1 - cos2
        if d < 0 then 0 else if d > 2 then 2 else d

/-! ### The id → position map (`map[string]int`) -/

/-- `idx, ok := m[id]` -/
def mapLookup (m : List (String × ℕ)) (k : String) : Option ℕ :=
  (m.find? (fun e => e.1 == k)).map (fun e => e.2)

/-- `m[k] = v` (overwrite if present, otherwise add) -/
def mapInsert (m : List (String × ℕ)) (k : String) (v : ℕ) : List (String × ℕ) :=
  match m with
  | [] => [(k, v)]
  | e :: rest => if e.1 == k then (k, v) :: rest else e :: mapInsert rest k v

/-- `delete(m, k)` -/
def mapErase (m : List (String × ℕ)) (k : String) : List (String × ℕ) :=
  m.filter (fun e => !(e.1 == k))

/-! ### The KDTree facade (linear backend) -/

/-- The construction errors of `kdtree.go`. -/
inductive KDError where
  | emptyPoints
  | zeroDim
  | dimMismatch
  | duplicateID
  deriving DecidableEq

/-- The facade state: the owned point sequence, the fixed dimension, the
metric chosen at construction, and the id → position map. -/
structure KDTree (F : Type*) where
  points : List (KDPoint F)
  dim : ℕ
  metric : List F → List F → F
  idIndex : List (String × ℕ)

/-- The id-index construction loop of `NewKDTree`: for each point, a length
mismatch aborts with `dimMismatch`; a repeated non-empty id aborts with
`duplicateID`; otherwise a non-empty id is recorded at its position. -/
def buildIdIndex (dim : ℕ) :
    List (String × ℕ) → ℕ → List (KDPoint F) → Except KDError (List (String × ℕ))
  | acc, _, [] => Except.ok acc
  | acc, i, p :: rest =>
    if p.Coords.length ≠ dim then Except.error KDError.dimMismatch
    else if p.ID ≠ "" ∧ (mapLookup acc p.ID).isSome then Except.error KDError.duplicateID
    else buildIdIndex dim (if p.ID ≠ "" then mapInsert acc p.ID i else acc) (i + 1) rest

/-- `NewKDTree`: validates the input and produces the facade state.  The
error constructors carry no tree, mirroring the `(nil, err)` returns. -/
def NewKDTree (pts : List (KDPoint F)) (metric : List F → List F → F) :
    Except KDError (KDTree F) :=
  if pts.length = 0 then Except.error KDError.emptyPoints
  else
    let dim := (pts.headD default).Coords.length
    if dim = 0 then Except.error KDError.zeroDim
    else (buildIdIndex dim [] 0 pts).map (fun idx => ⟨pts, dim, metric, idx⟩)

/-- `NewKDTreeFromDim`: an empty tree with a fixed positive dimension.
(`dim` is `ℕ` here; the Go guard `dim <= 0` collapses to `dim = 0`.) -/
def NewKDTreeFromDim (dim : ℕ) (metric : List F → List F → F) :
    Except KDError (KDTree F) :=
  if dim = 0 then Except.error KDError.zeroDim
  else Except.ok ⟨[], dim, metric, []⟩

/-- The scan loop of `Nearest`: `bestIdx := -1; bestDist := math.MaxFloat64;`
each point with `d < bestDist` becomes the new best. -/
def nearestLoop (metric : List F → List F → F) (q : List F)
    (pts : List (KDPoint F)) : Int × F :=
  pts.enum.foldl
    (fun best ip =>
      let d := metric q ip.2.Coords
      if d < best.2 then ((ip.1 : Int), d) else best)
    (-1, maxFloat64 F)

/-- `KDTree.Nearest` (linear backend): guards, scan, and the
`bestIdx < 0` not-found check. -/
def KDTree.Nearest (t : KDTree F) (query : List F) : KDPoint F × F × Bool :=
  if query.length ≠ t.dim ∨ t.points.length = 0 then (default, 0, false)
  else
    let best := nearestLoop t.metric query t.points
    if best.1 < 0 then (default, 0, false)
    else (t.points.getD best.1.toNat default, best.2, true)

/-- The `(idx, dist)` records built by `KNearest` and `Radius` before
sorting. -/
def distPairs (metric : List F → List F → F) (q : List F)
    (pts : List (KDPoint F)) : List (ℕ × F) :=
  pts.enum.map (fun ip => (ip.1, metric q ip.2.Coords))

/-- `KDTree.KNearest` (linear backend): guards, distance records, ascending
sort by distance (`sort.Slice`, modelled by `mergeSort` on the same key),
truncation to `min(k, n)`. -/
def KDTree.KNearest (t : KDTree F) (query : List F) (k : Int) :
    List (KDPoint F) × List F :=
  if k ≤ 0 ∨ query.length ≠ t.dim ∨ t.points.length = 0 then ([], [])
  else
    let tmp := (distPairs t.metric query t.points).mergeSort
      (fun a b => decide (a.2 ≤ b.2))
    let k2 := min k.toNat tmp.length
    ((tmp.take k2).map (fun e => t.points.getD e.1 default),
     (tmp.take k2).map (fun e => e.2))

/-- `KDTree.Radius` (linear backend): guards, the `d <= r` filter (inclusive
boundary), ascending sort by distance. -/
def KDTree.Radius (t : KDTree F) (query : List F) (r : F) :
    List (KDPoint F) × List F :=
  if r < 0 ∨ query.length ≠ t.dim ∨ t.points.length = 0 then ([], [])
  else
    let sel := ((distPairs t.metric query t.points).filter
      (fun e => decide (e.2 ≤ r))).mergeSort (fun a b => decide (a.2 ≤ b.2))
    (sel.map (fun e => t.points.getD e.1 default), sel.map (fun e => e.2))

/-- `KDTree.Insert` (linear backend: no rebuild): rejects a dimension
mismatch or a present non-empty id, otherwise appends and records the
position. -/
def KDTree.Insert (t : KDTree F) (p : KDPoint F) : KDTree F × Bool :=
  if p.Coords.length ≠ t.dim then (t, false)
  else if p.ID ≠ "" ∧ (mapLookup t.idIndex p.ID).isSome then (t, false)
  else
    let points2 := t.points ++ [p]
    let idx2 := if p.ID ≠ "" then mapInsert t.idIndex p.ID (points2.length - 1)
                else t.idIndex
    ({ t with points := points2, idIndex := idx2 }, true)

/-- `KDTree.DeleteByID` (linear backend: no rebuild): swap-remove.  The last
element overwrites the removed slot, the map entry of the moved element (when
its id is non-empty) is repointed, the sequence is truncated, and the deleted
id is erased from the map. -/
def KDTree.DeleteByID (t : KDTree F) (id : String) : KDTree F × Bool :=
  if id = "" then (t, false)
  else
    match mapLookup t.idIndex id with
    | none => (t, false)
    | some idx =>
      let last := t.points.length - 1
      let pts1 := t.points.set idx (t.points.getD last default)
      let moved := pts1.getD idx default
      let idIdx1 := if moved.ID ≠ "" then mapInsert t.idIndex moved.ID idx
                    else t.idIndex
      ({ t with points := pts1.take last, idIndex := mapErase idIdx1 id }, true)

/-- `KDTree.Len` -/
def KDTree.Len (t : KDTree F) : ℕ := t.points.length

/-- `KDTree.Points`: `make` + `copy` of the point slice (the element structs
are copied by value; the aliasing of the inner `Coords` slices is analysed in
the dedicated memory model below). -/
def KDTree.Points (t : KDTree F) : List (KDPoint F) := t.points

/-! ### The pruning tree engine (`kdtree_gonum.go`) -/

/-- `kdNode`: split axis, index of the median point, its coordinate on the
split axis, and the two children (`nil` pointers become the `nil`
constructor). -/
inductive KDNode (F : Type*) where
  | nil
  | node (axis idx : ℕ) (val : F) (left right : KDNode F)

/-- `n == nil` -/
def KDNode.isNil : KDNode F → Bool
  | .nil => true
  | .node _ _ _ _ _ => false

/-- The index multiset held by a subtree. -/
def KDNode.idxs : KDNode F → List ℕ
  | .nil => []
  | .node _ i _ l r => i :: (l.idxs ++ r.idxs)

/-- `axisStd`: per-axis spread used for axis selection.  The source computes
`sqrt(variance)`; the values are only compared with `>`, and `sqrt` is
strictly monotone on the non-negative variances, so the variance itself is
used here, inducing exactly the same axis choice. -/
def axisStd (idxs : List ℕ) (coords : ℕ → List F) (dim : ℕ) : List F :=
  let n : F := (idxs.length : ℕ)
  if idxs.length = 0 then List.replicate dim 0
  else
    (List.range dim).map (fun d =>
      let mean := (idxs.foldl (fun s i => s + (coords i).getD d 0) 0) / n
      (idxs.foldl
        (fun s i =>
          s + ((coords i).getD d 0 - mean) * ((coords i).getD d 0 - mean)) 0) / n)

/-- `axis := 0; maxv := stds[0]; for d := 1; ...; if stds[d] > maxv ...` -/
def pickAxis (stds : List F) : ℕ :=
  ((stds.enum.drop 1).foldl
    (fun best p => if p.2 > best.2 then (p.1, p.2) else best)
    (0, stds.getD 0 0)).1

/-- `buildKDRecursive`: choose the axis of maximum spread, sort the candidate
indices by that axis's coordinate (`sort.Slice`, modelled by `mergeSort` on
the same key), split at the exact median, recurse on the strict halves. -/
def buildKDRecursive (coords : ℕ → List F) (dim : ℕ) (idxs : List ℕ) : KDNode F :=
  if h : idxs.length = 0 then KDNode.nil
  else
    let ax := pickAxis (axisStd idxs coords dim)
    let sorted := idxs.mergeSort
      (fun i j => decide ((coords i).getD ax 0 ≤ (coords j).getD ax 0))
    let mid := sorted.length / 2
    let medianIdx := sorted.getD mid 0
    KDNode.node ax medianIdx ((coords medianIdx).getD ax 0)
      (buildKDRecursive coords dim (sorted.take mid))
      (buildKDRecursive coords dim (sorted.drop (mid + 1)))
  termination_by idxs.length
  decreasing_by
  · simp only [List.length_take, List.length_mergeSort]
    omega
  · simp only [List.length_drop, List.length_mergeSort]
    omega

/-- `kdBackend`: root, dimension, the coordinate accessor closure, and the
point count. -/
structure KDBackend (F : Type*) where
  root : KDNode F
  dim : ℕ
  coords : ℕ → List F
  len : ℕ

/-- `buildGonumBackend` (after its metric type-switch, which admits exactly
the L1/L2/L∞ metrics and reports `ErrBackendUnavailable` otherwise — the
properties below quantify over those metrics only). -/
def buildGonumBackend (pts : List (KDPoint F)) : KDBackend F :=
  if pts.length = 0 then ⟨KDNode.nil, 0, fun _ => [], 0⟩
  else
    let dim := (pts.headD default).Coords.length
    let coords := fun i => (pts.getD i default).Coords
    ⟨buildKDRecursive coords dim (List.range pts.length), dim, coords, pts.length⟩

/-- `gonumNearest`'s recursive `search` closure, with the best-so-far state
`(bestIdx, bestDist)` threaded explicitly. -/
def searchNearest (m : List F → List F → F) (coords : ℕ → List F) (q : List F) :
    KDNode F → Int × F → Int × F
  | .nil, st => st
  | .node ax i v l r, st =>
    let d := m q (coords i)
    let st1 := if d < st.2 then ((i : Int), d) else st
    let qv := q.getD ax 0
    let near := if qv ≥ v then r else l
    let far := if qv ≥ v then l else r
    let st2 := searchNearest m coords q near st1
    let diff := if qv - v < 0 then -(qv - v) else qv - v
    if diff ≤ st2.2 then searchNearest m coords q far st2 else st2
  termination_by n _ => sizeOf n
  decreasing_by
  · split <;> (simp only [KDNode.node.sizeOf_spec]; omega)
  · split <;> (simp only [KDNode.node.sizeOf_spec]; omega)

/-- `gonumNearest`: guards (`root == nil`, dimension), the branch-and-bound
search from `(-1, math.MaxFloat64)`, and the `bestIdx < 0` check. -/
def gonumNearest (m : List F → List F → F) (b : KDBackend F) (q : List F) :
    Int × F × Bool :=
  if b.root.isNil ∨ q.length ≠ b.dim then (-1, 0, false)
  else
    let st := searchNearest m b.coords q b.root (-1, maxFloat64 F)
    if st.1 < 0 then (-1, 0, false) else (st.1, st.2, true)

/-! #### The bounded max-heap (`knnHeap`) -/

/-- `h.swap(i, j)` -/
def hswap (h : List (ℕ × F)) (i j : ℕ) : List (ℕ × F) :=
  (h.set i (h.getD j (0, 0))).set j (h.getD i (0, 0))

/-- `h.up(i)`: sift the element at `i` towards the root while it is larger
than its parent (`less i p` is `h[i].dist > h[p].dist`). -/
def hup (h : List (ℕ × F)) : ℕ → List (ℕ × F)
  | 0 => h
  | i + 1 =>
    let p := (i + 1 - 1) / 2
    if (h.getD (i + 1) (0, 0)).2 > (h.getD p (0, 0)).2 then hup (hswap h (i + 1) p) p
    else h
  termination_by i => i
  decreasing_by omega

/-- `h.down(i)`: sift the element at `i` towards the leaves while a child is
larger.  The source computes `largest` by two conditional updates and stops
when `largest == i`; since the right-child index `2*i+2` never equals `i`,
this is the same as: recurse at the right child when it beats `largest`,
otherwise at the left child when it beats `i`, otherwise stop. -/
def hdown (h : List (ℕ × F)) (i : ℕ) : List (ℕ × F) :=
  let l := 2 * i + 1
  let r := l + 1
  let largest := if l < h.length ∧ (h.getD l (0, 0)).2 > (h.getD i (0, 0)).2 then l else i
  if hr : r < h.length ∧ (h.getD r (0, 0)).2 > (h.getD largest (0, 0)).2 then
    hdown (hswap h i r) r
  else if hl : l < h.length ∧ (h.getD l (0, 0)).2 > (h.getD i (0, 0)).2 then
    hdown (hswap h i l) l
  else h
  termination_by h.length - i
  decreasing_by
  · simp only [hswap, List.length_set]
    omega
  · simp only [hswap, List.length_set]
    omega

/-- `h.push(x)`: append then sift up from the last slot. -/
def hpush (h : List (ℕ × F)) (x : ℕ × F) : List (ℕ × F) :=
  hup (h ++ [x]) h.length

/-- `gonumKNearest`'s recursive `search` closure: admit the node's point into
the heap (push while below capacity, otherwise replace the maximum when
strictly closer), then the shared near/far traversal with the heap maximum as
the pruning threshold. -/
def searchKNearest (m : List F → List F → F) (coords : ℕ → List F) (q : List F)
    (cap : ℕ) : KDNode F → List (ℕ × F) → List (ℕ × F)
  | .nil, h => h
  | .node ax i v l r, h =>
    let d := m q (coords i)
    let h1 := if h.length < cap then hpush h (i, d)
      else if d < (h.getD 0 (0, 0)).2 then hdown (h.set 0 (i, d)) 0
      else h
    let qv := q.getD ax 0
    let near := if qv ≥ v then r else l
    let far := if qv ≥ v then l else r
    let h2 := searchKNearest m coords q cap near h1
    let threshold := if h2.length = cap then (h2.getD 0 (0, 0)).2
      else if 0 < h2.length then (h2.getD 0 (0, 0)).2
      else maxFloat64 F
    let diff := if qv - v < 0 then -(qv - v) else qv - v
    if diff ≤ threshold then searchKNearest m coords q cap far h2 else h2
  termination_by n _ => sizeOf n
  decreasing_by
  · split <;> (simp only [KDNode.node.sizeOf_spec]; omega)
  · split <;> (simp only [KDNode.node.sizeOf_spec]; omega)

/-- `gonumKNearest`: guards, heap search, extraction sorted ascending by
distance. -/
def gonumKNearest (m : List F → List F → F) (b : KDBackend F) (q : List F)
    (k : Int) : List ℕ × List F :=
  if b.root.isNil ∨ q.length ≠ b.dim ∨ k ≤ 0 then ([], [])
  else
    let h := searchKNearest m b.coords q k.toNat b.root []
    let res := h.mergeSort (fun a b => decide (a.2 ≤ b.2))
    (res.map (fun e => e.1), res.map (fun e => e.2))

/-- `gonumRadius`'s recursive `search` closure: collect every point within
`r`, with the fixed radius as the pruning threshold. -/
def searchRadius (m : List F → List F → F) (coords : ℕ → List F) (q : List F)
    (rad : F) : KDNode F → List (ℕ × F) → List (ℕ × F)
  | .nil, res => res
  | .node ax i v l r, res =>
    let d := m q (coords i)
    let res1 := if d ≤ rad then res ++ [(i, d)] else res
    let qv := q.getD ax 0
    let near := if qv ≥ v then r else l
    let far := if qv ≥ v then l else r
    let res2 := searchRadius m coords q rad near res1
    let diff := if qv - v < 0 then -(qv - v) else qv - v
    if diff ≤ rad then searchRadius m coords q rad far res2 else res2
  termination_by n _ => sizeOf n
  decreasing_by
  · split <;> (simp only [KDNode.node.sizeOf_spec]; omega)
  · split <;> (simp only [KDNode.node.sizeOf_spec]; omega)

/-- `gonumRadius`: guards (including `r < 0`), collection, ascending sort. -/
def gonumRadius (m : List F → List F → F) (b : KDBackend F) (q : List F)
    (rad : F) : List ℕ × List F :=
  if b.root.isNil ∨ q.length ≠ b.dim ∨ rad < 0 then ([], [])
  else
    let res := (searchRadius m b.coords q rad b.root []).mergeSort
      (fun a b => decide (a.2 ≤ b.2))
    (res.map (fun e => e.1), res.map (fun e => e.2))

/-- Well-formedness of a kd-tree produced by `buildKDRecursive`: the split
axis is below the dimension, the stored split value is the node point's
coordinate on that axis, every left-subtree point lies at or below the split
value on that axis, every right-subtree point at or above it. -/
def TreeWF (coords : ℕ → List F) (dim : ℕ) : KDNode F → Prop
  | .nil => True
  | .node ax i v l r =>
    ax < dim ∧ v = (coords i).getD ax 0 ∧
    (∀ j ∈ l.idxs, (coords j).getD ax 0 ≤ v) ∧
    (∀ j ∈ r.idxs, v ≤ (coords j).getD ax 0) ∧
    TreeWF coords dim l ∧ TreeWF coords dim r

/-- The `knnHeap` shape invariant: every child's distance is at most its
parent's (a max-heap on the distance component, in the array layout with
children `2i+1`, `2i+2`). -/
def IsMaxHeap (h : List (ℕ × F)) : Prop :=
  ∀ a b : ℕ, (b = 2 * a + 1 ∨ b = 2 * a + 2) → b < h.length →
    (h.getD b (0, 0)).2 ≤ (h.getD a (0, 0)).2

/-- `H` is a multiset of `min c |V|` smallest elements of `V`: it is
contained in `V`, has that cardinality, and everything of `V` left outside
dominates everything inside. -/
def KBest (c : ℕ) (V H : Multiset F) : Prop :=
  H ≤ V ∧ Multiset.card H = min c (Multiset.card V) ∧
  ∀ x ∈ V - H, ∀ y ∈ H, y ≤ x

/-- A three-point one-dimensional index used to witness the engine
equivalence at the Manhattan metric. -/
def exTreeC : KDTree ℚ :=
  ⟨[⟨"a", [0], 0⟩, ⟨"b", [2], 0⟩, ⟨"c", [5], 0⟩], 1, ManhattanDistance,
    [("a", 0), ("b", 1), ("c", 2)]⟩

/-- A one-point test index whose single point sits at Manhattan distance
exactly `math.MaxFloat64` from the query `[0]`. -/
def exTreeA : KDTree ℚ :=
  ⟨[⟨"a", [maxFloat64 ℚ], 0⟩], 1, ManhattanDistance, [("a", 0)]⟩

/-- A two-point test index (ids `a` at `[1]` and `b` at `[0]`). -/
def exTreeB : KDTree ℚ :=
  ⟨[⟨"a", [1], 0⟩, ⟨"b", [0], 0⟩], 1, ManhattanDistance, [("a", 0), ("b", 1)]⟩

/-! ### Consistency of the id → position map -/

/-- The non-empty ids of a point list, in order (used to state the
duplicate-id condition of `NewKDTree`). -/
def nonEmptyIds (pts : List (KDPoint F)) : List String :=
  (pts.filter (fun p => !(p.ID == ""))).map (fun p => p.ID)

/-- The id/position entries the `NewKDTree` loop records for a point list
starting at position `i`: one entry per non-empty id, at its position. -/
def idEntries (i : ℕ) : List (KDPoint F) → List (String × ℕ)
  | [] => []
  | p :: rest =>
    if p.ID = "" then idEntries (i + 1) rest
    else (p.ID, i) :: idEntries (i + 1) rest

/-- The id → position map is consistent with the point sequence:
every entry carries a non-empty id, points into the sequence, and names the
point that actually sits there; every point with a non-empty id is found by a
lookup at exactly its position; and no id appears twice in the map. -/
def Consistent (t : KDTree F) : Prop :=
  (∀ e ∈ t.idIndex,
      e.1 ≠ "" ∧ e.2 < t.points.length ∧ (t.points.getD e.2 default).ID = e.1) ∧
  (∀ pos < t.points.length, (t.points.getD pos default).ID ≠ "" →
      mapLookup t.idIndex (t.points.getD pos default).ID = some pos) ∧
  (t.idIndex.map (fun e => e.1)).Nodup

/-- Trees reachable from a successful construction by inserts and deletes. -/
inductive Reachable : KDTree F → Prop where
  | ofNew (pts : List (KDPoint F)) (metric : List F → List F → F) (t : KDTree F) :
      NewKDTree pts metric = Except.ok t → Reachable t
  | ofNewFromDim (dim : ℕ) (metric : List F → List F → F) (t : KDTree F) :
      NewKDTreeFromDim dim metric = Except.ok t → Reachable t
  | ofInsert (t : KDTree F) (p : KDPoint F) :
      Reachable t → Reachable (t.Insert p).1
  | ofDelete (t : KDTree F) (id : String) :
      Reachable t → Reachable (t.DeleteByID id).1

/-! ### A slice-store model for `KDTree.Points` (snapshot aliasing)

Go slices are pointers into backing arrays.  `Points()` runs
`result := make([]KDPoint[T], len); copy(result, t.points)`, which allocates
a fresh backing array of point structs and copies the structs by value — but
each struct's `Coords` field is itself a slice header, so the copied structs
still point at the original coordinate arrays.  To reason about this the
model makes both levels of indirection explicit: a store of point arrays and
a store of coordinate arrays, with points holding a pointer into the
latter. -/

/-- A point struct as stored in memory: the `Coords` field is a pointer to a
coordinate array in the store. -/
structure GoPoint where
  ID : String
  CoordsPtr : ℕ
  Value : ℕ
  deriving DecidableEq

/-- The two-level store: backing arrays for `[]KDPoint` slices and backing
arrays for `[]float64` slices. -/
structure GoMem where
  pointArrays : List (List GoPoint)
  coordArrays : List (List ℚ)
  deriving DecidableEq

/-- The tree's `points` field is a slice: a pointer to a point array. -/
structure GoTree where
  pointsPtr : ℕ
  deriving DecidableEq

/-- Dereference a point slice. -/
def readPoints (mem : GoMem) (ptr : ℕ) : List GoPoint :=
  mem.pointArrays.getD ptr []

/-- `Points()`: allocate a fresh array holding the same point structs and
return a slice over it. -/
def snapshotPoints (mem : GoMem) (t : GoTree) : GoMem × ℕ :=
  ({ mem with pointArrays := mem.pointArrays ++ [readPoints mem t.pointsPtr] },
   mem.pointArrays.length)

/-- `s[i] = p`: overwrite an element of a point slice. -/
def writePointElem (mem : GoMem) (ptr i : ℕ) (p : GoPoint) : GoMem :=
  { mem with
    pointArrays := mem.pointArrays.set ptr ((mem.pointArrays.getD ptr []).set i p) }

/-- `s[i].Coords[j] = v`: write a coordinate through an element of a point
slice (the write lands in the coordinate array the element points at). -/
def writeCoordElem (mem : GoMem) (ptr i j : ℕ) (v : ℚ) : GoMem :=
  let p := (mem.pointArrays.getD ptr []).getD i ⟨"", 0, 0⟩
  { mem with
    coordArrays := mem.coordArrays.set p.CoordsPtr
      ((mem.coordArrays.getD p.CoordsPtr []).set j v) }

/-- What the index observes of its own points: ids paired with the coordinate
values behind their pointers — the data every query reads. -/
def observePoints (mem : GoMem) (t : GoTree) : List (String × List ℚ) :=
  (readPoints mem t.pointsPtr).map
    (fun p => (p.ID, mem.coordArrays.getD p.CoordsPtr []))

/-! ## Theorems -/

/-- Exact behaviour of the `Nearest` scan loop, for an arbitrary enumeration
offset and start state: either no point improves on the incoming bound and
the state is returned unchanged, or the result is the first position
achieving the minimum distance (strictly below the incoming bound), which no
earlier position matches and no position beats. -/
theorem nearestFold_spec (m : List F → List F → F) (q : List F)
    (pts : List (KDPoint F)) (k : ℕ) (st : Int × F) :
    ((List.enumFrom k pts).foldl
        (fun best ip =>
          let d := m q ip.2.Coords
          if d < best.2 then ((ip.1 : Int), d) else best) st = st
      ∧ ∀ j < pts.length, ¬ (m q (pts.getD j default).Coords < st.2))
    ∨ (∃ j, j < pts.length ∧
        (List.enumFrom k pts).foldl
          (fun best ip =>
            let d := m q ip.2.Coords
            if d < best.2 then ((ip.1 : Int), d) else best) st
          = (((k + j : ℕ) : Int), m q (pts.getD j default).Coords) ∧
        m q (pts.getD j default).Coords < st.2 ∧
        (∀ i < pts.length,
          m q (pts.getD j default).Coords ≤ m q (pts.getD i default).Coords) ∧
        (∀ i < j, m q (pts.getD j default).Coords < m q (pts.getD i default).Coords)) := by
  induction pts generalizing k st with
  | nil =>
    left
    exact ⟨rfl, by intro j hj; simp at hj⟩
  | cons p rest ih =>
    have hcons : List.enumFrom k (p :: rest) = (k, p) :: List.enumFrom (k + 1) rest := rfl
    rw [hcons, List.foldl_cons]
    by_cases h0 : m q p.Coords < st.2
    · have hstep :
          (let d := m q (k, p).2.Coords
           if d < st.2 then (((k, p).1 : Int), d) else st)
          = (((k : ℕ) : Int), m q p.Coords) := by
        simp only [if_pos h0]
      rw [hstep]
      rcases ih (k + 1) (((k : ℕ) : Int), m q p.Coords) with ⟨heq, hall⟩ | ⟨j, hj, heq, hlt, hmin, hfirst⟩
      · right
        refine ⟨0, by simp, ?_, ?_, ?_, ?_⟩
        · simpa using heq
        · simpa using h0
        · intro i hi
          match i with
          | 0 => simp
          | i + 1 =>
            simp only [List.getD_cons_succ]
            have := hall i (by simpa using hi)
            simp at this ⊢
            linarith
        · intro i hi; omega
      · right
        refine ⟨j + 1, by simpa using hj, ?_, ?_, ?_, ?_⟩
        · rw [heq]
          simp only [List.getD_cons_succ]
          congr 2
          omega
        · simp only [List.getD_cons_succ] at *
          calc m q (rest.getD j default).Coords < m q p.Coords := hlt
            _ < st.2 := h0
        · intro i hi
          match i with
          | 0 =>
            simp only [List.getD_cons_zero, List.getD_cons_succ]
            exact le_of_lt hlt
          | i + 1 =>
            simp only [List.getD_cons_succ]
            exact hmin i (by simpa using hi)
        · intro i hi
          match i with
          | 0 =>
            simpa using hlt
          | i + 1 =>
            simp only [List.getD_cons_succ]
            exact hfirst i (by omega)
    · have hstep :
          (let d := m q (k, p).2.Coords
           if d < st.2 then (((k, p).1 : Int), d) else st) = st := by
        simp only [if_neg h0]
      rw [hstep]
      rcases ih (k + 1) st with ⟨heq, hall⟩ | ⟨j, hj, heq, hlt, hmin, hfirst⟩
      · left
        refine ⟨heq, ?_⟩
        intro j hj
        match j with
        | 0 => simpa using h0
        | j + 1 =>
          simp only [List.getD_cons_succ]
          exact hall j (by simpa using hj)
      · right
        refine ⟨j + 1, by simpa using hj, ?_, ?_, ?_, ?_⟩
        · rw [heq]
          simp only [List.getD_cons_succ]
          congr 2
          omega
        · simpa using hlt
        · intro i hi
          match i with
          | 0 =>
            simp only [List.getD_cons_zero, List.getD_cons_succ]
            have : ¬ (m q p.Coords < st.2) := h0
            have h2 : m q (rest.getD j default).Coords < st.2 := hlt
            linarith [not_lt.mp this]
          | i + 1 =>
            simp only [List.getD_cons_succ]
            exact hmin i (by simpa using hi)
        · intro i hi
          match i with
          | 0 =>
            simp only [List.getD_cons_zero, List.getD_cons_succ]
            have h2 : m q (rest.getD j default).Coords < st.2 := hlt
            have := not_lt.mp h0
            linarith
          | i + 1 =>
            simp only [List.getD_cons_succ]
            exact hfirst i (by omega)

/-- One-dimensional Manhattan distance is the absolute difference. -/
theorem manhattan_single (x y : F) : ManhattanDistance [x] [y] = |x - y| := by
  simp only [ManhattanDistance, List.zip_cons_cons, List.zip_nil_right,
    List.foldl_cons, List.foldl_nil]
  by_cases h : x - y < 0
  · rw [if_pos h, zero_add, abs_of_neg h]
  · rw [if_neg h, zero_add, abs_of_nonneg (not_lt.mp h)]

/-- `math.MaxFloat64` is positive. -/
theorem maxFloat64_pos : (0 : F) < maxFloat64 F := by
  unfold maxFloat64
  positivity

/-- Evaluation of the scan loop on the one-point index `exTreeA` with query
`[0]`: the single distance equals `math.MaxFloat64`, so the loop never
improves on its initial state. -/
theorem exTreeA_loop_eval :
    nearestLoop exTreeA.metric [(0 : ℚ)] exTreeA.points = (-1, maxFloat64 ℚ) := by
  have henum : exTreeA.points.enum = [(0, (⟨"a", [maxFloat64 ℚ], 0⟩ : KDPoint ℚ))] := rfl
  have hm : exTreeA.metric = ManhattanDistance := rfl
  simp only [nearestLoop, henum, hm, List.foldl_cons, List.foldl_nil]
  have hd : ManhattanDistance [(0 : ℚ)] [maxFloat64 ℚ] = maxFloat64 ℚ := by
    rw [manhattan_single, zero_sub, abs_neg, abs_of_pos maxFloat64_pos]
  rw [hd, if_neg (lt_irrefl _)]

/-- `Nearest` on `exTreeA` with query `[0]` reports not-found although the
index is non-empty and the dimension matches. -/
theorem exTreeA_nearest_eval : exTreeA.Nearest [(0 : ℚ)] = (default, 0, false) := by
  have hguard : ¬ (([(0 : ℚ)]).length ≠ exTreeA.dim ∨ exTreeA.points.length = 0) := by
    decide
  simp only [KDTree.Nearest, if_neg hguard, exTreeA_loop_eval]
  norm_num

/-- `Nearest` on a guard-passing call: either every point is at distance at
least `math.MaxFloat64` and the call reports not-found, or the result is the
first position achieving the minimum distance. -/
theorem Nearest_characterization (t : KDTree F) (q : List F)
    (hq : q.length = t.dim) (hne : t.points ≠ []) :
    ((∀ j < t.points.length,
        ¬ (t.metric q (t.points.getD j default).Coords < maxFloat64 F)) ∧
      t.Nearest q = (default, 0, false))
    ∨ (∃ j, j < t.points.length ∧
        t.Nearest q =
          (t.points.getD j default, t.metric q (t.points.getD j default).Coords, true) ∧
        t.metric q (t.points.getD j default).Coords < maxFloat64 F ∧
        (∀ i < t.points.length,
          t.metric q (t.points.getD j default).Coords
            ≤ t.metric q (t.points.getD i default).Coords) ∧
        (∀ i < j, t.metric q (t.points.getD j default).Coords
            < t.metric q (t.points.getD i default).Coords)) := by
  have hlen : t.points.length ≠ 0 := by
    simpa [List.length_eq_zero] using hne
  have hguard : ¬ (q.length ≠ t.dim ∨ t.points.length = 0) := by
    push_neg
    exact ⟨hq, hlen⟩
  have hN : t.Nearest q =
      (if (nearestLoop t.metric q t.points).1 < 0 then (default, 0, false)
        else (t.points.getD (nearestLoop t.metric q t.points).1.toNat default,
          (nearestLoop t.metric q t.points).2, true)) := by
    simp only [KDTree.Nearest, if_neg hguard]
  have hloop : nearestLoop t.metric q t.points =
      (List.enumFrom 0 t.points).foldl
        (fun best ip =>
          let d := t.metric q ip.2.Coords
          if d < best.2 then ((ip.1 : Int), d) else best) (-1, maxFloat64 F) := rfl
  rcases nearestFold_spec t.metric q t.points 0 (-1, maxFloat64 F) with
    ⟨heq, hall⟩ | ⟨j, hj, heq, hlt, hmin, hfirst⟩
  · left
    refine ⟨hall, ?_⟩
    rw [hN, hloop, heq]
    norm_num
  · right
    refine ⟨j, hj, ?_, hlt, hmin, hfirst⟩
    rw [hN, hloop, heq]
    simp

/-- C2: on a guard-passing call, `Nearest` returns the first point achieving
a new strict minimum — as amended: provided some point is at metric distance
strictly below `math.MaxFloat64` (the initial value of `bestDist`); a point
at distance `≥ MaxFloat64` can never be selected. -/
theorem C2_nearest_first_min (t : KDTree F) (q : List F) :
    ((q.length ≠ t.dim ∨ t.points = []) → t.Nearest q = (default, 0, false)) ∧
    (q.length = t.dim → t.points ≠ [] →
      (∃ j, j < t.points.length ∧
        t.metric q (t.points.getD j default).Coords < maxFloat64 F) →
      ∃ j, j < t.points.length ∧
        t.Nearest q =
          (t.points.getD j default, t.metric q (t.points.getD j default).Coords, true) ∧
        (∀ i < t.points.length,
          t.metric q (t.points.getD j default).Coords
            ≤ t.metric q (t.points.getD i default).Coords) ∧
        (∀ i < j, t.metric q (t.points.getD j default).Coords
            < t.metric q (t.points.getD i default).Coords)) := by
  constructor
  · intro h
    have hguard : q.length ≠ t.dim ∨ t.points.length = 0 := by
      rcases h with h | h
      · exact Or.inl h
      · exact Or.inr (by simp [h])
    simp only [KDTree.Nearest, if_pos hguard]
  · intro hq hne hex
    rcases Nearest_characterization t q hq hne with ⟨hall, _⟩ | ⟨j, hj, heq, _, hmin, hfirst⟩
    · rcases hex with ⟨j, hj, hlt⟩
      exact absurd hlt (hall j hj)
    · exact ⟨j, hj, heq, hmin, hfirst⟩

/-- C2: counterexample to the claim as stated — a non-empty index with a
matching query dimension on which `Nearest` reports not-found instead of the
minimum-distance point: the single point lies at Manhattan distance exactly
`math.MaxFloat64`, which never passes the strict `d < bestDist` test against
the initial bound. -/
theorem C2_counterexample :
    exTreeA.points ≠ [] ∧ [(0 : ℚ)].length = exTreeA.dim ∧
      (exTreeA.Nearest [(0 : ℚ)]).2.2 = false := by
  refine ⟨by decide, by decide, ?_⟩
  rw [exTreeA_nearest_eval]

/-- C2: witness instantiating the amended claim on the two-point index
`exTreeB` with query `[0]`: the nearest point is `b` at position 1,
distance 0. -/
theorem C2_witness :
    ([(0 : ℚ)].length = exTreeB.dim ∧ exTreeB.points ≠ [] ∧
      (∃ j, j < exTreeB.points.length ∧
        exTreeB.metric [(0 : ℚ)] (exTreeB.points.getD j default).Coords < maxFloat64 ℚ)) ∧
    (∃ j, j < exTreeB.points.length ∧
      exTreeB.Nearest [(0 : ℚ)] =
        (exTreeB.points.getD j default,
          exTreeB.metric [(0 : ℚ)] (exTreeB.points.getD j default).Coords, true) ∧
      (∀ i < exTreeB.points.length,
        exTreeB.metric [(0 : ℚ)] (exTreeB.points.getD j default).Coords
          ≤ exTreeB.metric [(0 : ℚ)] (exTreeB.points.getD i default).Coords) ∧
      (∀ i < j, exTreeB.metric [(0 : ℚ)] (exTreeB.points.getD j default).Coords
          < exTreeB.metric [(0 : ℚ)] (exTreeB.points.getD i default).Coords)) := by
  have hd : exTreeB.metric [(0 : ℚ)] (exTreeB.points.getD 1 default).Coords
      < maxFloat64 ℚ := by
    have hm : exTreeB.metric [(0 : ℚ)] (exTreeB.points.getD 1 default).Coords
        = ManhattanDistance [(0 : ℚ)] [(0 : ℚ)] := rfl
    rw [hm, manhattan_single]
    simpa using maxFloat64_pos (F := ℚ)
  exact ⟨⟨by decide, by decide, 1, by decide, hd⟩,
    (C2_nearest_first_min exTreeB [(0 : ℚ)]).2 (by decide) (by decide)
      ⟨1, by decide, hd⟩⟩

/-- C10: on a guard-passing call, `Nearest` reports found exactly when some
point lies at metric distance strictly below `math.MaxFloat64`; and there is
a non-empty, dimension-matching index (a point at Manhattan distance exactly
`MaxFloat64`) for which it reports not-found. -/
theorem C10_found_iff_below_max :
    (∀ (t : KDTree ℚ) (q : List ℚ), q.length = t.dim → t.points ≠ [] →
      ((t.Nearest q).2.2 = true ↔
        ∃ j, j < t.points.length ∧
          t.metric q (t.points.getD j default).Coords < maxFloat64 ℚ)) ∧
    (∃ (t : KDTree ℚ) (q : List ℚ), q.length = t.dim ∧ t.points ≠ [] ∧
      (t.Nearest q).2.2 = false) := by
  constructor
  · intro t q hq hne
    rcases Nearest_characterization t q hq hne with ⟨hall, heq⟩ | ⟨j, hj, heq, hlt, _, _⟩
    · rw [heq]
      refine iff_of_false (by simp) ?_
      rintro ⟨j, hj, hlt⟩
      exact hall j hj hlt
    · rw [heq]
      exact iff_of_true rfl ⟨j, hj, hlt⟩
  · refine ⟨exTreeA, [(0 : ℚ)], by decide, by decide, ?_⟩
    rw [exTreeA_nearest_eval]

/-- The `(idx, dist)` records cover exactly the point positions. -/
theorem length_distPairs (m : List F → List F → F) (q : List F)
    (pts : List (KDPoint F)) : (distPairs m q pts).length = pts.length := by
  simp [distPairs, List.enum_length]

/-- Every `(idx, dist)` record indexes a point and carries its distance. -/
theorem mem_distPairs {m : List F → List F → F} {q : List F}
    {pts : List (KDPoint F)} {e : ℕ × F} (h : e ∈ distPairs m q pts) :
    e.1 < pts.length ∧ e.2 = m q (pts.getD e.1 default).Coords := by
  simp only [distPairs, List.mem_map] at h
  obtain ⟨ip, hip, rfl⟩ := h
  obtain ⟨j, hj, hgj⟩ := List.mem_iff_getElem.mp hip
  have hjlen : j < pts.length := by simpa [List.enum_length] using hj
  have hips : ip = (j, pts[j]) := by rw [← hgj]; simp [List.getElem_enum]
  subst hips
  exact ⟨hjlen, by rw [List.getD_eq_getElem pts default hjlen]⟩

/-- Reading the points back from the `(idx, dist)` records recovers the
point list. -/
theorem distPairs_map_getD (m : List F → List F → F) (q : List F)
    (pts : List (KDPoint F)) :
    (distPairs m q pts).map (fun e => pts.getD e.1 default) = pts := by
  apply List.ext_getElem
  · simp [distPairs, List.enum_length]
  · intro i h1 h2
    simp only [distPairs, List.map_map, List.getElem_map, List.getElem_enum,
      Function.comp_apply]
    exact List.getD_eq_getElem pts default h2

/-- The ascending sort by distance produces a list pairwise-sorted on the
distance component. -/
theorem mergeSort_dist_pairwise (l : List (ℕ × F)) :
    List.Pairwise (fun a b : ℕ × F => a.2 ≤ b.2)
      (l.mergeSort (fun a b => decide (a.2 ≤ b.2))) := by
  have := @List.sorted_mergeSort (ℕ × F) (fun a b : ℕ × F => decide (a.2 ≤ b.2))
    (fun a b c h1 h2 => by simp at h1 h2 ⊢; exact le_trans h1 h2)
    (fun a b => by simpa using le_total a.2 b.2) l
  simpa [List.Sorted] using this

/-- C3: `KNearest` returns empty on a failing guard (`k ≤ 0`, dimension
mismatch, empty index); otherwise it returns exactly `min(k, n)`
neighbor/distance pairs, distances ascending and matching their neighbors,
and with `k ≥ n` the neighbors are a permutation of the whole index. -/
theorem C3_knearest (t : KDTree F) (q : List F) (k : Int) :
    ((k ≤ 0 ∨ q.length ≠ t.dim ∨ t.points = []) → t.KNearest q k = ([], [])) ∧
    (0 < k → q.length = t.dim → t.points ≠ [] →
      (t.KNearest q k).1.length = min k.toNat t.points.length ∧
      (t.KNearest q k).2.length = min k.toNat t.points.length ∧
      List.Sorted (· ≤ ·) (t.KNearest q k).2 ∧
      (t.KNearest q k).2 = (t.KNearest q k).1.map (fun p => t.metric q p.Coords) ∧
      ((t.points.length : Int) ≤ k → (t.KNearest q k).1.Perm t.points)) := by
  constructor
  · intro h
    have hguard : k ≤ 0 ∨ q.length ≠ t.dim ∨ t.points.length = 0 := by
      rcases h with h | h | h
      exacts [Or.inl h, Or.inr (Or.inl h), Or.inr (Or.inr (by simp [h]))]
    simp only [KDTree.KNearest, if_pos hguard]
  · intro hk hq hne
    have hguard : ¬ (k ≤ 0 ∨ q.length ≠ t.dim ∨ t.points.length = 0) := by
      push_neg
      refine ⟨hk, hq, ?_⟩
      simpa [List.length_eq_zero] using hne
    have hKN : t.KNearest q k =
        (((((distPairs t.metric q t.points).mergeSort
              (fun a b => decide (a.2 ≤ b.2))).take
            (min k.toNat ((distPairs t.metric q t.points).mergeSort
              (fun a b => decide (a.2 ≤ b.2))).length)).map
          (fun e => t.points.getD e.1 default),
         ((((distPairs t.metric q t.points).mergeSort
              (fun a b => decide (a.2 ≤ b.2))).take
            (min k.toNat ((distPairs t.metric q t.points).mergeSort
              (fun a b => decide (a.2 ≤ b.2))).length)).map
          (fun e => e.2)))) := by
      simp only [KDTree.KNearest, if_neg hguard]
    set tmp := (distPairs t.metric q t.points).mergeSort
      (fun a b => decide (a.2 ≤ b.2)) with htmp
    have hlen_tmp : tmp.length = t.points.length := by
      rw [htmp, List.length_mergeSort, length_distPairs]
    set k2 := min k.toNat tmp.length with hk2
    have hmemtmp : ∀ e ∈ tmp, e.1 < t.points.length ∧
        e.2 = t.metric q (t.points.getD e.1 default).Coords := by
      intro e he
      exact mem_distPairs (List.mem_mergeSort.mp he)
    refine ⟨?_, ?_, ?_, ?_, ?_⟩
    · rw [hKN]
      simp only [List.length_map, List.length_take]
      omega
    · rw [hKN]
      simp only [List.length_map, List.length_take]
      omega
    · rw [hKN]
      exact List.Pairwise.map _ (fun a b hab => hab)
        ((mergeSort_dist_pairwise (distPairs t.metric q t.points)).take)
    · rw [hKN]
      simp only [List.map_map]
      apply List.map_eq_map_iff.mpr
      intro e he
      have := (hmemtmp e (List.mem_of_mem_take he)).2
      simpa using this
    · intro hkn
      rw [hKN]
      simp only
      have hk2full : k2 = tmp.length := by omega
      rw [hk2full, List.take_length]
      have h1 := (List.mergeSort_perm (distPairs t.metric q t.points)
        (fun a b => decide (a.2 ≤ b.2))).map (fun e => t.points.getD e.1 default)
      rw [distPairs_map_getD] at h1
      rw [htmp]
      exact h1

/-- C4: `Radius` returns empty (not an error) on a failing guard (`r < 0`,
dimension mismatch, empty index); otherwise it returns exactly the
(point, distance) pairs at distance `≤ r` — boundary points included — with
distances ascending and matching their neighbors. -/
theorem C4_radius (t : KDTree F) (q : List F) (r : F) :
    ((r < 0 ∨ q.length ≠ t.dim ∨ t.points = []) → t.Radius q r = ([], [])) ∧
    (0 ≤ r → q.length = t.dim → t.points ≠ [] →
      ((t.Radius q r).1.zip (t.Radius q r).2).Perm
        (((distPairs t.metric q t.points).filter (fun e => decide (e.2 ≤ r))).map
          (fun e => (t.points.getD e.1 default, e.2))) ∧
      List.Sorted (· ≤ ·) (t.Radius q r).2 ∧
      (t.Radius q r).2 = (t.Radius q r).1.map (fun p => t.metric q p.Coords)) := by
  constructor
  · intro h
    have hguard : r < 0 ∨ q.length ≠ t.dim ∨ t.points.length = 0 := by
      rcases h with h | h | h
      exacts [Or.inl h, Or.inr (Or.inl h), Or.inr (Or.inr (by simp [h]))]
    simp only [KDTree.Radius, if_pos hguard]
  · intro hr hq hne
    have hguard : ¬ (r < 0 ∨ q.length ≠ t.dim ∨ t.points.length = 0) := by
      push_neg
      refine ⟨hr, hq, ?_⟩
      simpa [List.length_eq_zero] using hne
    have hR : t.Radius q r =
        ((((distPairs t.metric q t.points).filter
              (fun e => decide (e.2 ≤ r))).mergeSort
            (fun a b => decide (a.2 ≤ b.2))).map (fun e => t.points.getD e.1 default),
         (((distPairs t.metric q t.points).filter
              (fun e => decide (e.2 ≤ r))).mergeSort
            (fun a b => decide (a.2 ≤ b.2))).map (fun e => e.2)) := by
      simp only [KDTree.Radius, if_neg hguard]
    set sel := ((distPairs t.metric q t.points).filter
      (fun e => decide (e.2 ≤ r))).mergeSort (fun a b => decide (a.2 ≤ b.2)) with hsel
    refine ⟨?_, ?_, ?_⟩
    · rw [hR]
      simp only
      rw [List.zip_map']
      exact (List.mergeSort_perm _ _).map _
    · rw [hR]
      exact List.Pairwise.map _ (fun a b hab => hab)
        (mergeSort_dist_pairwise _)
    · rw [hR]
      simp only [List.map_map]
      apply List.map_eq_map_iff.mpr
      intro e he
      have hef : e ∈ (distPairs t.metric q t.points).filter
          (fun e => decide (e.2 ≤ r)) := List.mem_mergeSort.mp he
      have := (mem_distPairs (List.mem_filter.mp hef).1).2
      simpa using this

/-! ### Map and constructor lemmas -/

/-- Lookup on a cons cell. -/
theorem mapLookup_cons (e : String × ℕ) (m : List (String × ℕ)) (k : String) :
    mapLookup (e :: m) k = if e.1 = k then some e.2 else mapLookup m k := by
  by_cases h : e.1 = k
  · rw [mapLookup, List.find?_cons_of_pos _ (by simpa using h), if_pos h]
    rfl
  · rw [mapLookup, List.find?_cons_of_neg _ (by simpa using h), if_neg h]
    rfl

/-- Lookup after a map write. -/
theorem mapLookup_mapInsert (m : List (String × ℕ)) (k : String) (v : ℕ)
    (k2 : String) :
    mapLookup (mapInsert m k v) k2 = if k2 = k then some v else mapLookup m k2 := by
  induction m with
  | nil =>
    by_cases h : k2 = k
    · subst h
      simp [mapInsert, mapLookup_cons]
    · simp [mapInsert, mapLookup_cons, h, Ne.symm h, mapLookup]
  | cons e rest ih =>
    by_cases hek : e.1 = k
    · by_cases h : k2 = k
      · subst h
        simp [mapInsert, hek, mapLookup_cons]
      · simp [mapInsert, hek, mapLookup_cons, h, Ne.symm h]
    · by_cases h : k2 = k
      · subst h
        simp [mapInsert, hek, mapLookup_cons, ih]
      · simp [mapInsert, hek, mapLookup_cons, ih, h]

/-- A write of a fresh key appends. -/
theorem mapInsert_of_lookup_none (m : List (String × ℕ)) (k : String) (v : ℕ)
    (h : mapLookup m k = none) : mapInsert m k v = m ++ [(k, v)] := by
  induction m with
  | nil => rfl
  | cons e rest ih =>
    rw [mapLookup_cons] at h
    by_cases hek : e.1 = k
    · rw [if_pos hek] at h
      exact absurd h (by simp)
    · rw [if_neg hek] at h
      rw [mapInsert, if_neg (by simpa using hek), ih h]
      rfl

/-- Membership in the non-empty-id list. -/
theorem mem_nonEmptyIds_iff {pts : List (KDPoint F)} {id : String} :
    id ∈ nonEmptyIds pts ↔ ∃ p ∈ pts, p.ID = id ∧ p.ID ≠ "" := by
  simp only [nonEmptyIds, List.mem_map, List.mem_filter, Bool.not_eq_eq_eq_not,
    Bool.not_true, beq_eq_false_iff_ne, ne_eq]
  constructor
  · rintro ⟨p, ⟨hp, hne⟩, rfl⟩
    exact ⟨p, hp, rfl, hne⟩
  · rintro ⟨p, hp, rfl, hne⟩
    exact ⟨p, ⟨hp, hne⟩, rfl⟩

/-- `nonEmptyIds` on a cons cell. -/
theorem nonEmptyIds_cons (p : KDPoint F) (rest : List (KDPoint F)) :
    nonEmptyIds (p :: rest) =
      if p.ID = "" then nonEmptyIds rest else p.ID :: nonEmptyIds rest := by
  by_cases h : p.ID = "" <;> simp [nonEmptyIds, h]

/-- A position with a non-empty id contributes that id. -/
theorem getD_mem_nonEmptyIds {pts : List (KDPoint F)} {i : ℕ}
    (h : i < pts.length) (hne : (pts.getD i default).ID ≠ "") :
    (pts.getD i default).ID ∈ nonEmptyIds pts := by
  refine mem_nonEmptyIds_iff.mpr ⟨pts.getD i default, ?_, rfl, hne⟩
  rw [List.getD_eq_getElem pts default h]
  exact List.getElem_mem h

/-- An id-run of the constructor loop that succeeds appends exactly the
non-empty-id entries of the remaining points. -/
theorem buildIdIndex_ok_entries {dim : ℕ} :
    ∀ (rest : List (KDPoint F)) (acc : List (String × ℕ)) (i : ℕ)
      (idx : List (String × ℕ)),
      buildIdIndex dim acc i rest = Except.ok idx → idx = acc ++ idEntries i rest := by
  intro rest
  induction rest with
  | nil =>
    intro acc i idx h
    simp only [buildIdIndex] at h
    cases h
    simp [idEntries]
  | cons p rest ih =>
    intro acc i idx h
    simp only [buildIdIndex] at h
    by_cases h1 : p.Coords.length ≠ dim
    · rw [if_pos h1] at h
      cases h
    · rw [if_neg h1] at h
      by_cases h2 : p.ID ≠ "" ∧ (mapLookup acc p.ID).isSome
      · rw [if_pos h2] at h
        cases h
      · rw [if_neg h2] at h
        by_cases hid : p.ID = ""
        · rw [if_neg (by simpa using hid)] at h
          have := ih _ _ _ h
          simp [idEntries, hid, this]
        · rw [if_pos (by simpa using hid)] at h
          have hnone : mapLookup acc p.ID = none := by
            by_contra hn
            exact h2 ⟨hid, Option.ne_none_iff_isSome.mp hn⟩
          have hrec := ih _ _ _ h
          rw [mapInsert_of_lookup_none acc p.ID i hnone] at hrec
          simp [idEntries, hid, hrec, List.append_assoc]

/-- A successful id-run requires every remaining point to match the
dimension. -/
theorem buildIdIndex_ok_lengths {dim : ℕ} :
    ∀ (rest : List (KDPoint F)) (acc : List (String × ℕ)) (i : ℕ)
      (idx : List (String × ℕ)),
      buildIdIndex dim acc i rest = Except.ok idx →
        ∀ p ∈ rest, p.Coords.length = dim := by
  intro rest
  induction rest with
  | nil => intro acc i idx _ p hp; cases hp
  | cons p rest ih =>
    intro acc i idx h p2 hp2
    simp only [buildIdIndex] at h
    by_cases h1 : p.Coords.length ≠ dim
    · rw [if_pos h1] at h; cases h
    · rw [if_neg h1] at h
      by_cases h2 : p.ID ≠ "" ∧ (mapLookup acc p.ID).isSome
      · rw [if_pos h2] at h; cases h
      · rw [if_neg h2] at h
        rcases List.mem_cons.mp hp2 with rfl | hp2
        · exact not_ne_iff.mp h1
        · exact ih _ _ _ h p2 hp2

/-- A successful id-run requires the remaining ids to be fresh for the
accumulator and mutually distinct. -/
theorem buildIdIndex_ok_fresh {dim : ℕ} :
    ∀ (rest : List (KDPoint F)) (acc : List (String × ℕ)) (i : ℕ)
      (idx : List (String × ℕ)),
      buildIdIndex dim acc i rest = Except.ok idx →
        (∀ p ∈ rest, p.ID ≠ "" → mapLookup acc p.ID = none) ∧
        (nonEmptyIds rest).Nodup := by
  intro rest
  induction rest with
  | nil => intro acc i idx _; exact ⟨fun p hp => absurd hp (List.not_mem_nil p), by simp [nonEmptyIds]⟩
  | cons p rest ih =>
    intro acc i idx h
    simp only [buildIdIndex] at h
    by_cases h1 : p.Coords.length ≠ dim
    · rw [if_pos h1] at h; cases h
    · rw [if_neg h1] at h
      by_cases h2 : p.ID ≠ "" ∧ (mapLookup acc p.ID).isSome
      · rw [if_pos h2] at h; cases h
      · rw [if_neg h2] at h
        by_cases hid : p.ID = ""
        · rw [if_neg (by simpa using hid)] at h
          obtain ⟨hfresh, hnodup⟩ := ih _ _ _ h
          refine ⟨?_, by simpa [nonEmptyIds_cons, hid] using hnodup⟩
          intro p2 hp2 hne2
          rcases List.mem_cons.mp hp2 with rfl | hp2
          · exact absurd hid hne2
          · exact hfresh p2 hp2 hne2
        · rw [if_pos (by simpa using hid)] at h
          have hnone : mapLookup acc p.ID = none := by
            by_contra hn
            exact h2 ⟨hid, Option.ne_none_iff_isSome.mp hn⟩
          obtain ⟨hfresh, hnodup⟩ := ih _ _ _ h
          have hfresh2 : ∀ p2 ∈ rest, p2.ID ≠ "" → mapLookup acc p2.ID = none := by
            intro p2 hp2 hne2
            have := hfresh p2 hp2 hne2
            rw [mapLookup_mapInsert] at this
            by_cases hsame : p2.ID = p.ID
            · rw [if_pos hsame] at this; cases this
            · rwa [if_neg hsame] at this
          have hnotmem : p.ID ∉ nonEmptyIds rest := by
            intro hmem
            rcases mem_nonEmptyIds_iff.mp hmem with ⟨p2, hp2, hpeq, hpne⟩
            have := hfresh p2 hp2 hpne
            rw [mapLookup_mapInsert, if_pos hpeq] at this
            cases this
          refine ⟨?_, ?_⟩
          · intro p2 hp2 hne2
            rcases List.mem_cons.mp hp2 with rfl | hp2
            · exact hnone
            · exact hfresh2 p2 hp2 hne2
          · rw [nonEmptyIds_cons, if_neg hid]
            exact List.nodup_cons.mpr ⟨hnotmem, hnodup⟩

/-- Conversely, matching dimensions plus fresh, mutually distinct ids make
the id-run succeed. -/
theorem buildIdIndex_ok_of {dim : ℕ} :
    ∀ (rest : List (KDPoint F)) (acc : List (String × ℕ)) (i : ℕ),
      (∀ p ∈ rest, p.Coords.length = dim) →
      (∀ p ∈ rest, p.ID ≠ "" → mapLookup acc p.ID = none) →
      (nonEmptyIds rest).Nodup →
      ∃ idx, buildIdIndex dim acc i rest = Except.ok idx := by
  intro rest
  induction rest with
  | nil => intro acc i _ _ _; exact ⟨acc, rfl⟩
  | cons p rest ih =>
    intro acc i hlen hfresh hnodup
    have h1 : ¬ (p.Coords.length ≠ dim) := not_ne_iff.mpr (hlen p (by simp))
    have h2 : ¬ (p.ID ≠ "" ∧ (mapLookup acc p.ID).isSome) := by
      rintro ⟨hne, hsome⟩
      rw [hfresh p (by simp) hne] at hsome
      cases hsome
    by_cases hid : p.ID = ""
    · have hfresh2 : ∀ p2 ∈ rest, p2.ID ≠ "" → mapLookup acc p2.ID = none :=
        fun p2 hp2 hne2 => hfresh p2 (by simp [hp2]) hne2
      have hnodup2 : (nonEmptyIds rest).Nodup := by
        simpa [nonEmptyIds_cons, hid] using hnodup
      obtain ⟨idx, hidx⟩ := ih acc (i + 1)
        (fun p2 hp2 => hlen p2 (by simp [hp2])) hfresh2 hnodup2
      refine ⟨idx, ?_⟩
      simp only [buildIdIndex]
      rw [if_neg h1, if_neg h2, if_neg (by simpa using hid)]
      exact hidx
    · rw [nonEmptyIds_cons, if_neg hid] at hnodup
      obtain ⟨hnotmem, hnodup2⟩ := List.nodup_cons.mp hnodup
      have hfresh2 : ∀ p2 ∈ rest, p2.ID ≠ "" →
          mapLookup (mapInsert acc p.ID i) p2.ID = none := by
        intro p2 hp2 hne2
        rw [mapLookup_mapInsert]
        have hdiff : p2.ID ≠ p.ID := by
          intro hsame
          exact hnotmem (hsame ▸ mem_nonEmptyIds_iff.mpr ⟨p2, hp2, rfl, hne2⟩)
        rw [if_neg hdiff]
        exact hfresh p2 (by simp [hp2]) hne2
      obtain ⟨idx, hidx⟩ := ih (mapInsert acc p.ID i) (i + 1)
        (fun p2 hp2 => hlen p2 (by simp [hp2])) hfresh2 hnodup2
      refine ⟨idx, ?_⟩
      simp only [buildIdIndex]
      rw [if_neg h1, if_neg h2, if_pos (by simpa using hid)]
      exact hidx

/-- The id-run only ever reports `dimMismatch` or `duplicateID`. -/
theorem buildIdIndex_error_cases {dim : ℕ} :
    ∀ (rest : List (KDPoint F)) (acc : List (String × ℕ)) (i : ℕ) (e : KDError),
      buildIdIndex dim acc i rest = Except.error e →
        e = KDError.dimMismatch ∨ e = KDError.duplicateID := by
  intro rest
  induction rest with
  | nil => intro acc i e h; cases h
  | cons p rest ih =>
    intro acc i e h
    simp only [buildIdIndex] at h
    by_cases h1 : p.Coords.length ≠ dim
    · rw [if_pos h1] at h
      cases h
      exact Or.inl rfl
    · rw [if_neg h1] at h
      by_cases h2 : p.ID ≠ "" ∧ (mapLookup acc p.ID).isSome
      · rw [if_pos h2] at h
        cases h
        exact Or.inr rfl
      · rw [if_neg h2] at h
        exact ih _ _ _ h

/-- A `dimMismatch` from the id-run pins an offending point. -/
theorem buildIdIndex_error_mismatch {dim : ℕ} :
    ∀ (rest : List (KDPoint F)) (acc : List (String × ℕ)) (i : ℕ),
      buildIdIndex dim acc i rest = Except.error KDError.dimMismatch →
        ∃ p ∈ rest, p.Coords.length ≠ dim := by
  intro rest
  induction rest with
  | nil => intro acc i h; cases h
  | cons p rest ih =>
    intro acc i h
    simp only [buildIdIndex] at h
    by_cases h1 : p.Coords.length ≠ dim
    · exact ⟨p, by simp, h1⟩
    · rw [if_neg h1] at h
      by_cases h2 : p.ID ≠ "" ∧ (mapLookup acc p.ID).isSome
      · rw [if_pos h2] at h; cases h
      · rw [if_neg h2] at h
        obtain ⟨p2, hp2, hne⟩ := ih _ _ h
        exact ⟨p2, by simp [hp2], hne⟩

/-- With matching dimensions the id-run never reports `dimMismatch`. -/
theorem buildIdIndex_no_mismatch {dim : ℕ} :
    ∀ (rest : List (KDPoint F)) (acc : List (String × ℕ)) (i : ℕ),
      (∀ p ∈ rest, p.Coords.length = dim) →
      buildIdIndex dim acc i rest ≠ Except.error KDError.dimMismatch := by
  intro rest
  induction rest with
  | nil => intro acc i _ h; cases h
  | cons p rest ih =>
    intro acc i hlen h
    simp only [buildIdIndex] at h
    rw [if_neg (not_ne_iff.mpr (hlen p (by simp)))] at h
    by_cases h2 : p.ID ≠ "" ∧ (mapLookup acc p.ID).isSome
    · rw [if_pos h2] at h; cases h
    · rw [if_neg h2] at h
      exact ih _ _ (fun p2 hp2 => hlen p2 (by simp [hp2])) h

/-- With fresh, mutually distinct ids the id-run never reports
`duplicateID`. -/
theorem buildIdIndex_no_dup {dim : ℕ} :
    ∀ (rest : List (KDPoint F)) (acc : List (String × ℕ)) (i : ℕ),
      (∀ p ∈ rest, p.ID ≠ "" → mapLookup acc p.ID = none) →
      (nonEmptyIds rest).Nodup →
      buildIdIndex dim acc i rest ≠ Except.error KDError.duplicateID := by
  intro rest
  induction rest with
  | nil => intro acc i _ _ h; cases h
  | cons p rest ih =>
    intro acc i hfresh hnodup h
    simp only [buildIdIndex] at h
    by_cases h1 : p.Coords.length ≠ dim
    · rw [if_pos h1] at h; cases h
    · rw [if_neg h1] at h
      have h2 : ¬ (p.ID ≠ "" ∧ (mapLookup acc p.ID).isSome) := by
        rintro ⟨hne, hsome⟩
        rw [hfresh p (by simp) hne] at hsome
        cases hsome
      rw [if_neg h2] at h
      by_cases hid : p.ID = ""
      · rw [if_neg (by simpa using hid)] at h
        have hnodup2 : (nonEmptyIds rest).Nodup := by
          simpa [nonEmptyIds_cons, hid] using hnodup
        exact ih acc (i + 1)
          (fun p2 hp2 hne2 => hfresh p2 (by simp [hp2]) hne2) hnodup2 h
      · rw [if_pos (by simpa using hid)] at h
        rw [nonEmptyIds_cons, if_neg hid] at hnodup
        obtain ⟨hnotmem, hnodup2⟩ := List.nodup_cons.mp hnodup
        have hfresh2 : ∀ p2 ∈ rest, p2.ID ≠ "" →
            mapLookup (mapInsert acc p.ID i) p2.ID = none := by
          intro p2 hp2 hne2
          rw [mapLookup_mapInsert]
          have hdiff : p2.ID ≠ p.ID := by
            intro hsame
            exact hnotmem (hsame ▸ mem_nonEmptyIds_iff.mpr ⟨p2, hp2, rfl, hne2⟩)
          rw [if_neg hdiff]
          exact hfresh p2 (by simp [hp2]) hne2
        exact ih (mapInsert acc p.ID i) (i + 1) hfresh2 hnodup2 h

/-- The four-way shape of a `NewKDTree` result. -/
theorem NewKDTree_shape (pts : List (KDPoint F)) (metric : List F → List F → F) :
    (pts = [] ∧ NewKDTree pts metric = Except.error KDError.emptyPoints) ∨
    (pts ≠ [] ∧ (pts.headD default).Coords.length = 0 ∧
      NewKDTree pts metric = Except.error KDError.zeroDim) ∨
    (pts ≠ [] ∧ (pts.headD default).Coords.length ≠ 0 ∧
      ((∃ idx, buildIdIndex (pts.headD default).Coords.length [] 0 pts = Except.ok idx ∧
          NewKDTree pts metric =
            Except.ok ⟨pts, (pts.headD default).Coords.length, metric, idx⟩) ∨
       (∃ e, buildIdIndex (pts.headD default).Coords.length [] 0 pts = Except.error e ∧
          NewKDTree pts metric = Except.error e))) := by
  by_cases hemp : pts = []
  · left
    subst hemp
    exact ⟨rfl, rfl⟩
  · right
    have hlen : ¬ (pts.length = 0) := by simpa [List.length_eq_zero] using hemp
    by_cases hdim : (pts.headD default).Coords.length = 0
    · left
      refine ⟨hemp, hdim, ?_⟩
      rw [NewKDTree, if_neg hlen]
      simp only [if_pos hdim]
    · right
      refine ⟨hemp, hdim, ?_⟩
      have heq : NewKDTree pts metric =
          (buildIdIndex (pts.headD default).Coords.length [] 0 pts).map
            (fun idx => ⟨pts, (pts.headD default).Coords.length, metric, idx⟩) := by
        rw [NewKDTree, if_neg hlen]
        simp only [if_neg hdim]
      cases hbuild : buildIdIndex (pts.headD default).Coords.length [] 0 pts with
      | ok idx =>
        left
        exact ⟨idx, rfl, by rw [heq, hbuild]; rfl⟩
      | error e =>
        right
        exact ⟨e, rfl, by rw [heq, hbuild]; rfl⟩

/-- `Insert` never changes the dimension. -/
theorem Insert_dim (t : KDTree F) (p : KDPoint F) : (t.Insert p).1.dim = t.dim := by
  rw [KDTree.Insert]
  by_cases h1 : p.Coords.length ≠ t.dim
  · rw [if_pos h1]
  · rw [if_neg h1]
    by_cases h2 : p.ID ≠ "" ∧ (mapLookup t.idIndex p.ID).isSome
    · rw [if_pos h2]
    · rw [if_neg h2]

/-- `DeleteByID` never changes the dimension. -/
theorem DeleteByID_dim (t : KDTree F) (id : String) :
    (t.DeleteByID id).1.dim = t.dim := by
  rw [KDTree.DeleteByID]
  by_cases h : id = ""
  · rw [if_pos h]
  · rw [if_neg h]
    cases hl : mapLookup t.idIndex id with
    | none => rfl
    | some idx => rfl

/-- C5: construction fails with `emptyPoints` exactly on an empty input,
with `zeroDim` exactly on a dimensionless first point, reports
`dimMismatch` only when some point disagrees with the first point's
dimension (and always does so when that is the only violation), reports
`duplicateID` only when two non-empty ids collide (and always does so when
that is the only violation), succeeds exactly when no condition is violated,
and on success the index holds exactly the input points with its dimension
fixed to the first point's coordinate length, unchanged by later inserts and
deletes.  (The error constructors carry no tree: no partial index exists.) -/
theorem C5_construct (pts : List (KDPoint F)) (metric : List F → List F → F) :
    (NewKDTree pts metric = Except.error KDError.emptyPoints ↔ pts = []) ∧
    (NewKDTree pts metric = Except.error KDError.zeroDim ↔
      pts ≠ [] ∧ (pts.headD default).Coords.length = 0) ∧
    (NewKDTree pts metric = Except.error KDError.dimMismatch →
      ∃ p ∈ pts, p.Coords.length ≠ (pts.headD default).Coords.length) ∧
    (pts ≠ [] → (pts.headD default).Coords.length ≠ 0 →
      (∃ p ∈ pts, p.Coords.length ≠ (pts.headD default).Coords.length) →
      (nonEmptyIds pts).Nodup →
      NewKDTree pts metric = Except.error KDError.dimMismatch) ∧
    (NewKDTree pts metric = Except.error KDError.duplicateID →
      ¬ (nonEmptyIds pts).Nodup) ∧
    (pts ≠ [] → (pts.headD default).Coords.length ≠ 0 →
      (∀ p ∈ pts, p.Coords.length = (pts.headD default).Coords.length) →
      ¬ (nonEmptyIds pts).Nodup →
      NewKDTree pts metric = Except.error KDError.duplicateID) ∧
    ((∃ t, NewKDTree pts metric = Except.ok t) ↔
      (pts ≠ [] ∧ (pts.headD default).Coords.length ≠ 0 ∧
        (∀ p ∈ pts, p.Coords.length = (pts.headD default).Coords.length) ∧
        (nonEmptyIds pts).Nodup)) ∧
    (∀ t, NewKDTree pts metric = Except.ok t →
      t.dim = (pts.headD default).Coords.length ∧ t.points = pts ∧
      (∀ p, (t.Insert p).1.dim = t.dim) ∧
      (∀ id, (t.DeleteByID id).1.dim = t.dim)) := by
  rcases NewKDTree_shape pts metric with
    ⟨hemp, hres⟩ | ⟨hemp, hdim, hres⟩ |
    ⟨hemp, hdim, ⟨idx, hbuild, hres⟩ | ⟨e, hbuild, hres⟩⟩
  · subst hemp
    refine ⟨iff_of_true hres rfl, ?_, ?_, ?_, ?_, ?_, ?_, ?_⟩
    · rw [hres]
      simp
    · rw [hres]
      intro h
      cases h
    · intro h
      exact absurd rfl h
    · rw [hres]
      intro h
      cases h
    · intro h
      exact absurd rfl h
    · rw [hres]
      constructor
      · rintro ⟨t, ht⟩
        cases ht
      · rintro ⟨h, _⟩
        exact absurd rfl h
    · rw [hres]
      intro t ht
      cases ht
  · refine ⟨?_, iff_of_true hres ⟨hemp, hdim⟩, ?_, ?_, ?_, ?_, ?_, ?_⟩
    · rw [hres]
      simp [hemp]
    · rw [hres]
      intro h
      cases h
    · intro _ hd
      exact absurd hdim hd
    · rw [hres]
      intro h
      cases h
    · intro _ hd
      exact absurd hdim hd
    · rw [hres]
      constructor
      · rintro ⟨t, ht⟩
        cases ht
      · rintro ⟨_, hd, _⟩
        exact absurd hdim hd
    · rw [hres]
      intro t ht
      cases ht
  · have hlens := buildIdIndex_ok_lengths pts [] 0 idx hbuild
    have hfresh := buildIdIndex_ok_fresh pts [] 0 idx hbuild
    refine ⟨?_, ?_, ?_, ?_, ?_, ?_, ?_, ?_⟩
    · rw [hres]
      simp [hemp]
    · rw [hres]
      refine iff_of_false (by simp) ?_
      rintro ⟨_, hd⟩
      exact hdim hd
    · rw [hres]
      intro h
      cases h
    · intro _ _ hmm _
      obtain ⟨p, hp, hne⟩ := hmm
      exact absurd (hlens p hp) hne
    · rw [hres]
      intro h
      cases h
    · intro _ _ _ hnd
      exact absurd hfresh.2 hnd
    · exact iff_of_true ⟨_, hres⟩ ⟨hemp, hdim, hlens, hfresh.2⟩
    · intro t ht
      rw [hres] at ht
      cases ht
      exact ⟨rfl, rfl, fun p => Insert_dim _ p, fun id => DeleteByID_dim _ id⟩
  · have hcases := buildIdIndex_error_cases pts [] 0 e hbuild
    refine ⟨?_, ?_, ?_, ?_, ?_, ?_, ?_, ?_⟩
    · rw [hres]
      constructor
      · intro h
        rcases hcases with rfl | rfl <;> cases h
      · intro h
        exact absurd h hemp
    · rw [hres]
      constructor
      · intro h
        rcases hcases with rfl | rfl <;> cases h
      · rintro ⟨_, hd⟩
        exact absurd hd hdim
    · rw [hres]
      intro h
      have he : e = KDError.dimMismatch := by
        cases h
        rfl
      subst he
      exact buildIdIndex_error_mismatch pts [] 0 hbuild
    · intro _ _ hmm hnd
      rw [hres]
      rcases hcases with rfl | rfl
      · rfl
      · exact absurd hbuild
          (buildIdIndex_no_dup pts [] 0 (fun p _ _ => rfl) hnd)
    · rw [hres]
      intro h
      have he : e = KDError.duplicateID := by
        cases h
        rfl
      subst he
      intro hnd
      exact buildIdIndex_no_dup pts [] 0 (fun p _ _ => rfl) hnd hbuild
    · intro _ _ hlens _
      rw [hres]
      rcases hcases with rfl | rfl
      · exact absurd hbuild (buildIdIndex_no_mismatch pts [] 0 hlens)
      · rfl
    · constructor
      · rintro ⟨t, ht⟩
        rw [hres] at ht
        cases ht
      · rintro ⟨_, _, hlens, hnd⟩
        rcases hcases with rfl | rfl
        · exact absurd hbuild (buildIdIndex_no_mismatch pts [] 0 hlens)
        · exact absurd hbuild
            (buildIdIndex_no_dup pts [] 0 (fun p _ _ => rfl) hnd)
    · intro t ht
      rw [hres] at ht
      cases ht

/-- C5: witness — the empty input fails with `emptyPoints`; a well-formed
one-point input constructs successfully. -/
theorem C5_witness :
    NewKDTree ([] : List (KDPoint ℚ)) ManhattanDistance =
      Except.error KDError.emptyPoints ∧
    (∃ t, NewKDTree [(⟨"a", [1], 0⟩ : KDPoint ℚ)] ManhattanDistance = Except.ok t) :=
  ⟨(C5_construct [] ManhattanDistance).1.mpr rfl,
   (C5_construct [(⟨"a", [1], 0⟩ : KDPoint ℚ)] ManhattanDistance).2.2.2.2.2.2.1.mpr
     ⟨by decide, by decide, by decide, by decide⟩⟩

/-- C3: witness instantiating the guard-passing case on the two-point index
`exTreeB` with query `[0]` and `k = 1`. -/
theorem C3_witness :
    ((0 : Int) < 1 ∧ [(0 : ℚ)].length = exTreeB.dim ∧ exTreeB.points ≠ []) ∧
    ((exTreeB.KNearest [(0 : ℚ)] 1).1.length =
        min (1 : Int).toNat exTreeB.points.length ∧
      (exTreeB.KNearest [(0 : ℚ)] 1).2.length =
        min (1 : Int).toNat exTreeB.points.length ∧
      List.Sorted (· ≤ ·) (exTreeB.KNearest [(0 : ℚ)] 1).2 ∧
      (exTreeB.KNearest [(0 : ℚ)] 1).2 =
        (exTreeB.KNearest [(0 : ℚ)] 1).1.map
          (fun p => exTreeB.metric [(0 : ℚ)] p.Coords) ∧
      ((exTreeB.points.length : Int) ≤ 1 →
        (exTreeB.KNearest [(0 : ℚ)] 1).1.Perm exTreeB.points)) :=
  ⟨⟨by decide, by decide, by decide⟩,
   (C3_knearest exTreeB [(0 : ℚ)] 1).2 (by decide) (by decide) (by decide)⟩

/-- C4: witness instantiating the guard-passing case on the two-point index
`exTreeB` with query `[0]` and radius `1`. -/
theorem C4_witness :
    ((0 : ℚ) ≤ 1 ∧ [(0 : ℚ)].length = exTreeB.dim ∧ exTreeB.points ≠ []) ∧
    (((exTreeB.Radius [(0 : ℚ)] 1).1.zip (exTreeB.Radius [(0 : ℚ)] 1).2).Perm
        (((distPairs exTreeB.metric [(0 : ℚ)] exTreeB.points).filter
            (fun e => decide (e.2 ≤ 1))).map
          (fun e => (exTreeB.points.getD e.1 default, e.2))) ∧
      List.Sorted (· ≤ ·) (exTreeB.Radius [(0 : ℚ)] 1).2 ∧
      (exTreeB.Radius [(0 : ℚ)] 1).2 =
        (exTreeB.Radius [(0 : ℚ)] 1).1.map
          (fun p => exTreeB.metric [(0 : ℚ)] p.Coords)) :=
  ⟨⟨by decide, by decide, by decide⟩,
   (C4_radius exTreeB [(0 : ℚ)] 1).2 (by decide) (by decide) (by decide)⟩

/-! ### Further map lemmas (for the delete path and the invariant) -/

/-- A successful lookup returns an entry of the map. -/
theorem mapLookup_mem {m : List (String × ℕ)} {k : String} {v : ℕ}
    (h : mapLookup m k = some v) : (k, v) ∈ m := by
  induction m with
  | nil => cases h
  | cons e rest ih =>
    rw [mapLookup_cons] at h
    by_cases hek : e.1 = k
    · rw [if_pos hek] at h
      cases h
      rw [← hek]
      simp
    · rw [if_neg hek] at h
      exact List.mem_cons_of_mem e (ih h)

/-- Membership after `delete`. -/
theorem mem_mapErase {m : List (String × ℕ)} {k : String} {e : String × ℕ} :
    e ∈ mapErase m k ↔ e ∈ m ∧ e.1 ≠ k := by
  simp [mapErase, List.mem_filter]

/-- Lookup after `delete`. -/
theorem mapLookup_mapErase (m : List (String × ℕ)) (k k2 : String) :
    mapLookup (mapErase m k) k2 = if k2 = k then none else mapLookup m k2 := by
  induction m with
  | nil =>
    by_cases h : k2 = k <;> simp [mapErase, mapLookup, h]
  | cons e rest ih =>
    by_cases hek : e.1 = k
    · have he : mapErase (e :: rest) k = mapErase rest k := by
        simp [mapErase, hek]
      rw [he, ih, mapLookup_cons]
      by_cases h : k2 = k
      · simp only [if_pos h]
      · simp only [if_neg h,
          if_neg (show ¬ e.1 = k2 from fun hh => h (hek.symm.trans hh).symm)]
    · have he : mapErase (e :: rest) k = e :: mapErase rest k := by
        simp [mapErase, hek]
      rw [he, mapLookup_cons, ih, mapLookup_cons]
      by_cases h2 : e.1 = k2
      · simp only [if_pos h2,
          if_neg (show ¬ k2 = k from fun hh => hek (h2.trans hh))]
      · simp only [if_neg h2]

/-- Membership after a map write, given distinct keys. -/
theorem mem_mapInsert {m : List (String × ℕ)} {k : String} {v : ℕ}
    {e : String × ℕ} (hnd : (m.map (fun x => x.1)).Nodup)
    (h : e ∈ mapInsert m k v) : e = (k, v) ∨ (e ∈ m ∧ e.1 ≠ k) := by
  induction m with
  | nil =>
    rcases List.mem_singleton.mp h with rfl
    exact Or.inl rfl
  | cons e2 rest ih =>
    rw [List.map_cons, List.nodup_cons] at hnd
    obtain ⟨hnot, hnd2⟩ := hnd
    by_cases hek : e2.1 = k
    · rw [mapInsert, if_pos (by simpa using hek)] at h
      rcases List.mem_cons.mp h with rfl | h2
      · exact Or.inl rfl
      · refine Or.inr ⟨List.mem_cons_of_mem e2 h2, ?_⟩
        intro hcontra
        exact hnot (hek ▸ hcontra ▸ List.mem_map_of_mem (fun x => x.1) h2)
    · rw [mapInsert, if_neg (by simpa using hek)] at h
      rcases List.mem_cons.mp h with heq | h2
      · refine Or.inr ⟨?_, ?_⟩
        · rw [heq]
          exact List.mem_cons_self e2 rest
        · rw [heq]
          exact hek
      · rcases ih hnd2 h2 with heq2 | ⟨h3, h4⟩
        · exact Or.inl heq2
        · exact Or.inr ⟨List.mem_cons_of_mem e2 h3, h4⟩

/-- A map write preserves distinctness of keys. -/
theorem keys_nodup_mapInsert (m : List (String × ℕ)) (k : String) (v : ℕ)
    (hnd : (m.map (fun x => x.1)).Nodup) :
    ((mapInsert m k v).map (fun x => x.1)).Nodup := by
  induction m with
  | nil => simp [mapInsert]
  | cons e rest ih =>
    rw [List.map_cons, List.nodup_cons] at hnd
    obtain ⟨hnot, hnd2⟩ := hnd
    by_cases hek : e.1 = k
    · rw [mapInsert, if_pos (by simpa using hek)]
      rw [List.map_cons, List.nodup_cons]
      exact ⟨by rw [← hek]; exact hnot, hnd2⟩
    · rw [mapInsert, if_neg (by simpa using hek)]
      rw [List.map_cons, List.nodup_cons]
      refine ⟨?_, ih hnd2⟩
      intro hmem
      rcases List.mem_map.mp hmem with ⟨e2, he2, heq⟩
      rcases mem_mapInsert hnd2 he2 with rfl | ⟨h3, _⟩
      · exact hek heq.symm
      · exact hnot (heq ▸ List.mem_map_of_mem (fun x => x.1) h3)

/-- An absent key means no entry carries it. -/
theorem mapLookup_eq_none_iff {m : List (String × ℕ)} {k : String} :
    mapLookup m k = none ↔ k ∉ m.map (fun x => x.1) := by
  induction m with
  | nil => simp [mapLookup]
  | cons e rest ih =>
    rw [mapLookup_cons, List.map_cons]
    by_cases hek : e.1 = k
    · rw [if_pos hek]
      simp [hek]
    · rw [if_neg hek, ih]
      constructor
      · intro hnot hmem
        rcases List.mem_cons.mp hmem with heq | hmem2
        · exact hek heq.symm
        · exact hnot hmem2
      · intro hnot hmem
        exact hnot (List.mem_cons_of_mem _ hmem)

/-- Lookup distributes over append: a hit on the left wins. -/
theorem mapLookup_append_of_some {m1 : List (String × ℕ)} {k : String} {v : ℕ}
    (m2 : List (String × ℕ)) (h : mapLookup m1 k = some v) :
    mapLookup (m1 ++ m2) k = some v := by
  induction m1 with
  | nil => cases h
  | cons e rest ih =>
    rw [mapLookup_cons] at h
    rw [List.cons_append, mapLookup_cons]
    by_cases hek : e.1 = k
    · rwa [if_pos hek] at h ⊢
    · rw [if_neg hek] at h ⊢
      exact ih h

/-- Lookup distributes over append: a left miss falls through. -/
theorem mapLookup_append_of_none {m1 : List (String × ℕ)} {k : String}
    (m2 : List (String × ℕ)) (h : mapLookup m1 k = none) :
    mapLookup (m1 ++ m2) k = mapLookup m2 k := by
  induction m1 with
  | nil => rfl
  | cons e rest ih =>
    rw [mapLookup_cons] at h
    rw [List.cons_append, mapLookup_cons]
    by_cases hek : e.1 = k
    · rw [if_pos hek] at h
      cases h
    · rw [if_neg hek] at h ⊢
      exact ih h

/-! ### `getD` helpers -/

theorem getD_set_self {α : Type*} {l : List α} {i : ℕ} {a d : α}
    (h : i < l.length) : (l.set i a).getD i d = a := by
  rw [List.getD_eq_getElem _ _ (by simpa using h)]
  exact List.getElem_set_eq (by simpa using h)

theorem getD_set_other {α : Type*} {l : List α} {i j : ℕ} {a d : α}
    (hne : j ≠ i) (h : j < l.length) : (l.set i a).getD j d = l.getD j d := by
  rw [List.getD_eq_getElem _ _ (by simpa using h), List.getD_eq_getElem _ _ h]
  exact List.getElem_set_ne (Ne.symm hne) (by simpa using h)

theorem getD_take {α : Type*} {l : List α} {k j : ℕ} {d : α}
    (hjk : j < k) (h : j < l.length) : (l.take k).getD j d = l.getD j d := by
  rw [List.getD_eq_getElem _ _ (by simp [List.length_take]; omega),
    List.getD_eq_getElem _ _ h]
  exact List.getElem_take l

theorem getD_append_left {α : Type*} {l1 l2 : List α} {i : ℕ} {d : α}
    (h : i < l1.length) : (l1 ++ l2).getD i d = l1.getD i d := by
  rw [List.getD_eq_getElem _ _ (by simp; omega), List.getD_eq_getElem _ _ h]
  exact List.getElem_append_left h

theorem getD_concat_length {α : Type*} {l : List α} {p d : α} :
    (l ++ [p]).getD l.length d = p := by
  rw [List.getD_eq_getElem _ _ (by simp)]
  exact List.getElem_concat_length l p l.length rfl (by simp)

/-! ### `idEntries` lemmas and consistency of fresh constructions -/

/-- Every constructor entry names the point at its position. -/
theorem idEntries_mem {pts : List (KDPoint F)} :
    ∀ {i : ℕ} {e : String × ℕ}, e ∈ idEntries i pts →
      ∃ j, j < pts.length ∧ e = ((pts.getD j default).ID, i + j) ∧
        (pts.getD j default).ID ≠ "" := by
  induction pts with
  | nil => intro i e h; cases h
  | cons p rest ih =>
    intro i e h
    rw [idEntries] at h
    by_cases hid : p.ID = ""
    · rw [if_pos hid] at h
      obtain ⟨j, hj, he, hne⟩ := ih h
      refine ⟨j + 1, by simpa using hj, ?_, by simpa using hne⟩
      rw [List.getD_cons_succ, show i + (j + 1) = i + 1 + j from by omega]
      exact he
    · rw [if_neg hid] at h
      rcases List.mem_cons.mp h with heq | h2
      · exact ⟨0, by simp, by simpa using heq, by simpa using hid⟩
      · obtain ⟨j, hj, he, hne⟩ := ih h2
        refine ⟨j + 1, by simpa using hj, ?_, by simpa using hne⟩
        rw [List.getD_cons_succ, show i + (j + 1) = i + 1 + j from by omega]
        exact he

/-- The constructor entry keys are exactly the non-empty ids, in order. -/
theorem idEntries_keys (pts : List (KDPoint F)) :
    ∀ i, (idEntries i pts).map (fun e => e.1) = nonEmptyIds pts := by
  induction pts with
  | nil => intro i; simp [idEntries, nonEmptyIds]
  | cons p rest ih =>
    intro i
    rw [idEntries, nonEmptyIds_cons]
    by_cases hid : p.ID = ""
    · rw [if_pos hid, if_pos hid, ih]
    · rw [if_neg hid, if_neg hid, List.map_cons, ih]

/-- With distinct ids, looking a point's id up in the constructor entries
finds its position. -/
theorem idEntries_lookup {pts : List (KDPoint F)} :
    ∀ {i pos : ℕ}, (nonEmptyIds pts).Nodup → pos < pts.length →
      (pts.getD pos default).ID ≠ "" →
      mapLookup (idEntries i pts) ((pts.getD pos default).ID) = some (i + pos) := by
  induction pts with
  | nil => intro i pos _ h _; simp at h
  | cons p rest ih =>
    intro i pos hnd hpos hne
    rw [idEntries]
    by_cases hid : p.ID = ""
    · rw [if_pos hid]
      match pos with
      | 0 => rw [List.getD_cons_zero] at hne; exact absurd hid hne
      | pos + 1 =>
        rw [List.getD_cons_succ] at hne ⊢
        have hnd2 : (nonEmptyIds rest).Nodup := by
          simpa [nonEmptyIds_cons, hid] using hnd
        rw [show i + (pos + 1) = i + 1 + pos from by omega]
        exact ih hnd2 (by simpa using hpos) hne
    · rw [if_neg hid]
      rw [nonEmptyIds_cons, if_neg hid] at hnd
      obtain ⟨hnotmem, hnd2⟩ := List.nodup_cons.mp hnd
      match pos with
      | 0 =>
        rw [List.getD_cons_zero, mapLookup_cons,
          if_pos (show (p.ID, i).1 = p.ID from rfl)]
        simp
      | pos + 1 =>
        rw [List.getD_cons_succ] at hne ⊢
        rw [mapLookup_cons]
        have hdiff : ¬ ((p.ID, i).1 = (rest.getD pos default).ID) := by
          intro hsame
          refine hnotmem ?_
          show p.ID ∈ nonEmptyIds rest
          rw [show p.ID = (rest.getD pos default).ID from hsame]
          exact getD_mem_nonEmptyIds (by simpa using hpos) hne
        rw [if_neg hdiff, show i + (pos + 1) = i + 1 + pos from by omega]
        exact ih hnd2 (by simpa using hpos) hne

/-- A successful construction yields a consistent index. -/
theorem consistent_new {pts : List (KDPoint F)} {metric : List F → List F → F}
    {t : KDTree F} (h : NewKDTree pts metric = Except.ok t) : Consistent t := by
  rcases NewKDTree_shape pts metric with
    ⟨_, hres⟩ | ⟨_, _, hres⟩ |
    ⟨hemp, hdim, ⟨idx, hbuild, hres⟩ | ⟨e, hbuild, hres⟩⟩
  · rw [hres] at h; cases h
  · rw [hres] at h; cases h
  · rw [hres] at h
    cases h
    have hentries := buildIdIndex_ok_entries pts [] 0 idx hbuild
    rw [List.nil_append] at hentries
    have hfresh := buildIdIndex_ok_fresh pts [] 0 idx hbuild
    refine ⟨?_, ?_, ?_⟩
    · intro e he
      rw [hentries] at he
      obtain ⟨j, hj, rfl, hne⟩ := idEntries_mem he
      exact ⟨hne, by simpa using hj, by simp⟩
    · intro pos hpos hne
      show mapLookup idx _ = some pos
      rw [hentries]
      simpa using idEntries_lookup (i := 0) hfresh.2 hpos hne
    · show (idx.map (fun e => e.1)).Nodup
      rw [hentries, idEntries_keys]
      exact hfresh.2
  · rw [hres] at h; cases h

/-- An empty construction is consistent. -/
theorem consistent_newFromDim {dim : ℕ} {metric : List F → List F → F}
    {t : KDTree F} (h : NewKDTreeFromDim dim metric = Except.ok t) :
    Consistent t := by
  rw [NewKDTreeFromDim] at h
  by_cases hd : dim = 0
  · rw [if_pos hd] at h; cases h
  · rw [if_neg hd] at h
    cases h
    refine ⟨fun e he => absurd he (List.not_mem_nil e), ?_, by simp⟩
    intro pos hpos
    simp at hpos

/-- The successful `Insert` result, with its fields explicit. -/
theorem Insert_fst_eq (t : KDTree F) (p : KDPoint F)
    (h1 : ¬ p.Coords.length ≠ t.dim)
    (h2 : ¬ (p.ID ≠ "" ∧ (mapLookup t.idIndex p.ID).isSome)) :
    (t.Insert p).1 = (⟨t.points ++ [p], t.dim, t.metric,
      if p.ID ≠ "" then mapInsert t.idIndex p.ID ((t.points ++ [p]).length - 1)
      else t.idIndex⟩ : KDTree F) := by
  rw [KDTree.Insert, if_neg h1, if_neg h2]

/-- Consistency from the three field conditions (unfolding helper). -/
theorem consistent_mk (pts : List (KDPoint F)) (d : ℕ)
    (m : List F → List F → F) (idx : List (String × ℕ))
    (h1 : ∀ e ∈ idx, e.1 ≠ "" ∧ e.2 < pts.length ∧ (pts.getD e.2 default).ID = e.1)
    (h2 : ∀ pos < pts.length, (pts.getD pos default).ID ≠ "" →
        mapLookup idx ((pts.getD pos default).ID) = some pos)
    (h3 : (idx.map (fun e => e.1)).Nodup) :
    Consistent (⟨pts, d, m, idx⟩ : KDTree F) :=
  ⟨h1, h2, h3⟩

/-- `Insert` preserves consistency. -/
theorem consistent_insert {t : KDTree F} (hc : Consistent t) (p : KDPoint F) :
    Consistent (t.Insert p).1 := by
  obtain ⟨hc1, hc2, hc3⟩ := hc
  by_cases h1 : p.Coords.length ≠ t.dim
  · rw [KDTree.Insert, if_pos h1]
    exact ⟨hc1, hc2, hc3⟩
  · by_cases h2 : p.ID ≠ "" ∧ (mapLookup t.idIndex p.ID).isSome
    · rw [KDTree.Insert, if_neg h1, if_pos h2]
      exact ⟨hc1, hc2, hc3⟩
    · rw [Insert_fst_eq t p h1 h2]
      by_cases hid : p.ID = ""
      · rw [show (if p.ID ≠ "" then
              mapInsert t.idIndex p.ID ((t.points ++ [p]).length - 1)
            else t.idIndex) = t.idIndex from if_neg (by simpa using hid)]
        refine consistent_mk _ _ _ _ ?_ ?_ ?_
        · intro e he
          obtain ⟨hne, hlt, hgid⟩ := hc1 e he
          exact ⟨hne, by simp; omega, by rwa [getD_append_left hlt]⟩
        · intro pos hpos hne
          simp only [List.length_append, List.length_cons, List.length_nil] at hpos
          by_cases hlt : pos < t.points.length
          · rw [getD_append_left hlt] at hne ⊢
            exact hc2 pos hlt hne
          · have hposn : pos = t.points.length := by omega
            subst hposn
            rw [getD_concat_length] at hne
            exact absurd hid hne
        · exact hc3
      · have hlookup : mapLookup t.idIndex p.ID = none := by
          by_contra hn
          exact h2 ⟨hid, Option.ne_none_iff_isSome.mp hn⟩
        have hins : (if p.ID ≠ "" then
            mapInsert t.idIndex p.ID ((t.points ++ [p]).length - 1)
          else t.idIndex) = t.idIndex ++ [(p.ID, t.points.length)] := by
          rw [if_pos (by simpa using hid),
            show (t.points ++ [p]).length - 1 = t.points.length from by simp]
          exact mapInsert_of_lookup_none _ _ _ hlookup
        rw [hins]
        refine consistent_mk _ _ _ _ ?_ ?_ ?_
        · intro e he
          rcases List.mem_append.mp he with he2 | he2
          · obtain ⟨hne, hlt, hgid⟩ := hc1 e he2
            exact ⟨hne, by simp; omega, by rwa [getD_append_left hlt]⟩
          · rcases List.mem_singleton.mp he2 with rfl
            refine ⟨by simpa using hid, by simp, ?_⟩
            show ((t.points ++ [p]).getD t.points.length default).ID = p.ID
            rw [getD_concat_length]
        · intro pos hpos hne
          simp only [List.length_append, List.length_cons, List.length_nil] at hpos
          by_cases hlt : pos < t.points.length
          · rw [getD_append_left hlt] at hne ⊢
            exact mapLookup_append_of_some _ (hc2 pos hlt hne)
          · have hposn : pos = t.points.length := by omega
            subst hposn
            rw [getD_concat_length] at hne ⊢
            rw [mapLookup_append_of_none _ hlookup, mapLookup_cons,
              if_pos (show (p.ID, t.points.length).1 = p.ID from rfl)]
        · rw [List.map_append]
          refine List.Nodup.append hc3 (by simp) ?_
          intro a ha hb
          rcases List.mem_singleton.mp (by simpa using hb) with rfl
          exact (mapLookup_eq_none_iff.mp hlookup) ha

/-- The successful `DeleteByID` result, with its fields explicit. -/
theorem DeleteByID_fst_eq (t : KDTree F) (id : String) (idx : ℕ)
    (hne : ¬ id = "") (hl : mapLookup t.idIndex id = some idx) :
    (t.DeleteByID id).1 =
      (⟨(t.points.set idx (t.points.getD (t.points.length - 1) default)).take
          (t.points.length - 1),
        t.dim, t.metric,
        mapErase
          (if ((t.points.set idx
                (t.points.getD (t.points.length - 1) default)).getD idx default).ID ≠ ""
            then mapInsert t.idIndex
              ((t.points.set idx
                (t.points.getD (t.points.length - 1) default)).getD idx default).ID idx
            else t.idIndex) id⟩ : KDTree F) := by
  rw [KDTree.DeleteByID, if_neg hne, hl]

/-- `DeleteByID` preserves consistency. -/
theorem consistent_delete {t : KDTree F} (hc : Consistent t) (id : String) :
    Consistent (t.DeleteByID id).1 := by
  obtain ⟨hc1, hc2, hc3⟩ := hc
  by_cases hide : id = ""
  · rw [KDTree.DeleteByID, if_pos hide]
    exact ⟨hc1, hc2, hc3⟩
  · cases hl : mapLookup t.idIndex id with
    | none =>
      rw [KDTree.DeleteByID, if_neg hide, hl]
      exact ⟨hc1, hc2, hc3⟩
    | some idx =>
      obtain ⟨hidne0, hidxlt0, hidxid0⟩ := hc1 _ (mapLookup_mem hl)
      have hidxlt : idx < t.points.length := hidxlt0
      have hidxid : (t.points.getD idx default).ID = id := hidxid0
      have hmoved : ((t.points.set idx
          (t.points.getD (t.points.length - 1) default)).getD idx default)
          = t.points.getD (t.points.length - 1) default := getD_set_self hidxlt
      rw [DeleteByID_fst_eq t id idx hide hl, hmoved]
      have hget : ∀ j, j < t.points.length - 1 →
          ((t.points.set idx (t.points.getD (t.points.length - 1) default)).take
            (t.points.length - 1)).getD j default
          = if j = idx then t.points.getD (t.points.length - 1) default
            else t.points.getD j default := by
        intro j hj
        rw [getD_take hj (by rw [List.length_set]; omega)]
        by_cases hji : j = idx
        · subst hji
          rw [if_pos rfl]
          exact getD_set_self (by omega)
        · rw [if_neg hji]
          exact getD_set_other hji (by omega)
      have hlen2 : ((t.points.set idx
          (t.points.getD (t.points.length - 1) default)).take
            (t.points.length - 1)).length = t.points.length - 1 := by
        rw [List.length_take, List.length_set]
        omega
      by_cases hmid : (t.points.getD (t.points.length - 1) default).ID = ""
      · rw [if_neg (by simpa using hmid)]
        refine consistent_mk _ _ _ _ ?_ ?_ ?_
        · intro e he
          obtain ⟨heM, heid⟩ := mem_mapErase.mp he
          obtain ⟨hne2, hlt2, hgid2⟩ := hc1 e heM
          have hne_last : e.2 ≠ t.points.length - 1 := by
            intro hlast
            rw [hlast] at hgid2
            rw [hgid2] at hmid
            exact hne2 hmid
          have hne_idx : e.2 ≠ idx := by
            intro hidx2
            rw [hidx2] at hgid2
            rw [hidxid] at hgid2
            exact heid hgid2.symm
          refine ⟨hne2, ?_, ?_⟩
          · rw [hlen2]
            omega
          · rw [hget e.2 (by omega), if_neg hne_idx]
            exact hgid2
        · intro pos hpos hne2
          rw [hlen2] at hpos
          rw [hget pos hpos] at hne2 ⊢
          by_cases hpi : pos = idx
          · rw [if_pos hpi] at hne2
            exact absurd hmid hne2
          · rw [if_neg hpi] at hne2 ⊢
            have hid0 : (t.points.getD pos default).ID ≠ id := by
              intro hsame
              have h1 := hc2 pos (by omega) hne2
              rw [hsame, hl] at h1
              cases h1
              exact hpi rfl
            rw [mapLookup_mapErase, if_neg hid0]
            exact hc2 pos (by omega) hne2
        · exact List.Nodup.sublist ((List.filter_sublist _).map _) hc3
      · rw [if_pos (by simpa using hmid)]
        have hlookup_last : mapLookup t.idIndex
            ((t.points.getD (t.points.length - 1) default).ID)
            = some (t.points.length - 1) := hc2 (t.points.length - 1) (by omega) hmid
        have hlast_id : (t.points.getD (t.points.length - 1) default).ID = id →
            idx = t.points.length - 1 := by
          intro hsame
          rw [hsame, hl] at hlookup_last
          cases hlookup_last
          rfl
        refine consistent_mk _ _ _ _ ?_ ?_ ?_
        · intro e he
          obtain ⟨heM, heid⟩ := mem_mapErase.mp he
          rcases mem_mapInsert hc3 heM with heqe | ⟨heold, hene⟩
          · have he1 : e.1 = (t.points.getD (t.points.length - 1) default).ID := by
              rw [heqe]
            have he2 : e.2 = idx := by
              rw [heqe]
            have hne_last : idx ≠ t.points.length - 1 := by
              intro hlast
              refine heid ?_
              rw [he1, ← hlast]
              exact hidxid
            refine ⟨?_, ?_, ?_⟩
            · rw [he1]
              exact hmid
            · rw [he2, hlen2]
              omega
            · rw [he1, he2, hget idx (by omega), if_pos rfl]
          · obtain ⟨hne2, hlt2, hgid2⟩ := hc1 e heold
            have hne_last : e.2 ≠ t.points.length - 1 := by
              intro hlast
              rw [hlast] at hgid2
              exact hene hgid2.symm
            have hne_idx : e.2 ≠ idx := by
              intro hidx2
              rw [hidx2, hidxid] at hgid2
              exact heid hgid2.symm
            refine ⟨hne2, ?_, ?_⟩
            · rw [hlen2]
              omega
            · rw [hget e.2 (by omega), if_neg hne_idx]
              exact hgid2
        · intro pos hpos hne2
          rw [hlen2] at hpos
          rw [hget pos hpos] at hne2 ⊢
          by_cases hpi : pos = idx
          · rw [if_pos hpi] at hne2 ⊢
            have hid0 : (t.points.getD (t.points.length - 1) default).ID ≠ id := by
              intro hsame
              have := hlast_id hsame
              omega
            rw [mapLookup_mapErase, if_neg hid0, mapLookup_mapInsert, if_pos rfl]
            rw [hpi]
          · rw [if_neg hpi] at hne2 ⊢
            have hid0 : (t.points.getD pos default).ID ≠ id := by
              intro hsame
              have h1 := hc2 pos (by omega) hne2
              rw [hsame, hl] at h1
              cases h1
              exact hpi rfl
            have hid1 : (t.points.getD pos default).ID ≠
                (t.points.getD (t.points.length - 1) default).ID := by
              intro hsame
              have h1 := hc2 pos (by omega) hne2
              rw [hsame, hlookup_last] at h1
              cases h1
              omega
            rw [mapLookup_mapErase, if_neg hid0, mapLookup_mapInsert, if_neg hid1]
            exact hc2 pos (by omega) hne2
        · exact List.Nodup.sublist ((List.filter_sublist _).map _)
            (keys_nodup_mapInsert _ _ _ hc3)

/-- A found `Nearest` result is one of the index's points. -/
theorem Nearest_found_at (t : KDTree F) (q : List F)
    (h : (t.Nearest q).2.2 = true) :
    ∃ j, j < t.points.length ∧ (t.Nearest q).1 = t.points.getD j default := by
  by_cases hg : q.length ≠ t.dim ∨ t.points.length = 0
  · have h2 : t.Nearest q = (default, 0, false) := by
      rw [KDTree.Nearest, if_pos hg]
    rw [h2] at h
    cases h
  · push_neg at hg
    have hne : t.points ≠ [] := by
      intro hnil
      exact hg.2 (by simp [hnil])
    rcases Nearest_characterization t q hg.1 hne with ⟨_, heq⟩ | ⟨j, hj, heq, _, _, _⟩
    · rw [heq] at h
      cases h
    · exact ⟨j, hj, by rw [heq]⟩

/-- C7: every index reachable from a successful construction by any sequence
of `Insert` and `DeleteByID` calls keeps its id → position map consistent
with its point sequence: entries name the point at their position, every
non-empty-id point is found at exactly its position, and no id appears
twice. -/
theorem C7_invariant (t : KDTree F) (h : Reachable t) : Consistent t := by
  induction h with
  | ofNew pts metric t h => exact consistent_new h
  | ofNewFromDim dim metric t h => exact consistent_newFromDim h
  | ofInsert t p _ ih => exact consistent_insert ih p
  | ofDelete t id _ ih => exact consistent_delete ih id

/-- C7: witness — a freshly constructed one-point index is reachable and
hence consistent. -/
theorem C7_witness :
    Consistent (⟨[⟨"a", [(1 : ℚ)], 0⟩], 1, ManhattanDistance, [("a", 0)]⟩ : KDTree ℚ) :=
  C7_invariant _ (Reachable.ofNew [⟨"a", [(1 : ℚ)], 0⟩] ManhattanDistance _ rfl)

/-- C6: on a consistent index, `DeleteByID` returns false and leaves the
index unchanged for an empty or absent id; otherwise it swap-removes — the
last element overwrites the removed slot and the sequence is truncated —
the length drops by one, the deleted id is no longer mapped, and no
subsequent `Nearest` call ever returns a point with the deleted id. -/
theorem C6_delete (t : KDTree F) (id : String) (hc : Consistent t) :
    (id = "" → t.DeleteByID id = (t, false)) ∧
    (mapLookup t.idIndex id = none → t.DeleteByID id = (t, false)) ∧
    (∀ idx, mapLookup t.idIndex id = some idx →
      (t.DeleteByID id).2 = true ∧
      (t.DeleteByID id).1.points =
        (t.points.set idx (t.points.getD (t.points.length - 1) default)).take
          (t.points.length - 1) ∧
      (t.DeleteByID id).1.Len = t.points.length - 1 ∧
      mapLookup (t.DeleteByID id).1.idIndex id = none ∧
      (∀ q, ((t.DeleteByID id).1.Nearest q).2.2 = true →
        ((t.DeleteByID id).1.Nearest q).1.ID ≠ id)) := by
  obtain ⟨hc1, hc2, hc3⟩ := hc
  refine ⟨?_, ?_, ?_⟩
  · intro h
    rw [KDTree.DeleteByID, if_pos h]
  · intro h
    rw [KDTree.DeleteByID]
    by_cases hide : id = ""
    · rw [if_pos hide]
    · rw [if_neg hide, h]
  · intro idx hl
    obtain ⟨hidne0, hidxlt0, hidxid0⟩ := hc1 _ (mapLookup_mem hl)
    have hide : ¬ id = "" := hidne0
    have hidxlt : idx < t.points.length := hidxlt0
    have hidxid : (t.points.getD idx default).ID = id := hidxid0
    have hmoved : ((t.points.set idx
        (t.points.getD (t.points.length - 1) default)).getD idx default)
        = t.points.getD (t.points.length - 1) default := getD_set_self hidxlt
    have hpts : (t.DeleteByID id).1.points =
        (t.points.set idx (t.points.getD (t.points.length - 1) default)).take
          (t.points.length - 1) := by
      rw [DeleteByID_fst_eq t id idx hide hl]
    have hlen2 : ((t.points.set idx
        (t.points.getD (t.points.length - 1) default)).take
          (t.points.length - 1)).length = t.points.length - 1 := by
      rw [List.length_take, List.length_set]
      omega
    have hget : ∀ j, j < t.points.length - 1 →
        ((t.points.set idx (t.points.getD (t.points.length - 1) default)).take
          (t.points.length - 1)).getD j default
        = if j = idx then t.points.getD (t.points.length - 1) default
          else t.points.getD j default := by
      intro j hj
      rw [getD_take hj (by rw [List.length_set]; omega)]
      by_cases hji : j = idx
      · subst hji
        rw [if_pos rfl]
        exact getD_set_self (by omega)
      · rw [if_neg hji]
        exact getD_set_other hji (by omega)
    have hnoid : ∀ j, j < t.points.length - 1 →
        (((t.points.set idx (t.points.getD (t.points.length - 1) default)).take
          (t.points.length - 1)).getD j default).ID ≠ id := by
      intro j hj
      rw [hget j hj]
      by_cases hji : j = idx
      · rw [if_pos hji]
        intro hsame
        have h1 := hc2 (t.points.length - 1) (by omega) (by rw [hsame]; exact hide)
        rw [hsame, hl] at h1
        cases h1
        omega
      · rw [if_neg hji]
        intro hsame
        have h1 := hc2 j (by omega) (by rw [hsame]; exact hide)
        rw [hsame, hl] at h1
        cases h1
        exact hji rfl
    refine ⟨?_, hpts, ?_, ?_, ?_⟩
    · rw [KDTree.DeleteByID, if_neg hide, hl]
    · rw [KDTree.Len, hpts, hlen2]
    · rw [DeleteByID_fst_eq t id idx hide hl]
      show mapLookup (mapErase _ id) id = none
      rw [mapLookup_mapErase, if_pos rfl]
    · intro q hfound
      obtain ⟨j, hj, heq⟩ := Nearest_found_at _ q hfound
      rw [heq]
      rw [hpts] at hj ⊢
      rw [hlen2] at hj
      exact hnoid j hj

/-- C6: witness on the two-point index `exTreeB`, deleting id `a` at
position 0. -/
theorem C6_witness :
    (Consistent exTreeB ∧ mapLookup exTreeB.idIndex "a" = some 0) ∧
    ((exTreeB.DeleteByID "a").2 = true ∧
      (exTreeB.DeleteByID "a").1.points =
        (exTreeB.points.set 0
          (exTreeB.points.getD (exTreeB.points.length - 1) default)).take
          (exTreeB.points.length - 1) ∧
      (exTreeB.DeleteByID "a").1.Len = exTreeB.points.length - 1 ∧
      mapLookup (exTreeB.DeleteByID "a").1.idIndex "a" = none ∧
      (∀ q, ((exTreeB.DeleteByID "a").1.Nearest q).2.2 = true →
        ((exTreeB.DeleteByID "a").1.Nearest q).1.ID ≠ "a")) :=
  ⟨⟨by unfold Consistent; decide, by decide⟩,
    (C6_delete exTreeB "a" (by unfold Consistent; decide)).2.2 0 (by decide)⟩

/-! ### Cosine-family lemmas -/

/-- The three accumulated sums of the cosine loop, as list sums. -/
theorem cosineFold_eq (l : List (ℝ × ℝ)) :
    ∀ s : ℝ × ℝ × ℝ,
      l.foldl (fun s p => (s.1 + p.1 * p.2, s.2.1 + p.1 * p.1, s.2.2 + p.2 * p.2)) s
      = (s.1 + (l.map (fun p => p.1 * p.2)).sum,
         s.2.1 + (l.map (fun p => p.1 * p.1)).sum,
         s.2.2 + (l.map (fun p => p.2 * p.2)).sum) := by
  induction l with
  | nil => intro s; simp
  | cons p rest ih =>
    intro s
    rw [List.foldl_cons, ih]
    simp only [List.map_cons, List.sum_cons, Prod.mk.injEq]
    refine ⟨by ring, by ring, by ring⟩

/-- `cosineSums` as list sums. -/
theorem cosineSums_eq (a b : List ℝ) :
    cosineSums a b = (((a.zip b).map (fun p => p.1 * p.2)).sum,
      ((a.zip b).map (fun p => p.1 * p.1)).sum,
      ((a.zip b).map (fun p => p.2 * p.2)).sum) := by
  rw [cosineSums, cosineFold_eq]
  simp

/-- A non-zero entry of `b` yields a zip pair with that second component. -/
theorem exists_zip_pair_snd {a b : List ℝ} (hab : a.length = b.length) {x : ℝ}
    (hx : x ∈ b) : ∃ p ∈ a.zip b, p.2 = x := by
  obtain ⟨i, hi, hxeq⟩ := List.mem_iff_getElem.mp hx
  have hzi : i < (a.zip b).length := by
    rw [List.length_zip]
    omega
  refine ⟨(a.zip b).get ⟨i, hzi⟩, List.get_mem _ i hzi, ?_⟩
  rw [← hxeq]
  simp [List.get_eq_getElem, List.getElem_zip]

/-- A non-zero entry of `a` yields a zip pair with that first component. -/
theorem exists_zip_pair_fst {a b : List ℝ} (hab : a.length = b.length) {x : ℝ}
    (hx : x ∈ a) : ∃ p ∈ a.zip b, p.1 = x := by
  obtain ⟨i, hi, hxeq⟩ := List.mem_iff_getElem.mp hx
  have hzi : i < (a.zip b).length := by
    rw [List.length_zip]
    omega
  refine ⟨(a.zip b).get ⟨i, hzi⟩, List.get_mem _ i hzi, ?_⟩
  rw [← hxeq]
  simp [List.get_eq_getElem, List.getElem_zip]

/-- The clamped value lies in every branch inside `[0, 2]`. -/
theorem cosineBody_bounds (dot na2 nb2 : ℝ) :
    0 ≤ (if na2 = 0 ∧ nb2 = 0 then (0 : ℝ)
      else if na2 = 0 ∨ nb2 = 0 then 1
      else
        let den := Real.sqrt na2 * Real.sqrt nb2
        if den = 0 then 1
        else
          let cos := dot / den
          let cos2 := if cos > 1 then 1 else if cos < -1 then -1 else cos
          let d := 1 - cos2
          if d < 0 then 0 else if d > 2 then 2 else d) ∧
    (if na2 = 0 ∧ nb2 = 0 then (0 : ℝ)
      else if na2 = 0 ∨ nb2 = 0 then 1
      else
        let den := Real.sqrt na2 * Real.sqrt nb2
        if den = 0 then 1
        else
          let cos := dot / den
          let cos2 := if cos > 1 then 1 else if cos < -1 then -1 else cos
          let d := 1 - cos2
          if d < 0 then 0 else if d > 2 then 2 else d) ≤ 2 := by
  by_cases h1 : na2 = 0 ∧ nb2 = 0
  · rw [if_pos h1]
    norm_num
  · rw [if_neg h1]
    by_cases h2 : na2 = 0 ∨ nb2 = 0
    · rw [if_pos h2]
      norm_num
    · rw [if_neg h2]
      by_cases h3 : Real.sqrt na2 * Real.sqrt nb2 = 0
      · rw [if_pos h3]
        norm_num
      · rw [if_neg h3]
        dsimp only
        by_cases h4 : dot / (Real.sqrt na2 * Real.sqrt nb2) > 1
        · rw [if_pos h4]
          norm_num
        · rw [if_neg h4]
          by_cases h5 : dot / (Real.sqrt na2 * Real.sqrt nb2) < -1
          · rw [if_pos h5]
            norm_num
          · rw [if_neg h5]
            push_neg at h4 h5
            by_cases h6 : 1 - dot / (Real.sqrt na2 * Real.sqrt nb2) < 0
            · rw [if_pos h6]
              norm_num
            · rw [if_neg h6]
              by_cases h7 : 1 - dot / (Real.sqrt na2 * Real.sqrt nb2) > 2
              · rw [if_pos h7]
                norm_num
              · rw [if_neg h7]
                push_neg at h6 h7
                constructor <;> linarith

/-- C8: the cosine distance is `0` when both vectors are zero, `1` when
exactly one is zero, and always lies in `[0, 2]`; the weighted variant also
lies in `[0, 2]` and computes exactly the unweighted cosine distance when
the weight vector is absent or its length mismatches. -/
theorem C8_cosine (a b : List ℝ) (hab : a.length = b.length) :
    ((∀ x ∈ a, x = 0) → (∀ x ∈ b, x = 0) → CosineDistance a b = 0) ∧
    ((∀ x ∈ a, x = 0) → ¬ (∀ x ∈ b, x = 0) → CosineDistance a b = 1) ∧
    (¬ (∀ x ∈ a, x = 0) → (∀ x ∈ b, x = 0) → CosineDistance a b = 1) ∧
    (0 ≤ CosineDistance a b ∧ CosineDistance a b ≤ 2) ∧
    (∀ w : List ℝ,
      0 ≤ WeightedCosineDistance w a b ∧ WeightedCosineDistance w a b ≤ 2) ∧
    (∀ w : List ℝ, w = [] ∨ w.length ≠ a.length →
      WeightedCosineDistance w a b = CosineDistance a b) := by
  have hna0 : (∀ x ∈ a, x = 0) → ((a.zip b).map (fun p => p.1 * p.1)).sum = 0 := by
    intro hz
    apply List.sum_eq_zero
    intro x hx
    rcases List.mem_map.mp hx with ⟨p, hp, rfl⟩
    rw [hz p.1 (List.mem_zip hp).1]
    ring
  have hnb0 : (∀ x ∈ b, x = 0) → ((a.zip b).map (fun p => p.2 * p.2)).sum = 0 := by
    intro hz
    apply List.sum_eq_zero
    intro x hx
    rcases List.mem_map.mp hx with ⟨p, hp, rfl⟩
    rw [hz p.2 (List.mem_zip hp).2]
    ring
  have hnbpos : ¬ (∀ x ∈ b, x = 0) →
      0 < ((a.zip b).map (fun p => p.2 * p.2)).sum := by
    intro hnz
    push_neg at hnz
    obtain ⟨x, hxb, hxne⟩ := hnz
    obtain ⟨p, hp, hpx⟩ := exists_zip_pair_snd hab hxb
    have hmem : p.2 * p.2 ∈ (a.zip b).map (fun p => p.2 * p.2) :=
      List.mem_map_of_mem _ hp
    have hnn : ∀ y ∈ (a.zip b).map (fun p => p.2 * p.2), 0 ≤ y := by
      intro y hy
      rcases List.mem_map.mp hy with ⟨q, _, rfl⟩
      exact mul_self_nonneg q.2
    have := List.single_le_sum hnn _ hmem
    have hpos : 0 < p.2 * p.2 := mul_self_pos.mpr (hpx ▸ hxne)
    linarith
  have hnapos : ¬ (∀ x ∈ a, x = 0) →
      0 < ((a.zip b).map (fun p => p.1 * p.1)).sum := by
    intro hnz
    push_neg at hnz
    obtain ⟨x, hxa, hxne⟩ := hnz
    obtain ⟨p, hp, hpx⟩ := exists_zip_pair_fst hab hxa
    have hmem : p.1 * p.1 ∈ (a.zip b).map (fun p => p.1 * p.1) :=
      List.mem_map_of_mem _ hp
    have hnn : ∀ y ∈ (a.zip b).map (fun p => p.1 * p.1), 0 ≤ y := by
      intro y hy
      rcases List.mem_map.mp hy with ⟨q, _, rfl⟩
      exact mul_self_nonneg q.1
    have := List.single_le_sum hnn _ hmem
    have hpos : 0 < p.1 * p.1 := mul_self_pos.mpr (hpx ▸ hxne)
    linarith
  refine ⟨?_, ?_, ?_, ?_, ?_, ?_⟩
  · intro hza hzb
    rw [CosineDistance, cosineSums_eq]
    rw [if_pos ⟨hna0 hza, hnb0 hzb⟩]
  · intro hza hzb
    rw [CosineDistance, cosineSums_eq]
    rw [if_neg (by
      rintro ⟨_, h2⟩
      exact absurd h2 (ne_of_gt (hnbpos hzb))), if_pos (Or.inl (hna0 hza))]
  · intro hza hzb
    rw [CosineDistance, cosineSums_eq]
    rw [if_neg (by
      rintro ⟨h1, _⟩
      exact absurd h1 (ne_of_gt (hnapos hza))), if_pos (Or.inr (hnb0 hzb))]
  · rw [CosineDistance]
    exact cosineBody_bounds _ _ _
  · intro w
    rw [WeightedCosineDistance]
    by_cases hcond : w.length = 0 ∨ w.length ≠ a.length ∨ a.length ≠ b.length
    · rw [if_pos hcond, CosineDistance]
      exact cosineBody_bounds _ _ _
    · rw [if_neg hcond]
      exact cosineBody_bounds _ _ _
  · intro w hw
    rw [WeightedCosineDistance]
    rw [if_pos (by
      rcases hw with hw | hw
      · exact Or.inl (by simp [hw])
      · exact Or.inr (Or.inl hw))]

/-- C8: witness — `a = [1]`, `b = [2]` are equal-length vectors. -/
theorem C8_witness :
    ([(1 : ℝ)].length = [(2 : ℝ)].length) ∧
    (((∀ x ∈ [(1 : ℝ)], x = 0) → (∀ x ∈ [(2 : ℝ)], x = 0) →
        CosineDistance [(1 : ℝ)] [(2 : ℝ)] = 0) ∧
      ((∀ x ∈ [(1 : ℝ)], x = 0) → ¬ (∀ x ∈ [(2 : ℝ)], x = 0) →
        CosineDistance [(1 : ℝ)] [(2 : ℝ)] = 1) ∧
      (¬ (∀ x ∈ [(1 : ℝ)], x = 0) → (∀ x ∈ [(2 : ℝ)], x = 0) →
        CosineDistance [(1 : ℝ)] [(2 : ℝ)] = 1) ∧
      (0 ≤ CosineDistance [(1 : ℝ)] [(2 : ℝ)] ∧
        CosineDistance [(1 : ℝ)] [(2 : ℝ)] ≤ 2) ∧
      (∀ w : List ℝ, 0 ≤ WeightedCosineDistance w [(1 : ℝ)] [(2 : ℝ)] ∧
        WeightedCosineDistance w [(1 : ℝ)] [(2 : ℝ)] ≤ 2) ∧
      (∀ w : List ℝ, w = [] ∨ w.length ≠ [(1 : ℝ)].length →
        WeightedCosineDistance w [(1 : ℝ)] [(2 : ℝ)] =
          CosineDistance [(1 : ℝ)] [(2 : ℝ)])) :=
  ⟨rfl, C8_cosine [(1 : ℝ)] [(2 : ℝ)] rfl⟩

/-! ### Snapshot aliasing (C9) -/

/-- C9: counterexample to the claim as stated — on an index with one point
`a` at coordinates `[0]`, take the snapshot (a fresh point array at pointer
1) and write coordinate 0 of its element 0 to `5`.  Because the copied
struct's `Coords` field still points at the index's coordinate array, the
index's own observed points change from `("a", [0])` to `("a", [5])`, even
though the write went through the copy (whose pointer differs from the
index's). -/
theorem C9_counterexample :
    observePoints
      (writeCoordElem
        (snapshotPoints (⟨[[⟨"a", 0, 0⟩]], [[0]]⟩ : GoMem) ⟨0⟩).1
        (snapshotPoints (⟨[[⟨"a", 0, 0⟩]], [[0]]⟩ : GoMem) ⟨0⟩).2 0 0 5)
      ⟨0⟩
      ≠ observePoints (snapshotPoints (⟨[[⟨"a", 0, 0⟩]], [[0]]⟩ : GoMem) ⟨0⟩).1 ⟨0⟩
    ∧ (snapshotPoints (⟨[[⟨"a", 0, 0⟩]], [[0]]⟩ : GoMem) ⟨0⟩).2
      ≠ (⟨0⟩ : GoTree).pointsPtr := by
  refine ⟨?_, by decide⟩
  decide

/-- C9 (amended): `Points` allocates a fresh array holding the same point
structs — the returned sequence equals the index's current sequence, the
snapshot does not disturb the index, and overwriting elements of the copy
(slice-level writes) never affects the index's points or what it observes;
however the copied structs share their coordinate arrays with the index
(see the counterexample), so only struct-level mutation of the copy is
harmless. -/
theorem C9_snapshot (mem : GoMem) (t : GoTree)
    (hvalid : t.pointsPtr < mem.pointArrays.length) :
    readPoints (snapshotPoints mem t).1 (snapshotPoints mem t).2
      = readPoints mem t.pointsPtr ∧
    readPoints (snapshotPoints mem t).1 t.pointsPtr = readPoints mem t.pointsPtr ∧
    observePoints (snapshotPoints mem t).1 t = observePoints mem t ∧
    (∀ i p, readPoints
        (writePointElem (snapshotPoints mem t).1 (snapshotPoints mem t).2 i p)
        t.pointsPtr = readPoints mem t.pointsPtr) ∧
    (∀ i p, observePoints
        (writePointElem (snapshotPoints mem t).1 (snapshotPoints mem t).2 i p)
        t = observePoints mem t) := by
  have hr1 : readPoints (snapshotPoints mem t).1 (snapshotPoints mem t).2
      = readPoints mem t.pointsPtr := by
    show (mem.pointArrays ++ [readPoints mem t.pointsPtr]).getD
      mem.pointArrays.length [] = _
    exact getD_concat_length
  have hr2 : readPoints (snapshotPoints mem t).1 t.pointsPtr
      = readPoints mem t.pointsPtr := by
    show (mem.pointArrays ++ [readPoints mem t.pointsPtr]).getD t.pointsPtr [] = _
    exact getD_append_left hvalid
  have hr3 : ∀ i p, readPoints
      (writePointElem (snapshotPoints mem t).1 (snapshotPoints mem t).2 i p)
      t.pointsPtr = readPoints mem t.pointsPtr := by
    intro i p
    show ((mem.pointArrays ++ [readPoints mem t.pointsPtr]).set
        mem.pointArrays.length _).getD t.pointsPtr [] = _
    rw [getD_set_other (by omega) (by simp [List.length_append]; omega)]
    exact getD_append_left hvalid
  refine ⟨hr1, hr2, ?_, hr3, ?_⟩
  · show (readPoints (snapshotPoints mem t).1 t.pointsPtr).map _
      = (readPoints mem t.pointsPtr).map _
    rw [hr2]
    rfl
  · intro i p
    show (readPoints
        (writePointElem (snapshotPoints mem t).1 (snapshotPoints mem t).2 i p)
        t.pointsPtr).map _ = (readPoints mem t.pointsPtr).map _
    rw [hr3 i p]
    rfl

/-- C9: witness instantiating the amended snapshot theorem on the one-point
store. -/
theorem C9_witness :
    ((⟨0⟩ : GoTree).pointsPtr <
      (⟨[[⟨"a", 0, 0⟩]], [[0]]⟩ : GoMem).pointArrays.length) ∧
    (readPoints (snapshotPoints (⟨[[⟨"a", 0, 0⟩]], [[0]]⟩ : GoMem) ⟨0⟩).1
        (snapshotPoints (⟨[[⟨"a", 0, 0⟩]], [[0]]⟩ : GoMem) ⟨0⟩).2
      = readPoints (⟨[[⟨"a", 0, 0⟩]], [[0]]⟩ : GoMem) (⟨0⟩ : GoTree).pointsPtr ∧
    readPoints (snapshotPoints (⟨[[⟨"a", 0, 0⟩]], [[0]]⟩ : GoMem) ⟨0⟩).1
        (⟨0⟩ : GoTree).pointsPtr
      = readPoints (⟨[[⟨"a", 0, 0⟩]], [[0]]⟩ : GoMem) (⟨0⟩ : GoTree).pointsPtr ∧
    observePoints (snapshotPoints (⟨[[⟨"a", 0, 0⟩]], [[0]]⟩ : GoMem) ⟨0⟩).1 ⟨0⟩
      = observePoints (⟨[[⟨"a", 0, 0⟩]], [[0]]⟩ : GoMem) ⟨0⟩ ∧
    (∀ i p, readPoints
        (writePointElem (snapshotPoints (⟨[[⟨"a", 0, 0⟩]], [[0]]⟩ : GoMem) ⟨0⟩).1
          (snapshotPoints (⟨[[⟨"a", 0, 0⟩]], [[0]]⟩ : GoMem) ⟨0⟩).2 i p)
        (⟨0⟩ : GoTree).pointsPtr
      = readPoints (⟨[[⟨"a", 0, 0⟩]], [[0]]⟩ : GoMem) (⟨0⟩ : GoTree).pointsPtr) ∧
    (∀ i p, observePoints
        (writePointElem (snapshotPoints (⟨[[⟨"a", 0, 0⟩]], [[0]]⟩ : GoMem) ⟨0⟩).1
          (snapshotPoints (⟨[[⟨"a", 0, 0⟩]], [[0]]⟩ : GoMem) ⟨0⟩).2 i p)
        ⟨0⟩
      = observePoints (⟨[[⟨"a", 0, 0⟩]], [[0]]⟩ : GoMem) ⟨0⟩)) :=
  ⟨by decide, C9_snapshot (⟨[[⟨"a", 0, 0⟩]], [[0]]⟩ : GoMem) ⟨0⟩ (by decide)⟩

/-! ### C1: the pruning engine matches the linear engine -/

/-- The `if d < 0 then -d else d` idiom of the Go sources is the absolute
value. -/
theorem if_neg_abs (x : F) : (if x < 0 then -x else x) = |x| := by
  by_cases h : x < 0
  · rw [if_pos h, abs_of_neg h]
  · rw [if_neg h, abs_of_nonneg (not_lt.mp h)]

/-- A left fold accumulating `+ f x` is the sum of the mapped list. -/
theorem foldl_add_map_sum {α : Type*} (f : α → F) (l : List α) :
    ∀ s0 : F, l.foldl (fun s x => s + f x) s0 = s0 + (l.map f).sum := by
  induction l with
  | nil => intro s0; simp
  | cons x rest ih =>
    intro s0
    rw [List.foldl_cons, ih (s0 + f x), List.map_cons, List.sum_cons]
    ring

/-- `ManhattanDistance` as a sum of absolute per-axis differences. -/
theorem manhattan_eq_sum (a b : List F) :
    ManhattanDistance a b = ((a.zip b).map (fun p => |p.1 - p.2|)).sum := by
  unfold ManhattanDistance
  have h := foldl_add_map_sum
    (fun p : F × F => if p.1 - p.2 < 0 then -(p.1 - p.2) else p.1 - p.2) (a.zip b) 0
  rw [h, zero_add]
  congr 1
  apply List.map_eq_map_iff.mpr
  intro p _
  exact if_neg_abs (p.1 - p.2)

/-- The coordinate pair at a common index is a member of the zip. -/
theorem zip_pair_mem {a b : List F} {ax : ℕ} (ha : ax < a.length)
    (hb : ax < b.length) :
    (a.getD ax 0, b.getD ax 0) ∈ a.zip b := by
  have hz : ax < (a.zip b).length := by
    rw [List.length_zip]; omega
  have : (a.zip b)[ax] = (a[ax], b[ax]) := List.getElem_zip
  rw [List.getD_eq_getElem a 0 ha, List.getD_eq_getElem b 0 hb, ← this]
  exact List.getElem_mem hz

/-- L1 admits the per-axis lower bound that justifies kd-pruning. -/
theorem manhattan_axis_bound (q p : List F) (hp : p.length = q.length)
    (ax : ℕ) (hax : ax < q.length) :
    |q.getD ax 0 - p.getD ax 0| ≤ ManhattanDistance q p := by
  rw [manhattan_eq_sum]
  have hmem := @zip_pair_mem F _ q p ax hax (by omega)
  have : |q.getD ax 0 - p.getD ax 0| =
      (fun pr : F × F => |pr.1 - pr.2|) (q.getD ax 0, p.getD ax 0) := rfl
  rw [this]
  exact List.single_le_sum
    (by intro y hy
        obtain ⟨pr, _, rfl⟩ := List.mem_map.mp hy
        exact abs_nonneg _) _
    (List.mem_map_of_mem _ hmem)

/-- The running-maximum fold of `ChebyshevDistance` dominates its start and
every folded value. -/
theorem chebyFold_ge (l : List (F × F)) : ∀ s0 : F,
    s0 ≤ l.foldl
        (fun mx p =>
          let d := if p.1 - p.2 < 0 then -(p.1 - p.2) else p.1 - p.2
          if d > mx then d else mx) s0 ∧
    ∀ p ∈ l, |p.1 - p.2| ≤ l.foldl
        (fun mx p =>
          let d := if p.1 - p.2 < 0 then -(p.1 - p.2) else p.1 - p.2
          if d > mx then d else mx) s0 := by
  induction l with
  | nil => intro s0; exact ⟨le_refl s0, by intro p hp; simp at hp⟩
  | cons x rest ih =>
    intro s0
    rw [List.foldl_cons]
    have hstep : s0 ≤ (if (if x.1 - x.2 < 0 then -(x.1 - x.2) else x.1 - x.2) > s0
        then (if x.1 - x.2 < 0 then -(x.1 - x.2) else x.1 - x.2) else s0) ∧
        |x.1 - x.2| ≤ (if (if x.1 - x.2 < 0 then -(x.1 - x.2) else x.1 - x.2) > s0
        then (if x.1 - x.2 < 0 then -(x.1 - x.2) else x.1 - x.2) else s0) := by
      rw [if_neg_abs (x.1 - x.2)]
      by_cases hd : |x.1 - x.2| > s0
      · rw [if_pos hd]; exact ⟨le_of_lt hd, le_refl _⟩
      · rw [if_neg hd]; exact ⟨le_refl _, not_lt.mp hd⟩
    obtain ⟨h1, h2⟩ := ih (if (if x.1 - x.2 < 0 then -(x.1 - x.2) else x.1 - x.2) > s0
        then (if x.1 - x.2 < 0 then -(x.1 - x.2) else x.1 - x.2) else s0)
    refine ⟨le_trans hstep.1 h1, ?_⟩
    intro p hp
    rcases List.mem_cons.mp hp with rfl | hp
    · exact le_trans hstep.2 h1
    · exact h2 p hp

/-- L∞ admits the per-axis lower bound that justifies kd-pruning. -/
theorem chebyshev_axis_bound (q p : List F) (hp : p.length = q.length)
    (ax : ℕ) (hax : ax < q.length) :
    |q.getD ax 0 - p.getD ax 0| ≤ ChebyshevDistance q p := by
  unfold ChebyshevDistance
  have hmem := @zip_pair_mem F _ q p ax hax (by omega)
  exact (chebyFold_ge (q.zip p) 0).2 _ hmem

/-- L2 admits the per-axis lower bound that justifies kd-pruning. -/
theorem euclidean_axis_bound (q p : List ℝ) (hp : p.length = q.length)
    (ax : ℕ) (hax : ax < q.length) :
    |q.getD ax 0 - p.getD ax 0| ≤ EuclideanDistance q p := by
  unfold EuclideanDistance
  set x := q.getD ax 0 - p.getD ax 0 with hx
  have hsum : sumSqDiff q p = ((q.zip p).map (fun pr => (pr.1 - pr.2) * (pr.1 - pr.2))).sum := by
    unfold sumSqDiff
    rw [foldl_add_map_sum (fun pr : ℝ × ℝ => (pr.1 - pr.2) * (pr.1 - pr.2)) (q.zip p) 0,
      zero_add]
  have hmem := @zip_pair_mem ℝ _ q p ax hax (by omega)
  have hle : x * x ≤ sumSqDiff q p := by
    rw [hsum]
    exact List.single_le_sum
      (by intro y hy
          obtain ⟨pr, _, rfl⟩ := List.mem_map.mp hy
          exact mul_self_nonneg _) _
      (List.mem_map_of_mem _ hmem)
  have : |x| = Real.sqrt (x * x) := by
    rw [← Real.sqrt_sq_eq_abs]; ring_nf
  rw [this]
  exact Real.sqrt_le_sqrt hle

/-- The axis-selection fold keeps its first component below `n` whenever the
start and all folded indices are. -/
theorem pickFold_lt {n : ℕ} (l : List (ℕ × F)) :
    ∀ st : ℕ × F, st.1 < n → (∀ p ∈ l, p.1 < n) →
    (l.foldl (fun best p => if p.2 > best.2 then (p.1, p.2) else best) st).1 < n := by
  induction l with
  | nil => intro st h _; exact h
  | cons p rest ih =>
    intro st hst hl
    rw [List.foldl_cons]
    apply ih
    · by_cases hc : p.2 > st.2
      · rw [if_pos hc]
        exact hl p (List.mem_cons_self p rest)
      · rw [if_neg hc]
        exact hst
    · intro x hx
      exact hl x (List.mem_cons_of_mem _ hx)

/-- The chosen split axis indexes the spread list. -/
theorem pickAxis_lt (stds : List F) (h : 0 < stds.length) :
    pickAxis stds < stds.length := by
  unfold pickAxis
  apply pickFold_lt
  · exact h
  · intro p hp
    exact List.fst_lt_of_mem_enum (List.mem_of_mem_drop hp)

/-- The spread list has one entry per dimension. -/
theorem axisStd_length (idxs : List ℕ) (coords : ℕ → List F) (dim : ℕ) :
    (axisStd idxs coords dim).length = dim := by
  unfold axisStd
  dsimp only
  by_cases h : idxs.length = 0
  · rw [if_pos h, List.length_replicate]
  · rw [if_neg h, List.length_map, List.length_range]

/-- One unfolding step of `buildKDRecursive` on a non-empty index list. -/
theorem buildKD_eq (coords : ℕ → List F) (dim : ℕ) (idxs : List ℕ)
    (h0 : ¬ idxs.length = 0) (ax : ℕ)
    (hax : ax = pickAxis (axisStd idxs coords dim)) (sorted : List ℕ)
    (hsorted : sorted = idxs.mergeSort
      (fun i j => decide ((coords i).getD ax 0 ≤ (coords j).getD ax 0))) :
    buildKDRecursive coords dim idxs =
      KDNode.node ax (sorted.getD (sorted.length / 2) 0)
        ((coords (sorted.getD (sorted.length / 2) 0)).getD ax 0)
        (buildKDRecursive coords dim (sorted.take (sorted.length / 2)))
        (buildKDRecursive coords dim (sorted.drop (sorted.length / 2 + 1))) := by
  subst hax
  subst hsorted
  rw [buildKDRecursive, dif_neg h0]

/-- `buildKDRecursive` produces a well-formed tree holding exactly the input
indices (up to order). -/
theorem buildKD_spec (coords : ℕ → List F) (dim : ℕ) (hdim : 0 < dim) :
    ∀ (N : ℕ) (idxs : List ℕ), idxs.length ≤ N →
      (buildKDRecursive coords dim idxs).idxs.Perm idxs ∧
      TreeWF coords dim (buildKDRecursive coords dim idxs) := by
  intro N
  induction N with
  | zero =>
    intro idxs hlen
    have h0 : idxs = [] := by
      cases idxs with
      | nil => rfl
      | cons a l => simp at hlen
    subst h0
    rw [buildKDRecursive, dif_pos (by simp)]
    exact ⟨by simp [KDNode.idxs], trivial⟩
  | succ N ih =>
    intro idxs hlen
    by_cases h0 : idxs.length = 0
    · have he : idxs = [] := List.length_eq_zero.mp h0
      subst he
      rw [buildKDRecursive, dif_pos (by simp)]
      exact ⟨by simp [KDNode.idxs], trivial⟩
    · rw [buildKD_eq coords dim idxs h0 _ rfl _ rfl]
      set ax := pickAxis (axisStd idxs coords dim) with hax
      set sorted := idxs.mergeSort
        (fun i j => decide ((coords i).getD ax 0 ≤ (coords j).getD ax 0)) with hsorted
      set mid := sorted.length / 2 with hmid
      have hperm : sorted.Perm idxs := List.mergeSort_perm idxs _
      have hslen : sorted.length = idxs.length := hperm.length_eq
      have hmidlt : mid < sorted.length := by
        rw [hmid]
        omega
      have hpair : List.Pairwise
          (fun i j : ℕ => (coords i).getD ax 0 ≤ (coords j).getD ax 0) sorted := by
        have := @List.sorted_mergeSort ℕ
          (fun i j : ℕ => decide ((coords i).getD ax 0 ≤ (coords j).getD ax 0))
          (fun a b c h1 h2 => by simp at h1 h2 ⊢; exact le_trans h1 h2)
          (fun a b => by simpa using le_total ((coords a).getD ax 0) ((coords b).getD ax 0))
          idxs
        rw [← hsorted] at this
        simpa [List.Sorted] using this
      have hmedian : sorted.getD mid 0 = sorted.get ⟨mid, hmidlt⟩ := by
        rw [List.getD_eq_getElem sorted 0 hmidlt]
        rfl
      have hlt1 : (sorted.take mid).length ≤ N := by
        rw [List.length_take]
        omega
      have hlt2 : (sorted.drop (mid + 1)).length ≤ N := by
        rw [List.length_drop]
        omega
      obtain ⟨ihp1, ihw1⟩ := ih (sorted.take mid) hlt1
      obtain ⟨ihp2, ihw2⟩ := ih (sorted.drop (mid + 1)) hlt2
      have hdecomp : sorted.take mid ++ sorted.getD mid 0 :: sorted.drop (mid + 1)
          = sorted := by
        rw [List.getD_eq_getElem sorted 0 hmidlt, ← List.drop_eq_getElem_cons hmidlt,
          List.take_append_drop]
      constructor
      · simp only [KDNode.idxs]
        refine List.Perm.trans
          (List.Perm.cons _ (List.Perm.append ihp1 ihp2)) ?_
        refine List.Perm.trans List.perm_middle.symm ?_
        rw [hdecomp]
        exact hperm
      · simp only [TreeWF]
        refine ⟨?_, by trivial, ?_, ?_, ihw1, ihw2⟩
        · have := pickAxis_lt (axisStd idxs coords dim)
            (by rw [axisStd_length]; exact hdim)
          rw [axisStd_length] at this
          exact this
        · intro j hj
          have hjmem : j ∈ sorted.take mid := ihp1.mem_iff.mp hj
          obtain ⟨p, hp, hpj⟩ := List.mem_iff_getElem.mp hjmem
          have hpmid : p < mid := by
            have := hp
            rw [List.length_take] at this
            omega
          have hpj2 : (sorted.take mid)[p] = sorted[p] := List.getElem_take sorted
          rw [← hpj, hpj2, List.getD_eq_getElem sorted 0 hmidlt]
          exact List.pairwise_iff_getElem.mp hpair p mid (by omega) hmidlt hpmid
        · intro j hj
          have hjmem : j ∈ sorted.drop (mid + 1) := ihp2.mem_iff.mp hj
          obtain ⟨p, hp, hpj⟩ := List.mem_iff_getElem.mp hjmem
          have hplen : mid + 1 + p < sorted.length := by
            have := hp
            rw [List.length_drop] at this
            omega
          have hpj2 : (sorted.drop (mid + 1))[p] = sorted[mid + 1 + p] :=
            List.getElem_drop sorted
          rw [← hpj, hpj2, List.getD_eq_getElem sorted 0 hmidlt]
          exact List.pairwise_iff_getElem.mp hpair mid (mid + 1 + p) hmidlt hplen
            (by omega)

/-- The tree built from an index list holds a permutation of it. -/
theorem buildKD_perm (coords : ℕ → List F) (dim : ℕ) (hdim : 0 < dim)
    (idxs : List ℕ) :
    (buildKDRecursive coords dim idxs).idxs.Perm idxs :=
  (buildKD_spec coords dim hdim idxs.length idxs (le_refl _)).1

/-- The tree built from an index list is well-formed. -/
theorem buildKD_wf (coords : ℕ → List F) (dim : ℕ) (hdim : 0 < dim)
    (idxs : List ℕ) :
    TreeWF coords dim (buildKDRecursive coords dim idxs) :=
  (buildKD_spec coords dim hdim idxs.length idxs (le_refl _)).2

/-- Soundness of the pruning test: a point on the far side of the split
plane is at least the axis gap away, for any metric admitting the per-axis
lower bound. -/
theorem far_dist_lb (m : List F → List F → F) (q : List F) (dim : ℕ)
    (hax : ∀ p ax, p.length = dim → ax < dim → |q.getD ax 0 - p.getD ax 0| ≤ m q p)
    (ax : ℕ) (haxlt : ax < dim) (v : F) (cj : List F) (hjlen : cj.length = dim)
    (hside : (v ≤ q.getD ax 0 ∧ cj.getD ax 0 ≤ v) ∨
      (q.getD ax 0 ≤ v ∧ v ≤ cj.getD ax 0)) :
    (if q.getD ax 0 - v < 0 then -(q.getD ax 0 - v) else q.getD ax 0 - v) ≤ m q cj := by
  have h1 := hax cj ax hjlen haxlt
  rw [if_neg_abs]
  rcases hside with ⟨ha, hb⟩ | ⟨ha, hb⟩
  · calc |q.getD ax 0 - v| = q.getD ax 0 - v := abs_of_nonneg (by linarith)
      _ ≤ |q.getD ax 0 - cj.getD ax 0| := by
          rw [abs_of_nonneg (by linarith : (0 : F) ≤ q.getD ax 0 - cj.getD ax 0)]
          linarith
      _ ≤ m q cj := h1
  · calc |q.getD ax 0 - v| = -(q.getD ax 0 - v) := abs_of_nonpos (by linarith)
      _ ≤ |q.getD ax 0 - cj.getD ax 0| := by
          rw [abs_of_nonpos (by linarith : q.getD ax 0 - cj.getD ax 0 ≤ 0)]
          linarith
      _ ≤ m q cj := h1

/-- `searchNearest` unfolding at a node when the query sits at or above the
split value (near child = right). -/
theorem searchNearest_node_ge (m : List F → List F → F) (coords : ℕ → List F)
    (q : List F) (ax i : ℕ) (v : F) (l r : KDNode F) (st : Int × F)
    (hqv : q.getD ax 0 ≥ v) :
    searchNearest m coords q (KDNode.node ax i v l r) st =
      (let st1 := if m q (coords i) < st.2 then ((i : Int), m q (coords i)) else st
       let st2 := searchNearest m coords q r st1
       if (if q.getD ax 0 - v < 0 then -(q.getD ax 0 - v) else q.getD ax 0 - v) ≤ st2.2
       then searchNearest m coords q l st2 else st2) := by
  rw [searchNearest]
  simp only [if_pos hqv]

/-- `searchNearest` unfolding at a node when the query sits below the split
value (near child = left). -/
theorem searchNearest_node_lt (m : List F → List F → F) (coords : ℕ → List F)
    (q : List F) (ax i : ℕ) (v : F) (l r : KDNode F) (st : Int × F)
    (hqv : ¬ q.getD ax 0 ≥ v) :
    searchNearest m coords q (KDNode.node ax i v l r) st =
      (let st1 := if m q (coords i) < st.2 then ((i : Int), m q (coords i)) else st
       let st2 := searchNearest m coords q l st1
       if (if q.getD ax 0 - v < 0 then -(q.getD ax 0 - v) else q.getD ax 0 - v) ≤ st2.2
       then searchNearest m coords q r st2 else st2) := by
  rw [searchNearest]
  simp only [if_neg hqv]

/-- State lemma for `searchNearest` on a well-formed tree: the search either
keeps its incoming state or lands on a strictly improving tree point, never
increases the best distance, and ends at or below every tree point's
distance (the pruned far subtrees only hold points at distance at least the
final best). -/
theorem searchNearest_spec (m : List F → List F → F) (coords : ℕ → List F)
    (q : List F) (dim : ℕ)
    (hax : ∀ p ax, p.length = dim → ax < dim → |q.getD ax 0 - p.getD ax 0| ≤ m q p) :
    ∀ t : KDNode F, TreeWF coords dim t →
      (∀ j ∈ t.idxs, (coords j).length = dim) →
      ∀ st : Int × F,
        (searchNearest m coords q t st = st ∨
          ∃ j ∈ t.idxs, searchNearest m coords q t st = ((j : Int), m q (coords j)) ∧
            m q (coords j) < st.2) ∧
        (searchNearest m coords q t st).2 ≤ st.2 ∧
        (∀ j ∈ t.idxs, (searchNearest m coords q t st).2 ≤ m q (coords j)) := by
  intro t
  induction t with
  | nil =>
    intro _ _ st
    rw [searchNearest]
    exact ⟨Or.inl rfl, le_refl _, by intro j hj; simp [KDNode.idxs] at hj⟩
  | node ax i v l r ihl ihr =>
    intro hwf hclen st
    obtain ⟨haxlt, hveq, hlb, hrb, hwl, hwr⟩ := hwf
    have hcli : (coords i).length = dim := hclen i (by simp [KDNode.idxs])
    have hcll : ∀ j ∈ l.idxs, (coords j).length = dim := fun j hj =>
      hclen j (by simp [KDNode.idxs]; exact Or.inr (Or.inl hj))
    have hclr : ∀ j ∈ r.idxs, (coords j).length = dim := fun j hj =>
      hclen j (by simp [KDNode.idxs]; exact Or.inr (Or.inr hj))
    by_cases hqv : q.getD ax 0 ≥ v
    · rw [searchNearest_node_ge m coords q ax i v l r st hqv]
      dsimp only
      set st1 := if m q (coords i) < st.2 then ((i : Int), m q (coords i)) else st
        with hst1
      set st2 := searchNearest m coords q r st1 with hst2
      have hst1a : st1 = st ∨
          (st1 = ((i : Int), m q (coords i)) ∧ m q (coords i) < st.2) := by
        by_cases hd : m q (coords i) < st.2
        · exact Or.inr ⟨by rw [hst1, if_pos hd], hd⟩
        · exact Or.inl (by rw [hst1, if_neg hd])
      have hst1le : st1.2 ≤ st.2 := by
        rw [hst1]
        by_cases hd : m q (coords i) < st.2
        · rw [if_pos hd]; exact le_of_lt hd
        · rw [if_neg hd]
      have hst1i : st1.2 ≤ m q (coords i) := by
        rw [hst1]
        by_cases hd : m q (coords i) < st.2
        · rw [if_pos hd]
        · rw [if_neg hd]; exact not_lt.mp hd
      obtain ⟨ihr1, ihr2, ihr3⟩ := ihr hwr hclr st1
      by_cases hprune :
          (if q.getD ax 0 - v < 0 then -(q.getD ax 0 - v) else q.getD ax 0 - v) ≤ st2.2
      · rw [if_pos hprune]
        obtain ⟨ihl1, ihl2, ihl3⟩ := ihl hwl hcll st2
        refine ⟨?_, le_trans ihl2 (le_trans ihr2 hst1le), ?_⟩
        · rcases ihl1 with h3 | ⟨j, hj, h3, h3lt⟩
          · rw [h3]
            rcases ihr1 with h2 | ⟨j, hj, h2, h2lt⟩
            · rw [hst2, h2]
              rcases hst1a with h1 | ⟨h1, h1lt⟩
              · exact Or.inl h1
              · exact Or.inr ⟨i, by simp [KDNode.idxs], h1, h1lt⟩
            · exact Or.inr ⟨j, by simp [KDNode.idxs]; exact Or.inr (Or.inr hj), h2,
                lt_of_lt_of_le h2lt hst1le⟩
          · exact Or.inr ⟨j, by simp [KDNode.idxs]; exact Or.inr (Or.inl hj), h3,
              lt_of_lt_of_le h3lt (le_trans ihr2 hst1le)⟩
        · intro j hj
          simp only [KDNode.idxs, List.mem_cons, List.mem_append] at hj
          rcases hj with rfl | hj | hj
          · exact le_trans ihl2 (le_trans ihr2 hst1i)
          · exact ihl3 j hj
          · exact le_trans ihl2 (ihr3 j hj)
      · rw [if_neg hprune]
        refine ⟨?_, le_trans ihr2 hst1le, ?_⟩
        · rcases ihr1 with h2 | ⟨j, hj, h2, h2lt⟩
          · rw [hst2, h2]
            rcases hst1a with h1 | ⟨h1, h1lt⟩
            · exact Or.inl h1
            · exact Or.inr ⟨i, by simp [KDNode.idxs], h1, h1lt⟩
          · exact Or.inr ⟨j, by simp [KDNode.idxs]; exact Or.inr (Or.inr hj), h2,
              lt_of_lt_of_le h2lt hst1le⟩
        · intro j hj
          simp only [KDNode.idxs, List.mem_cons, List.mem_append] at hj
          rcases hj with rfl | hj | hj
          · exact le_trans ihr2 hst1i
          · have hfar := far_dist_lb m q dim hax ax haxlt v (coords j) (hcll j hj)
              (Or.inl ⟨hqv, hlb j hj⟩)
            exact le_of_lt (lt_of_lt_of_le (not_le.mp hprune) hfar)
          · exact ihr3 j hj
    · rw [searchNearest_node_lt m coords q ax i v l r st hqv]
      dsimp only
      set st1 := if m q (coords i) < st.2 then ((i : Int), m q (coords i)) else st
        with hst1
      set st2 := searchNearest m coords q l st1 with hst2
      have hst1a : st1 = st ∨
          (st1 = ((i : Int), m q (coords i)) ∧ m q (coords i) < st.2) := by
        by_cases hd : m q (coords i) < st.2
        · exact Or.inr ⟨by rw [hst1, if_pos hd], hd⟩
        · exact Or.inl (by rw [hst1, if_neg hd])
      have hst1le : st1.2 ≤ st.2 := by
        rw [hst1]
        by_cases hd : m q (coords i) < st.2
        · rw [if_pos hd]; exact le_of_lt hd
        · rw [if_neg hd]
      have hst1i : st1.2 ≤ m q (coords i) := by
        rw [hst1]
        by_cases hd : m q (coords i) < st.2
        · rw [if_pos hd]
        · rw [if_neg hd]; exact not_lt.mp hd
      obtain ⟨ihl1, ihl2, ihl3⟩ := ihl hwl hcll st1
      by_cases hprune :
          (if q.getD ax 0 - v < 0 then -(q.getD ax 0 - v) else q.getD ax 0 - v) ≤ st2.2
      · rw [if_pos hprune]
        obtain ⟨ihr1, ihr2, ihr3⟩ := ihr hwr hclr st2
        refine ⟨?_, le_trans ihr2 (le_trans ihl2 hst1le), ?_⟩
        · rcases ihr1 with h3 | ⟨j, hj, h3, h3lt⟩
          · rw [h3]
            rcases ihl1 with h2 | ⟨j, hj, h2, h2lt⟩
            · rw [hst2, h2]
              rcases hst1a with h1 | ⟨h1, h1lt⟩
              · exact Or.inl h1
              · exact Or.inr ⟨i, by simp [KDNode.idxs], h1, h1lt⟩
            · exact Or.inr ⟨j, by simp [KDNode.idxs]; exact Or.inr (Or.inl hj), h2,
                lt_of_lt_of_le h2lt hst1le⟩
          · exact Or.inr ⟨j, by simp [KDNode.idxs]; exact Or.inr (Or.inr hj), h3,
              lt_of_lt_of_le h3lt (le_trans ihl2 hst1le)⟩
        · intro j hj
          simp only [KDNode.idxs, List.mem_cons, List.mem_append] at hj
          rcases hj with rfl | hj | hj
          · exact le_trans ihr2 (le_trans ihl2 hst1i)
          · exact le_trans ihr2 (ihl3 j hj)
          · exact ihr3 j hj
      · rw [if_neg hprune]
        refine ⟨?_, le_trans ihl2 hst1le, ?_⟩
        · rcases ihl1 with h2 | ⟨j, hj, h2, h2lt⟩
          · rw [hst2, h2]
            rcases hst1a with h1 | ⟨h1, h1lt⟩
            · exact Or.inl h1
            · exact Or.inr ⟨i, by simp [KDNode.idxs], h1, h1lt⟩
          · exact Or.inr ⟨j, by simp [KDNode.idxs]; exact Or.inr (Or.inl hj), h2,
              lt_of_lt_of_le h2lt hst1le⟩
        · intro j hj
          simp only [KDNode.idxs, List.mem_cons, List.mem_append] at hj
          rcases hj with rfl | hj | hj
          · exact le_trans ihl2 hst1i
          · exact ihl3 j hj
          · have hfar := far_dist_lb m q dim hax ax haxlt v (coords j) (hclr j hj)
              (Or.inr ⟨le_of_lt (not_le.mp hqv), hrb j hj⟩)
            exact le_of_lt (lt_of_lt_of_le (not_le.mp hprune) hfar)

/-- The two engines agree on `Nearest`: same found flag, same best distance,
and the pruning engine's index realises that distance. -/
theorem nearestAgree (t : KDTree F) (q : List F) (hdim : 0 < t.dim)
    (hlen : ∀ p ∈ t.points, p.Coords.length = t.dim) (hq : q.length = t.dim)
    (hax : ∀ p ax, p.length = t.dim → ax < t.dim →
      |q.getD ax 0 - p.getD ax 0| ≤ t.metric q p) :
    (gonumNearest t.metric (buildGonumBackend t.points) q).2.2 = (t.Nearest q).2.2 ∧
    (gonumNearest t.metric (buildGonumBackend t.points) q).2.1 = (t.Nearest q).2.1 ∧
    ((gonumNearest t.metric (buildGonumBackend t.points) q).2.2 = true →
      ∃ j, j < t.points.length ∧
        (gonumNearest t.metric (buildGonumBackend t.points) q).1 = (j : Int) ∧
        t.metric q (t.points.getD j default).Coords =
          (gonumNearest t.metric (buildGonumBackend t.points) q).2.1) := by
  by_cases hemp : t.points.length = 0
  · have hempl : t.points = [] := List.length_eq_zero.mp hemp
    have hg : gonumNearest t.metric (buildGonumBackend t.points) q = (-1, 0, false) := by
      rw [hempl]
      simp [gonumNearest, buildGonumBackend, KDNode.isNil]
    have hl : t.Nearest q = (default, 0, false) := by
      simp only [KDTree.Nearest, if_pos (Or.inr hemp)]
    rw [hg, hl]
    exact ⟨rfl, rfl, by intro h; simp at h⟩
  · have hne : t.points ≠ [] := by
      intro h
      exact hemp (by rw [h]; rfl)
    have hhead : (t.points.headD default).Coords.length = t.dim := by
      obtain ⟨p0, rest, hps⟩ := List.exists_cons_of_ne_nil hne
      rw [hps]
      exact hlen p0 (by rw [hps]; exact List.mem_cons_self _ _)
    have hperm := buildKD_perm (fun i => (t.points.getD i default).Coords) t.dim hdim
      (List.range t.points.length)
    have hmem : ∀ j, j ∈ (buildKDRecursive (fun i => (t.points.getD i default).Coords)
        t.dim (List.range t.points.length)).idxs ↔ j < t.points.length := by
      intro j
      rw [hperm.mem_iff, List.mem_range]
    have hclen : ∀ j ∈ (buildKDRecursive (fun i => (t.points.getD i default).Coords)
        t.dim (List.range t.points.length)).idxs,
        ((fun i => (t.points.getD i default).Coords) j).length = t.dim := by
      intro j hj
      have hjn : j < t.points.length := (hmem j).mp hj
      show (t.points.getD j default).Coords.length = t.dim
      rw [List.getD_eq_getElem t.points default hjn]
      exact hlen _ (List.getElem_mem hjn)
    have hnil : (buildKDRecursive (fun i => (t.points.getD i default).Coords) t.dim
        (List.range t.points.length)).isNil = false := by
      rw [buildKD_eq (fun i => (t.points.getD i default).Coords) t.dim
        (List.range t.points.length) (by rw [List.length_range]; exact hemp) _ rfl _ rfl]
      rfl
    obtain ⟨hd1, hd2, hd3⟩ := searchNearest_spec t.metric
      (fun i => (t.points.getD i default).Coords) q t.dim hax
      (buildKDRecursive (fun i => (t.points.getD i default).Coords) t.dim
        (List.range t.points.length))
      (buildKD_wf _ t.dim hdim _) hclen (-1, maxFloat64 F)
    simp only [gonumNearest, buildGonumBackend, if_neg hemp, hhead, hnil,
      Bool.false_eq_true, false_or]
    rw [if_neg (fun hcon : q.length ≠ t.dim => hcon hq)]
    rcases hd1 with hst | ⟨j0, hj0mem, hst, hstlt⟩
    · rw [hst]
      rw [if_pos (show ((-1 : Int), maxFloat64 F).1 < 0 by norm_num)]
      have hallfar : ∀ j < t.points.length,
          ¬ (t.metric q (t.points.getD j default).Coords < maxFloat64 F) := by
        intro j hj
        have hthis := hd3 j ((hmem j).mpr hj)
        rw [hst] at hthis
        exact not_lt.mpr hthis
      rcases Nearest_characterization t q hq hne with ⟨_, hlin⟩ |
        ⟨jL, hjL, _, hltL, _, _⟩
      · rw [hlin]
        exact ⟨rfl, rfl, by intro h; simp at h⟩
      · exact absurd hltL (hallfar jL hjL)
    · have hnneg : ¬ ((((j0 : Int), t.metric q
          ((fun i => (t.points.getD i default).Coords) j0)) : Int × F).1 < 0) :=
        not_lt.mpr (Int.natCast_nonneg j0)
      rw [hst, if_neg hnneg]
      have hj0 : j0 < t.points.length := (hmem j0).mp hj0mem
      rcases Nearest_characterization t q hq hne with ⟨hallL, _⟩ |
        ⟨jL, hjL, heqL, _, hminL, _⟩
      · exact absurd hstlt (hallL j0 hj0)
      · rw [heqL]
        have h1 : t.metric q (t.points.getD j0 default).Coords ≤
            t.metric q (t.points.getD jL default).Coords := by
          have hthis := hd3 jL ((hmem jL).mpr hjL)
          rw [hst] at hthis
          exact hthis
        have heqd : t.metric q (t.points.getD j0 default).Coords =
            t.metric q (t.points.getD jL default).Coords :=
          le_antisymm h1 (hminL j0 hj0)
        exact ⟨rfl, heqd, fun _ => ⟨j0, hj0, rfl, heqd.symm ▸ rfl⟩⟩

/-- Appending one element, seen at the multiset level. -/
theorem coe_append_singleton {α : Type*} (acc : List α) (x : α) :
    (↑(acc ++ [x]) : Multiset α) = ↑acc + {x} := rfl

/-- `searchRadius` unfolding at a node, near child = right. -/
theorem searchRadius_node_ge (m : List F → List F → F) (coords : ℕ → List F)
    (q : List F) (rad : F) (ax i : ℕ) (v : F) (l r : KDNode F)
    (acc : List (ℕ × F)) (hqv : q.getD ax 0 ≥ v) :
    searchRadius m coords q rad (KDNode.node ax i v l r) acc =
      (let res1 := if m q (coords i) ≤ rad then acc ++ [(i, m q (coords i))] else acc
       let res2 := searchRadius m coords q rad r res1
       if (if q.getD ax 0 - v < 0 then -(q.getD ax 0 - v) else q.getD ax 0 - v) ≤ rad
       then searchRadius m coords q rad l res2 else res2) := by
  rw [searchRadius]
  simp only [if_pos hqv]

/-- `searchRadius` unfolding at a node, near child = left. -/
theorem searchRadius_node_lt (m : List F → List F → F) (coords : ℕ → List F)
    (q : List F) (rad : F) (ax i : ℕ) (v : F) (l r : KDNode F)
    (acc : List (ℕ × F)) (hqv : ¬ q.getD ax 0 ≥ v) :
    searchRadius m coords q rad (KDNode.node ax i v l r) acc =
      (let res1 := if m q (coords i) ≤ rad then acc ++ [(i, m q (coords i))] else acc
       let res2 := searchRadius m coords q rad l res1
       if (if q.getD ax 0 - v < 0 then -(q.getD ax 0 - v) else q.getD ax 0 - v) ≤ rad
       then searchRadius m coords q rad r res2 else res2) := by
  rw [searchRadius]
  simp only [if_neg hqv]

/-- `searchRadius` on a well-formed tree collects exactly the tree points
within the radius (as a multiset appended to the accumulator); the pruned
far subtrees hold no point within the radius. -/
theorem searchRadius_spec (m : List F → List F → F) (coords : ℕ → List F)
    (q : List F) (dim : ℕ)
    (hax : ∀ p ax, p.length = dim → ax < dim → |q.getD ax 0 - p.getD ax 0| ≤ m q p)
    (rad : F) :
    ∀ t : KDNode F, TreeWF coords dim t →
      (∀ j ∈ t.idxs, (coords j).length = dim) →
      ∀ acc : List (ℕ × F),
        (↑(searchRadius m coords q rad t acc) : Multiset (ℕ × F)) =
          ↑acc + ↑((t.idxs.filter (fun j => decide (m q (coords j) ≤ rad))).map
            (fun j => (j, m q (coords j)))) := by
  intro t
  induction t with
  | nil =>
    intro _ _ acc
    rw [searchRadius]
    simp [KDNode.idxs]
  | node ax i v l r ihl ihr =>
    intro hwf hclen acc
    obtain ⟨haxlt, hveq, hlb, hrb, hwl, hwr⟩ := hwf
    have hcll : ∀ j ∈ l.idxs, (coords j).length = dim := fun j hj =>
      hclen j (by simp [KDNode.idxs]; exact Or.inr (Or.inl hj))
    have hclr : ∀ j ∈ r.idxs, (coords j).length = dim := fun j hj =>
      hclen j (by simp [KDNode.idxs]; exact Or.inr (Or.inr hj))
    have hsplit : (↑(((KDNode.node ax i v l r).idxs.filter
        (fun j => decide (m q (coords j) ≤ rad))).map
          (fun j => (j, m q (coords j)))) : Multiset (ℕ × F)) =
        (if m q (coords i) ≤ rad then ({(i, m q (coords i))} : Multiset (ℕ × F)) else 0) +
        ↑((l.idxs.filter (fun j => decide (m q (coords j) ≤ rad))).map
          (fun j => (j, m q (coords j)))) +
        ↑((r.idxs.filter (fun j => decide (m q (coords j) ≤ rad))).map
          (fun j => (j, m q (coords j)))) := by
      simp only [KDNode.idxs, List.filter_cons, List.filter_append]
      by_cases hdi : m q (coords i) ≤ rad
      · rw [if_pos (by simpa using hdi), if_pos hdi]
        simp only [List.map_cons, List.map_append]
        rfl
      · rw [if_neg (by simpa using hdi), if_neg hdi]
        simp only [List.map_append, zero_add]
        rfl
    rw [hsplit]
    by_cases hqv : q.getD ax 0 ≥ v
    · rw [searchRadius_node_ge m coords q rad ax i v l r acc hqv]
      dsimp only
      by_cases hprune :
          (if q.getD ax 0 - v < 0 then -(q.getD ax 0 - v) else q.getD ax 0 - v) ≤ rad
      · rw [if_pos hprune]
        rw [ihl hwl hcll, ihr hwr hclr]
        by_cases hdi : m q (coords i) ≤ rad
        · rw [if_pos hdi, if_pos hdi]
          rw [coe_append_singleton]
          abel
        · rw [if_neg hdi, if_neg hdi]
          abel
      · rw [if_neg hprune]
        rw [ihr hwr hclr]
        have hfilter : l.idxs.filter (fun j => decide (m q (coords j) ≤ rad)) = [] := by
          apply List.filter_eq_nil_iff.mpr
          intro j hj
          simp only [decide_eq_true_eq]
          intro hc
          have hfar := far_dist_lb m q dim hax ax haxlt v (coords j) (hcll j hj)
            (Or.inl ⟨hqv, hlb j hj⟩)
          have := not_le.mp hprune
          linarith
        rw [hfilter]
        by_cases hdi : m q (coords i) ≤ rad
        · rw [if_pos hdi, if_pos hdi]
          rw [coe_append_singleton]
          abel
        · rw [if_neg hdi, if_neg hdi]
          abel
    · rw [searchRadius_node_lt m coords q rad ax i v l r acc hqv]
      dsimp only
      by_cases hprune :
          (if q.getD ax 0 - v < 0 then -(q.getD ax 0 - v) else q.getD ax 0 - v) ≤ rad
      · rw [if_pos hprune]
        rw [ihr hwr hclr, ihl hwl hcll]
        by_cases hdi : m q (coords i) ≤ rad
        · rw [if_pos hdi, if_pos hdi]
          rw [coe_append_singleton]
          abel
        · rw [if_neg hdi, if_neg hdi]
          abel
      · rw [if_neg hprune]
        rw [ihl hwl hcll]
        have hfilter : r.idxs.filter (fun j => decide (m q (coords j) ≤ rad)) = [] := by
          apply List.filter_eq_nil_iff.mpr
          intro j hj
          simp only [decide_eq_true_eq]
          intro hc
          have hfar := far_dist_lb m q dim hax ax haxlt v (coords j) (hclr j hj)
            (Or.inr ⟨le_of_lt (not_le.mp hqv), hrb j hj⟩)
          have := not_le.mp hprune
          linarith
        rw [hfilter]
        by_cases hdi : m q (coords i) ≤ rad
        · rw [if_pos hdi, if_pos hdi]
          rw [coe_append_singleton]
          abel
        · rw [if_neg hdi, if_neg hdi]
          abel

/-- `distPairs` is the index range mapped to `(index, distance)` records. -/
theorem distPairs_eq_range (m : List F → List F → F) (q : List F)
    (pts : List (KDPoint F)) :
    distPairs m q pts = (List.range pts.length).map
      (fun j => (j, m q (pts.getD j default).Coords)) := by
  apply List.ext_getElem
  · simp [distPairs, List.enum_length]
  · intro i h1 h2
    have hi : i < pts.length := by
      simpa [distPairs, List.enum_length] using h1
    simp only [distPairs, List.getElem_map, List.getElem_enum, List.getElem_range]
    rw [List.getD_eq_getElem pts default hi]

/-- The two engines agree on `Radius`: the same multiset of
(point, distance) pairs within the radius. -/
theorem radiusAgree (t : KDTree F) (q : List F) (hdim : 0 < t.dim)
    (hlen : ∀ p ∈ t.points, p.Coords.length = t.dim) (hq : q.length = t.dim)
    (hax : ∀ p ax, p.length = t.dim → ax < t.dim →
      |q.getD ax 0 - p.getD ax 0| ≤ t.metric q p) (r : F) :
    (↑(((gonumRadius t.metric (buildGonumBackend t.points) q r).1.map
        (fun j => t.points.getD j default)).zip
        ((gonumRadius t.metric (buildGonumBackend t.points) q r).2)) :
      Multiset (KDPoint F × F)) =
      ↑((t.Radius q r).1.zip ((t.Radius q r).2)) := by
  by_cases hemp : t.points.length = 0
  · have hempl := List.length_eq_zero.mp hemp
    have hg : gonumRadius t.metric (buildGonumBackend t.points) q r = ([], []) := by
      rw [hempl]
      simp [gonumRadius, buildGonumBackend, KDNode.isNil]
    have hl : t.Radius q r = ([], []) := by
      simp only [KDTree.Radius, if_pos (Or.inr (Or.inr hemp))]
    rw [hg, hl]
    rfl
  · by_cases hrneg : r < 0
    · have hg : gonumRadius t.metric (buildGonumBackend t.points) q r = ([], []) := by
        simp only [gonumRadius, if_pos (Or.inr (Or.inr hrneg))]
      have hl : t.Radius q r = ([], []) := by
        simp only [KDTree.Radius, if_pos (Or.inl hrneg)]
      rw [hg, hl]
      rfl
    · have hne : t.points ≠ [] := by
        intro h
        exact hemp (by rw [h]; rfl)
      have hhead : (t.points.headD default).Coords.length = t.dim := by
        obtain ⟨p0, rest, hps⟩ := List.exists_cons_of_ne_nil hne
        rw [hps]
        exact hlen p0 (by rw [hps]; exact List.mem_cons_self _ _)
      have hperm := buildKD_perm (fun i => (t.points.getD i default).Coords) t.dim hdim
        (List.range t.points.length)
      have hclen : ∀ j ∈ (buildKDRecursive (fun i => (t.points.getD i default).Coords)
          t.dim (List.range t.points.length)).idxs,
          ((fun i => (t.points.getD i default).Coords) j).length = t.dim := by
        intro j hj
        have hjn : j < t.points.length := List.mem_range.mp (hperm.mem_iff.mp hj)
        show (t.points.getD j default).Coords.length = t.dim
        rw [List.getD_eq_getElem t.points default hjn]
        exact hlen _ (List.getElem_mem hjn)
      have hnil : (buildKDRecursive (fun i => (t.points.getD i default).Coords) t.dim
          (List.range t.points.length)).isNil = false := by
        rw [buildKD_eq (fun i => (t.points.getD i default).Coords) t.dim
          (List.range t.points.length) (by rw [List.length_range]; exact hemp) _ rfl _ rfl]
        rfl
      have hguardL : ¬ (r < 0 ∨ q.length ≠ t.dim ∨ t.points.length = 0) := by
        push_neg
        exact ⟨not_lt.mp (by exact hrneg), hq, hemp⟩
      simp only [gonumRadius, buildGonumBackend, if_neg hemp, hhead, hnil,
        Bool.false_eq_true, false_or]
      rw [if_neg (fun hc : q.length ≠ t.dim ∨ r < 0 =>
        hc.elim (fun h1 => h1 hq) (fun h2 => hrneg h2))]
      simp only [KDTree.Radius, if_neg hguardL]
      rw [List.map_map, List.zip_map', List.zip_map']
      apply Multiset.coe_eq_coe.mpr
      apply List.Perm.map
      have hcoll := searchRadius_spec t.metric
        (fun i => (t.points.getD i default).Coords) q t.dim hax r
        (buildKDRecursive (fun i => (t.points.getD i default).Coords) t.dim
          (List.range t.points.length))
        (buildKD_wf _ t.dim hdim _) hclen []
      have hcoll2 : (searchRadius t.metric (fun i => (t.points.getD i default).Coords)
          q r (buildKDRecursive (fun i => (t.points.getD i default).Coords) t.dim
            (List.range t.points.length)) []).Perm
          (((buildKDRecursive (fun i => (t.points.getD i default).Coords) t.dim
            (List.range t.points.length)).idxs.filter
              (fun j => decide (t.metric q ((fun i => (t.points.getD i default).Coords) j) ≤ r))).map
            (fun j => (j, t.metric q ((fun i => (t.points.getD i default).Coords) j)))) := by
        apply Multiset.coe_eq_coe.mp
        rw [hcoll]
        exact zero_add _
      have hfilt : ((buildKDRecursive (fun i => (t.points.getD i default).Coords) t.dim
          (List.range t.points.length)).idxs.filter
            (fun j => decide (t.metric q ((fun i => (t.points.getD i default).Coords) j) ≤ r))).Perm
          ((List.range t.points.length).filter
            (fun j => decide (t.metric q ((fun i => (t.points.getD i default).Coords) j) ≤ r))) :=
        hperm.filter _
      have hsel : (distPairs t.metric q t.points).filter (fun e => decide (e.2 ≤ r)) =
          ((List.range t.points.length).filter
            (fun j => decide (t.metric q ((fun i => (t.points.getD i default).Coords) j) ≤ r))).map
            (fun j => (j, t.metric q ((fun i => (t.points.getD i default).Coords) j))) := by
        rw [distPairs_eq_range]
        exact List.map_filter _ _
      refine ((List.mergeSort_perm _ _).trans hcoll2).trans ?_
      refine (hfilt.map _).trans ?_
      rw [← hsel]
      exact (List.mergeSort_perm _ _).symm

/-- Overwriting a slot, seen at the multiset level: the new list plus the
displaced element equals the old list plus the new element. -/
theorem coe_set_add {α : Type*} (l : List α) (i : ℕ) (a : α) (hi : i < l.length)
    (d : α) : (↑(l.set i a) : Multiset α) + {l.getD i d} = ↑l + {a} := by
  rw [List.getD_eq_getElem l d hi]
  rw [List.set_eq_take_cons_drop a hi]
  have hl : l = l.take i ++ l.get ⟨i, hi⟩ :: l.drop (i + 1) := by
    conv_lhs => rw [← List.take_append_drop i l]
    rw [List.drop_eq_getElem_cons hi]
    rfl
  conv_rhs => rw [hl]
  have h1 : ∀ (t d2 : List α) (x y : α),
      (↑(t ++ x :: d2) : Multiset α) + {y} = ↑t + ({x} + ↑d2) + {y} := by
    intro t d2 x y
    rw [Multiset.singleton_add]
    rfl
  rw [h1, h1]
  abel

/-- `swap` keeps the length. -/
theorem hswap_length (h : List (ℕ × F)) (i j : ℕ) :
    (hswap h i j).length = h.length := by
  simp [hswap]

/-- Reading a slot after a `swap`. -/
theorem hswap_getD (h : List (ℕ × F)) (i j x : ℕ) (hi : i < h.length)
    (hj : j < h.length) :
    (hswap h i j).getD x (0, 0) =
      if x = j then h.getD i (0, 0)
      else if x = i then h.getD j (0, 0) else h.getD x (0, 0) := by
  unfold hswap
  by_cases hxj : x = j
  · subst hxj
    rw [if_pos rfl]
    exact getD_set_self (by simpa using hj)
  · rw [if_neg hxj]
    by_cases hx : x < h.length
    · rw [getD_set_other hxj (by simpa using hx)]
      by_cases hxi : x = i
      · subst hxi
        rw [if_pos rfl]
        exact getD_set_self hx
      · rw [if_neg hxi]
        exact getD_set_other hxi hx
    · have hxlen : ¬ x < ((h.set i (h.getD j (0, 0))).set j (h.getD i (0, 0))).length := by
        simpa using hx
      rw [List.getD_eq_default _ _ (le_of_not_lt hxlen),
        List.getD_eq_default _ _ (le_of_not_lt hx)]
      rw [if_neg (fun hxi : x = i => hx (hxi ▸ hi))]

/-- `swap` keeps the multiset of entries. -/
theorem hswap_coe (h : List (ℕ × F)) (i j : ℕ) (hi : i < h.length)
    (hj : j < h.length) : (↑(hswap h i j) : Multiset (ℕ × F)) = ↑h := by
  unfold hswap
  have hlenj : j < (h.set i (h.getD j (0, 0))).length := by simpa using hj
  have e1 := coe_set_add h i (h.getD j (0, 0)) hi (0, 0)
  have e2 := coe_set_add (h.set i (h.getD j (0, 0))) j (h.getD i (0, 0)) hlenj (0, 0)
  by_cases hij : i = j
  · subst hij
    rw [getD_set_self hi] at e2
    exact add_right_cancel (e2.trans e1)
  · rw [getD_set_other (fun hji : j = i => hij hji.symm) hj] at e2
    exact add_right_cancel (e2.trans e1)

/-- `up` keeps the multiset of entries and the length. -/
theorem hup_coe_length : ∀ (i : ℕ) (h : List (ℕ × F)), i < h.length →
    (↑(hup h i) : Multiset (ℕ × F)) = ↑h ∧ (hup h i).length = h.length := by
  intro i
  induction i using Nat.strong_induction_on with
  | _ i ih =>
    intro h hi
    cases i with
    | zero =>
      rw [hup]
      exact ⟨rfl, rfl⟩
    | succ i =>
      rw [hup]
      by_cases hc : (h.getD (i + 1) (0, 0)).2 > (h.getD ((i + 1 - 1) / 2) (0, 0)).2
      · rw [if_pos hc]
        have hp2 : (i + 1 - 1) / 2 < i + 1 := by omega
        have hpl : (i + 1 - 1) / 2 < (hswap h (i + 1) ((i + 1 - 1) / 2)).length := by
          rw [hswap_length]
          omega
        obtain ⟨c1, c2⟩ := ih ((i + 1 - 1) / 2) hp2 (hswap h (i + 1) ((i + 1 - 1) / 2)) hpl
        refine ⟨?_, ?_⟩
        · rw [c1, hswap_coe h (i + 1) ((i + 1 - 1) / 2) hi (by omega)]
        · rw [c2, hswap_length]
      · rw [if_neg hc]
        exact ⟨rfl, rfl⟩

/-- `down` keeps the multiset of entries and the length. -/
theorem hdown_coe_length : ∀ (n : ℕ) (h : List (ℕ × F)) (i : ℕ),
    h.length - i ≤ n →
    (↑(hdown h i) : Multiset (ℕ × F)) = ↑h ∧ (hdown h i).length = h.length := by
  intro n
  induction n using Nat.strong_induction_on with
  | _ n ih =>
    intro h i hn
    rw [hdown]
    split
    · rename_i hc1
      split
      · rename_i hr
        have hrl : 2 * i + 1 + 1 < h.length := hr.1
        have hil : i < h.length := by omega
        have hm : h.length - (2 * i + 1 + 1) < n := by omega
        obtain ⟨c1, c2⟩ := ih (h.length - (2 * i + 1 + 1)) hm
          (hswap h i (2 * i + 1 + 1)) (2 * i + 1 + 1)
          (by rw [hswap_length])
        constructor
        · rw [c1, hswap_coe h i (2 * i + 1 + 1) hil hrl]
        · rw [c2, hswap_length]
      · rename_i hnr
        have hll : 2 * i + 1 < h.length := hc1.1
        have hil : i < h.length := by omega
        have hm : h.length - (2 * i + 1) < n := by omega
        obtain ⟨c1, c2⟩ := ih (h.length - (2 * i + 1)) hm
          (hswap h i (2 * i + 1)) (2 * i + 1)
          (by rw [hswap_length])
        constructor
        · rw [c1, hswap_coe h i (2 * i + 1) hil hll]
        · rw [c2, hswap_length]
    · rename_i hnc1
      split
      · rename_i hr
        have hrl : 2 * i + 1 + 1 < h.length := hr.1
        have hil : i < h.length := by omega
        have hm : h.length - (2 * i + 1 + 1) < n := by omega
        obtain ⟨c1, c2⟩ := ih (h.length - (2 * i + 1 + 1)) hm
          (hswap h i (2 * i + 1 + 1)) (2 * i + 1 + 1)
          (by rw [hswap_length])
        constructor
        · rw [c1, hswap_coe h i (2 * i + 1 + 1) hil hrl]
        · rw [c2, hswap_length]
      · rename_i hnr
        exact ⟨rfl, rfl⟩

/-- `push` appends the entry at the multiset level and grows the length
by one. -/
theorem hpush_coe_length (h : List (ℕ × F)) (x : ℕ × F) :
    (↑(hpush h x) : Multiset (ℕ × F)) = ↑h + {x} ∧
    (hpush h x).length = h.length + 1 := by
  unfold hpush
  obtain ⟨c1, c2⟩ := hup_coe_length h.length (h ++ [x]) (by simp)
  constructor
  · rw [c1, coe_append_singleton]
  · rw [c2]
    simp

/-- In a max-heap, the root dominates every slot. -/
theorem isMaxHeap_peek (h : List (ℕ × F)) (hh : IsMaxHeap h) :
    ∀ i, i < h.length → (h.getD i (0, 0)).2 ≤ (h.getD 0 (0, 0)).2 := by
  intro i
  induction i using Nat.strong_induction_on with
  | _ i ih =>
    intro hi
    cases i with
    | zero => exact le_refl _
    | succ i =>
      have hpar : i + 1 = 2 * (i / 2) + 1 ∨ i + 1 = 2 * (i / 2) + 2 := by omega
      have h1 := hh (i / 2) (i + 1) hpar hi
      exact le_trans h1 (ih (i / 2) (by omega) (by omega))

/-- In a max-heap, the root dominates every member. -/
theorem isMaxHeap_mem_le_peek (h : List (ℕ × F)) (hh : IsMaxHeap h) :
    ∀ e ∈ h, e.2 ≤ (h.getD 0 (0, 0)).2 := by
  intro e he
  obtain ⟨i, hi, hie⟩ := List.mem_iff_getElem.mp he
  have hle := isMaxHeap_peek h hh i hi
  rw [List.getD_eq_getElem h (0, 0) hi, hie] at hle
  exact hle

/-- Sifting up restores the heap: if every parent/child pair except those
with child `i` is ordered, and `i`'s own children are dominated by `i`'s
parent, then `up i` yields a max-heap. -/
theorem hup_heap : ∀ (i : ℕ) (h : List (ℕ × F)), i < h.length →
    (∀ a b : ℕ, (b = 2 * a + 1 ∨ b = 2 * a + 2) → b < h.length → b ≠ i →
      (h.getD b (0, 0)).2 ≤ (h.getD a (0, 0)).2) →
    (∀ b : ℕ, (b = 2 * i + 1 ∨ b = 2 * i + 2) → b < h.length → i ≠ 0 →
      (h.getD b (0, 0)).2 ≤ (h.getD ((i - 1) / 2) (0, 0)).2) →
    IsMaxHeap (hup h i) := by
  intro i
  induction i using Nat.strong_induction_on with
  | _ i ih =>
    intro h hi hpairs hgrand
    cases i with
    | zero =>
      rw [hup]
      intro a b hab hb
      exact hpairs a b hab hb (by omega)
    | succ i =>
      rw [hup]
      by_cases hc : (h.getD (i + 1) (0, 0)).2 > (h.getD ((i + 1 - 1) / 2) (0, 0)).2
      · rw [if_pos hc]
        set p := (i + 1 - 1) / 2 with hp
        have hplen : p < h.length := by omega
        apply ih p (by omega) (hswap h (i + 1) p)
        · rw [hswap_length]
          omega
        · intro a b hab hb hbp
          rw [hswap_length] at hb
          rw [hswap_getD h (i + 1) p a hi hplen, hswap_getD h (i + 1) p b hi hplen]
          by_cases hbi : b = i + 1
          · subst hbi
            have hap : a = p := by omega
            subst hap
            rw [if_neg (show (i + 1 : ℕ) ≠ p by omega), if_pos rfl, if_pos rfl]
            exact le_of_lt hc
          · rw [if_neg hbp, if_neg hbi]
            by_cases hap : a = p
            · subst hap
              rw [if_pos rfl]
              exact le_trans (hpairs p b hab hb hbi) (le_of_lt hc)
            · rw [if_neg hap]
              by_cases hai : a = i + 1
              · subst hai
                rw [if_pos rfl]
                exact hgrand b hab hb (by omega)
              · rw [if_neg hai]
                exact hpairs a b hab hb hbi
        · intro b hb1 hb2 hbp0
          rw [hswap_length] at hb2
          rw [hswap_getD h (i + 1) p b hi hplen,
            hswap_getD h (i + 1) p ((p - 1) / 2) hi hplen]
          rw [if_neg (show (p - 1) / 2 ≠ p by omega),
            if_neg (show (p - 1) / 2 ≠ i + 1 by omega)]
          by_cases hbi : b = i + 1
          · subst hbi
            rw [if_neg (show (i + 1 : ℕ) ≠ p by omega), if_pos rfl]
            exact hpairs ((p - 1) / 2) p (by omega) hplen (by omega)
          · by_cases hbp : b = p
            · exfalso
              omega
            · rw [if_neg hbp, if_neg hbi]
              exact le_trans (hpairs p b hb1 hb2 hbi)
                (hpairs ((p - 1) / 2) p (by omega) hplen (by omega))
      · rw [if_neg hc]
        intro a b hab hb
        by_cases hbi : b = i + 1
        · subst hbi
          have hap : a = (i + 1 - 1) / 2 := by omega
          subst hap
          exact not_lt.mp hc
        · exact hpairs a b hab hb hbi

/-- Reading slot `j` after `swap i j`. -/
theorem hswap_getD_at_j (h : List (ℕ × F)) (i j : ℕ) (hi : i < h.length)
    (hj : j < h.length) : (hswap h i j).getD j (0, 0) = h.getD i (0, 0) := by
  rw [hswap_getD h i j j hi hj, if_pos rfl]

/-- Reading slot `i` after `swap i j`, `i ≠ j`. -/
theorem hswap_getD_at_i (h : List (ℕ × F)) (i j : ℕ) (hi : i < h.length)
    (hj : j < h.length) (hij : i ≠ j) :
    (hswap h i j).getD i (0, 0) = h.getD j (0, 0) := by
  rw [hswap_getD h i j i hi hj, if_neg hij, if_pos rfl]

/-- Reading an untouched slot after `swap i j`. -/
theorem hswap_getD_other (h : List (ℕ × F)) (i j x : ℕ) (hi : i < h.length)
    (hj : j < h.length) (hxi : x ≠ i) (hxj : x ≠ j) :
    (hswap h i j).getD x (0, 0) = h.getD x (0, 0) := by
  rw [hswap_getD h i j x hi hj, if_neg hxj, if_neg hxi]

/-- Sifting down restores the heap: if every parent/child pair except those
with parent `i` is ordered, and `i`'s children are dominated by `i`'s
parent, then `down i` yields a max-heap. -/
theorem hdown_heap : ∀ (n : ℕ) (h : List (ℕ × F)) (i : ℕ), h.length - i ≤ n →
    (∀ a b : ℕ, (b = 2 * a + 1 ∨ b = 2 * a + 2) → b < h.length → a ≠ i →
      (h.getD b (0, 0)).2 ≤ (h.getD a (0, 0)).2) →
    (∀ b : ℕ, (b = 2 * i + 1 ∨ b = 2 * i + 2) → b < h.length → i ≠ 0 →
      (h.getD b (0, 0)).2 ≤ (h.getD ((i - 1) / 2) (0, 0)).2) →
    IsMaxHeap (hdown h i) := by
  intro n
  induction n using Nat.strong_induction_on with
  | _ n ih =>
    intro h i hn hpairs hanc
    rw [hdown]
    split
    · rename_i hc1
      split
      · rename_i hr
        have hrlen : 2 * i + 1 + 1 < h.length := hr.1
        have hil : i < h.length := by omega
        apply ih (h.length - (2 * i + 1 + 1)) (by omega)
          (hswap h i (2 * i + 1 + 1)) (2 * i + 1 + 1) (by rw [hswap_length])
        · intro a b hab hb har
          rw [hswap_length] at hb
          by_cases hbr : b = 2 * i + 1 + 1
          · rw [hbr]
            have hai : a = i := by omega
            rw [hai]
            rw [hswap_getD_at_j h i (2 * i + 1 + 1) hil hrlen,
              hswap_getD_at_i h i (2 * i + 1 + 1) hil hrlen (by omega)]
            exact le_of_lt (lt_trans hc1.2 hr.2)
          · by_cases hbi : b = i
            · rw [hbi]
              have hi0 : i ≠ 0 := by omega
              have hai : a = (i - 1) / 2 := by omega
              rw [hai]
              rw [hswap_getD_at_i h i (2 * i + 1 + 1) hil hrlen (by omega),
                hswap_getD_other h i (2 * i + 1 + 1) ((i - 1) / 2) hil hrlen
                  (by omega) (by omega)]
              exact hanc (2 * i + 1 + 1) (by omega) hrlen hi0
            · rw [hswap_getD_other h i (2 * i + 1 + 1) b hil hrlen hbi hbr]
              by_cases hai : a = i
              · rw [hai, hswap_getD_at_i h i (2 * i + 1 + 1) hil hrlen (by omega)]
                have hbl : b = 2 * i + 1 := by omega
                rw [hbl]
                exact le_of_lt hr.2
              · rw [hswap_getD_other h i (2 * i + 1 + 1) a hil hrlen hai har]
                exact hpairs a b hab hb hai
        · intro b hb1 hb2 hr0
          rw [hswap_length] at hb2
          have hg : (2 * i + 1 + 1 - 1) / 2 = i := by omega
          rw [hg]
          rw [hswap_getD_at_i h i (2 * i + 1 + 1) hil hrlen (by omega)]
          rw [hswap_getD_other h i (2 * i + 1 + 1) b hil hrlen (by omega) (by omega)]
          exact hpairs (2 * i + 1 + 1) b hb1 hb2 (by omega)
      · rename_i hnr
        have hll : 2 * i + 1 < h.length := hc1.1
        have hil : i < h.length := by omega
        apply ih (h.length - (2 * i + 1)) (by omega)
          (hswap h i (2 * i + 1)) (2 * i + 1) (by rw [hswap_length])
        · intro a b hab hb hal
          rw [hswap_length] at hb
          by_cases hbl : b = 2 * i + 1
          · rw [hbl]
            have hai : a = i := by omega
            rw [hai]
            rw [hswap_getD_at_j h i (2 * i + 1) hil hll,
              hswap_getD_at_i h i (2 * i + 1) hil hll (by omega)]
            exact le_of_lt hc1.2
          · by_cases hbi : b = i
            · rw [hbi]
              have hi0 : i ≠ 0 := by omega
              have hai : a = (i - 1) / 2 := by omega
              rw [hai]
              rw [hswap_getD_at_i h i (2 * i + 1) hil hll (by omega),
                hswap_getD_other h i (2 * i + 1) ((i - 1) / 2) hil hll
                  (by omega) (by omega)]
              exact hanc (2 * i + 1) (by omega) hll hi0
            · rw [hswap_getD_other h i (2 * i + 1) b hil hll hbi hbl]
              by_cases hai : a = i
              · rw [hai, hswap_getD_at_i h i (2 * i + 1) hil hll (by omega)]
                have hbr2 : b = 2 * i + 1 + 1 := by omega
                rw [hbr2]
                exact not_lt.mp (fun hgt => hnr ⟨by omega, hgt⟩)
              · rw [hswap_getD_other h i (2 * i + 1) a hil hll hai hal]
                exact hpairs a b hab hb hai
        · intro b hb1 hb2 hl0
          rw [hswap_length] at hb2
          have hg : (2 * i + 1 - 1) / 2 = i := by omega
          rw [hg]
          rw [hswap_getD_at_i h i (2 * i + 1) hil hll (by omega)]
          rw [hswap_getD_other h i (2 * i + 1) b hil hll (by omega) (by omega)]
          exact hpairs (2 * i + 1) b hb1 hb2 (by omega)
    · rename_i hnc1
      split
      · rename_i hr
        have hrlen : 2 * i + 1 + 1 < h.length := hr.1
        have hil : i < h.length := by omega
        apply ih (h.length - (2 * i + 1 + 1)) (by omega)
          (hswap h i (2 * i + 1 + 1)) (2 * i + 1 + 1) (by rw [hswap_length])
        · intro a b hab hb har
          rw [hswap_length] at hb
          by_cases hbr : b = 2 * i + 1 + 1
          · rw [hbr]
            have hai : a = i := by omega
            rw [hai]
            rw [hswap_getD_at_j h i (2 * i + 1 + 1) hil hrlen,
              hswap_getD_at_i h i (2 * i + 1 + 1) hil hrlen (by omega)]
            exact le_of_lt hr.2
          · by_cases hbi : b = i
            · rw [hbi]
              have hi0 : i ≠ 0 := by omega
              have hai : a = (i - 1) / 2 := by omega
              rw [hai]
              rw [hswap_getD_at_i h i (2 * i + 1 + 1) hil hrlen (by omega),
                hswap_getD_other h i (2 * i + 1 + 1) ((i - 1) / 2) hil hrlen
                  (by omega) (by omega)]
              exact hanc (2 * i + 1 + 1) (by omega) hrlen hi0
            · rw [hswap_getD_other h i (2 * i + 1 + 1) b hil hrlen hbi hbr]
              by_cases hai : a = i
              · rw [hai, hswap_getD_at_i h i (2 * i + 1 + 1) hil hrlen (by omega)]
                have hbl : b = 2 * i + 1 := by omega
                rw [hbl]
                exact le_trans (not_lt.mp (fun hgt => hnc1 ⟨by omega, hgt⟩))
                  (le_of_lt hr.2)
              · rw [hswap_getD_other h i (2 * i + 1 + 1) a hil hrlen hai har]
                exact hpairs a b hab hb hai
        · intro b hb1 hb2 hr0
          rw [hswap_length] at hb2
          have hg : (2 * i + 1 + 1 - 1) / 2 = i := by omega
          rw [hg]
          rw [hswap_getD_at_i h i (2 * i + 1 + 1) hil hrlen (by omega)]
          rw [hswap_getD_other h i (2 * i + 1 + 1) b hil hrlen (by omega) (by omega)]
          exact hpairs (2 * i + 1 + 1) b hb1 hb2 (by omega)
      · rename_i hnr
        intro a b hab hb
        by_cases hai : a = i
        · have hb2 : b = 2 * i + 1 ∨ b = 2 * i + 1 + 1 := by omega
          rw [hai]
          rcases hb2 with hbl | hbr
          · rw [hbl]
            exact not_lt.mp (fun hgt => hnc1 ⟨by omega, hgt⟩)
          · rw [hbr]
            exact not_lt.mp (fun hgt => hnr ⟨by omega, hgt⟩)
        · exact hpairs a b hab hb hai

/-- `push` preserves the heap invariant. -/
theorem hpush_heap (h : List (ℕ × F)) (hh : IsMaxHeap h) (x : ℕ × F) :
    IsMaxHeap (hpush h x) := by
  unfold hpush
  apply hup_heap h.length (h ++ [x]) (by simp)
  · intro a b hab hb hbl
    rw [List.length_append, List.length_singleton] at hb
    have hblen : b < h.length := by omega
    have halen : a < h.length := by omega
    rw [getD_append_left hblen, getD_append_left halen]
    exact hh a b hab hblen
  · intro b hb1 hb2 hl0
    rw [List.length_append, List.length_singleton] at hb2
    exfalso
    omega

/-- Replacing the root and sifting down preserves the heap invariant. -/
theorem hreplace_heap (h : List (ℕ × F)) (hh : IsMaxHeap h) (x : ℕ × F) :
    IsMaxHeap (hdown (h.set 0 x) 0) := by
  apply hdown_heap (h.set 0 x).length (h.set 0 x) 0 (by omega)
  · intro a b hab hb ha0
    rw [List.length_set] at hb
    have hb0 : b ≠ 0 := by omega
    have halen : b < h.length := hb
    rw [getD_set_other hb0 halen, getD_set_other ha0 (by omega)]
    exact hh a b hab halen
  · intro b hb1 hb2 h00
    exact absurd rfl h00

/-- A non-empty multiset over a linear order has a minimum member. -/
theorem multiset_exists_min (V : Multiset F) (h : V ≠ 0) :
    ∃ a ∈ V, ∀ b ∈ V, a ≤ b := by
  have hne : V.toFinset.Nonempty := by
    rcases Multiset.exists_mem_of_ne_zero h with ⟨a, ha⟩
    exact ⟨a, Multiset.mem_toFinset.mpr ha⟩
  refine ⟨V.toFinset.min' hne, Multiset.mem_toFinset.mp (V.toFinset.min'_mem hne), ?_⟩
  intro b hb
  exact V.toFinset.min'_le b (Multiset.mem_toFinset.mpr hb)

/-- Removing a common minimum from both sides preserves `KBest` with the
capacity reduced by one. -/
theorem kbest_erase (c : ℕ) (V H : Multiset F) (hk : KBest c V H) (a : F)
    (haV : a ∈ V) (haH : a ∈ H) : KBest (c - 1) (V.erase a) (H.erase a) := by
  obtain ⟨hle, hc, hd⟩ := hk
  have hHpos : 1 ≤ Multiset.card H := by
    by_contra hcon
    push_neg at hcon
    have : Multiset.card H = 0 := by omega
    rw [Multiset.card_eq_zero] at this
    rw [this] at haH
    exact absurd haH (Multiset.not_mem_zero a)
  have hcge : Multiset.card H ≤ c := by
    rw [hc]
    exact min_le_left _ _
  have hcpos : 1 ≤ c := le_trans hHpos hcge
  have hVpos : 1 ≤ Multiset.card V := le_trans hHpos (Multiset.card_le_card hle)
  refine ⟨Multiset.erase_le_erase a hle, ?_, ?_⟩
  · rw [Multiset.card_erase_of_mem haH, Multiset.card_erase_of_mem haV, hc]
    simp only [Nat.pred_eq_sub_one]
    rcases le_total c (Multiset.card V) with hcv | hcv
    · rw [min_eq_left hcv, min_eq_left (by omega : c - 1 ≤ Multiset.card V - 1)]
    · rw [min_eq_right hcv, min_eq_right (by omega : Multiset.card V - 1 ≤ c - 1)]
  · intro x hx y hy
    have hE : V.erase a - H.erase a = V - H := by
      apply Multiset.ext.mpr
      intro z
      rw [Multiset.count_sub, Multiset.count_sub]
      by_cases hz : z = a
      · subst hz
        rw [Multiset.count_erase_self, Multiset.count_erase_self]
        have hva : 1 ≤ V.count z := Multiset.count_pos.mpr haV
        have hha : 1 ≤ H.count z := Multiset.count_pos.mpr haH
        omega
      · rw [Multiset.count_erase_of_ne hz, Multiset.count_erase_of_ne hz]
    rw [hE] at hx
    exact hd x hx y (Multiset.mem_of_mem_erase hy)

/-- A `c`-smallest multiset of `V` is unique. -/
theorem kbest_unique : ∀ (k c : ℕ) (V H1 H2 : Multiset F),
    Multiset.card H1 = k → KBest c V H1 → KBest c V H2 → H1 = H2 := by
  intro k
  induction k with
  | zero =>
    intro c V H1 H2 hcard h1 h2
    have hc2 : Multiset.card H2 = 0 := by
      rw [h2.2.1, ← h1.2.1, hcard]
    rw [Multiset.card_eq_zero] at hcard hc2
    rw [hcard, hc2]
  | succ k ihk =>
    intro c V H1 H2 hcard h1 h2
    have hV0 : V ≠ 0 := by
      intro hV
      have hzero : Multiset.card H1 = 0 := by
        rw [h1.2.1, hV]
        simp
      rw [hcard] at hzero
      omega
    obtain ⟨a, haV, hamin⟩ := multiset_exists_min V hV0
    have hmem1 : a ∈ H1 := by
      by_contra hna
      have hmem : a ∈ V - H1 := by
        rw [← Multiset.count_pos, Multiset.count_sub]
        have h1a : H1.count a = 0 := Multiset.count_eq_zero.mpr hna
        have hva : 0 < V.count a := Multiset.count_pos.mpr haV
        omega
      have hH1ne : H1 ≠ 0 := by
        intro hh
        rw [hh] at hcard
        simp at hcard
      obtain ⟨y, hy⟩ := Multiset.exists_mem_of_ne_zero hH1ne
      have hya := h1.2.2 a hmem y hy
      have hay : a ≤ y := hamin y (Multiset.mem_of_le h1.1 hy)
      exact hna ((le_antisymm hya hay) ▸ hy)
    have hmem2 : a ∈ H2 := by
      by_contra hna
      have hmem : a ∈ V - H2 := by
        rw [← Multiset.count_pos, Multiset.count_sub]
        have h1a : H2.count a = 0 := Multiset.count_eq_zero.mpr hna
        have hva : 0 < V.count a := Multiset.count_pos.mpr haV
        omega
      have hH2ne : H2 ≠ 0 := by
        intro hh
        have hzero : Multiset.card H1 = 0 := by
          rw [h1.2.1, ← h2.2.1, hh]
          simp
        rw [hcard] at hzero
        omega
      obtain ⟨y, hy⟩ := Multiset.exists_mem_of_ne_zero hH2ne
      have hya := h2.2.2 a hmem y hy
      have hay : a ≤ y := hamin y (Multiset.mem_of_le h2.1 hy)
      exact hna ((le_antisymm hya hay) ▸ hy)
    have hcard2 : Multiset.card (H1.erase a) = k := by
      rw [Multiset.card_erase_of_mem hmem1, hcard]
      rfl
    have hrec := ihk (c - 1) (V.erase a) (H1.erase a) (H2.erase a) hcard2
      (kbest_erase c V H1 ⟨h1.1, h1.2.1, h1.2.2⟩ a haV hmem1)
      (kbest_erase c V H2 ⟨h2.1, h2.2.1, h2.2.2⟩ a haV hmem2)
    rw [← Multiset.cons_erase hmem1, ← Multiset.cons_erase hmem2, hrec]

/-- Admitting one point into the bounded heap (push below capacity, replace
the maximum when strictly closer, else drop) preserves the heap shape, the
capacity bound, and the `c`-smallest-so-far invariant. -/
theorem knnStep_spec (cap : ℕ) (hcap : 0 < cap) (h : List (ℕ × F)) (V : Multiset F)
    (i : ℕ) (d : F) (hh : IsMaxHeap h) (hlen : h.length ≤ cap)
    (hK : KBest cap V ↑(h.map (fun e => e.2)))
    (h1 : List (ℕ × F))
    (hh1 : h1 = if h.length < cap then hpush h (i, d)
      else if d < (h.getD 0 (0, 0)).2 then hdown (h.set 0 (i, d)) 0 else h) :
    IsMaxHeap h1 ∧ h1.length ≤ cap ∧
    KBest cap (V + {d}) ↑(h1.map (fun e => e.2)) := by
  have hmc : ∀ l : List (ℕ × F), (↑(l.map (fun e => e.2)) : Multiset F)
      = Multiset.map (fun e : ℕ × F => e.2) ↑l := fun l => rfl
  by_cases hfull : h.length < cap
  · rw [if_pos hfull] at hh1
    subst hh1
    obtain ⟨hc1, hc2⟩ := hpush_coe_length h (i, d)
    refine ⟨hpush_heap h hh (i, d), by omega, ?_⟩
    have hmap : (↑((hpush h (i, d)).map (fun e => e.2)) : Multiset F) =
        ↑(h.map (fun e => e.2)) + {d} := by
      rw [hmc, hc1, Multiset.map_add, Multiset.map_singleton, hmc]
    rw [hmap]
    obtain ⟨hle, hc, hd2⟩ := hK
    have hHlen : Multiset.card (↑(h.map (fun e => e.2)) : Multiset F) = h.length := by
      simp
    have hmincap : min cap (Multiset.card V) < cap := by
      rw [← hc, hHlen]
      exact hfull
    have hcardV : Multiset.card V ≤
        Multiset.card (↑(h.map (fun e => e.2)) : Multiset F) := by
      rcases le_total cap (Multiset.card V) with hx | hx
      · rw [min_eq_left hx] at hmincap
        omega
      · rw [hc, min_eq_right hx]
    have hHV : (↑(h.map (fun e => e.2)) : Multiset F) = V :=
      Multiset.eq_of_le_of_card_le hle hcardV
    rw [hHV]
    refine ⟨le_refl _, ?_, ?_⟩
    · have hVlen : Multiset.card V + 1 ≤ cap := by
        have : Multiset.card V = h.length := by
          rw [← hHV, hHlen]
        omega
      rw [Multiset.card_add, Multiset.card_singleton, min_eq_right hVlen]
    · intro x hx y hy
      rw [tsub_self] at hx
      exact absurd hx (Multiset.not_mem_zero x)
  · have hlencap : h.length = cap := by omega
    have hne : h ≠ [] := by
      intro hnil
      rw [hnil] at hlencap
      simp at hlencap
      omega
    have h0len : 0 < h.length := by omega
    have hpeekmem : h.getD 0 (0, 0) ∈ h := by
      rw [List.getD_eq_getElem h (0, 0) h0len]
      exact List.getElem_mem h0len
    have hHcap : Multiset.card (↑(h.map (fun e => e.2)) : Multiset F) = cap := by
      simp [hlencap]
    obtain ⟨hle, hcq, hdq⟩ := hK
    have hcV : cap ≤ Multiset.card V := by
      have h1 := Multiset.card_le_card hle
      omega
    by_cases hd : d < (h.getD 0 (0, 0)).2
    · rw [if_neg hfull, if_pos hd] at hh1
      subst hh1
      obtain ⟨hdc1, hdc2⟩ := hdown_coe_length (h.set 0 (i, d)).length
        (h.set 0 (i, d)) 0 (by omega)
      refine ⟨hreplace_heap h hh (i, d), ?_, ?_⟩
      · rw [hdc2, List.length_set]
        omega
      · have hset := coe_set_add h 0 (i, d) h0len (0, 0)
        have hkey : (↑((hdown (h.set 0 (i, d)) 0).map (fun e => e.2)) : Multiset F)
            + {(h.getD 0 (0, 0)).2} = ↑(h.map (fun e => e.2)) + {d} := by
          rw [hmc, hdc1]
          have hmm := congrArg (Multiset.map (fun e : ℕ × F => e.2)) hset
          rw [Multiset.map_add, Multiset.map_add, Multiset.map_singleton,
            Multiset.map_singleton] at hmm
          rw [hmc]
          exact hmm
        have hcount : ∀ x : F,
            (↑((hdown (h.set 0 (i, d)) 0).map (fun e => e.2)) : Multiset F).count x
            + ({(h.getD 0 (0, 0)).2} : Multiset F).count x
            = (↑(h.map (fun e => e.2)) : Multiset F).count x
              + ({d} : Multiset F).count x := by
          intro x
          rw [← Multiset.count_add, ← Multiset.count_add, hkey]
        have hc1 : Multiset.card
            (↑((hdown (h.set 0 (i, d)) 0).map (fun e => e.2)) : Multiset F) = cap := by
          have hcc := congrArg Multiset.card hkey
          rw [Multiset.card_add, Multiset.card_add, Multiset.card_singleton,
            Multiset.card_singleton] at hcc
          omega
        refine ⟨?_, ?_, ?_⟩
        · rw [Multiset.le_iff_count]
          intro x
          have h1 := hcount x
          have h2 := Multiset.count_le_of_le x hle
          have e1 : ({d} : Multiset F).count x = (if x = d then 1 else 0) :=
            Multiset.count_singleton x d
          have e2 : ({(h.getD 0 (0, 0)).2} : Multiset F).count x
              = (if x = (h.getD 0 (0, 0)).2 then 1 else 0) :=
            Multiset.count_singleton x ((h.getD 0 (0, 0)).2)
          rw [Multiset.count_add]
          by_cases hxd : x = d
          · rw [if_pos hxd] at e1
            by_cases hxp : x = (h.getD 0 (0, 0)).2
            · rw [if_pos hxp] at e2
              rw [e1, e2] at h1
              rw [e1]
              omega
            · rw [if_neg hxp] at e2
              rw [e1, e2] at h1
              rw [e1]
              omega
          · rw [if_neg hxd] at e1
            by_cases hxp : x = (h.getD 0 (0, 0)).2
            · rw [if_pos hxp] at e2
              rw [e1, e2] at h1
              rw [e1]
              omega
            · rw [if_neg hxp] at e2
              rw [e1, e2] at h1
              rw [e1]
              omega
        · rw [hc1, Multiset.card_add, Multiset.card_singleton,
            min_eq_left (by omega)]
        · intro x hx y hy
          have hxc : Multiset.count x (V + {d}) >
              Multiset.count x
                (↑((hdown (h.set 0 (i, d)) 0).map (fun e => e.2)) : Multiset F) := by
            have := Multiset.count_pos.mpr hx
            rw [Multiset.count_sub] at this
            omega
          have hyb : y ≤ (h.getD 0 (0, 0)).2 := by
            have hyc : 0 < Multiset.count y
                (↑((hdown (h.set 0 (i, d)) 0).map (fun e => e.2)) : Multiset F) :=
              Multiset.count_pos.mpr hy
            by_cases hyd : y = d
            · rw [hyd]
              exact le_of_lt hd
            · have h1 := hcount y
              have hym : y ∈ (↑(h.map (fun e => e.2)) : Multiset F) := by
                rw [← Multiset.count_pos]
                have hdy : ({d} : Multiset F).count y = 0 := by
                  rw [Multiset.count_singleton, if_neg hyd]
                have hpy : ({(h.getD 0 (0, 0)).2} : Multiset F).count y ≤ 1 := by
                  rw [Multiset.count_singleton]
                  by_cases hyp : y = (h.getD 0 (0, 0)).2
                  · rw [if_pos hyp]
                  · rw [if_neg hyp]
                    omega
                omega
              obtain ⟨e, he, hye⟩ := List.mem_map.mp (Multiset.mem_coe.mp hym)
              rw [← hye]
              exact isMaxHeap_mem_le_peek h hh e he
          by_cases hxp : x = (h.getD 0 (0, 0)).2
          · rw [hxp]
            exact hyb
          · have hxm : x ∈ V - ↑(h.map (fun e => e.2)) := by
              rw [← Multiset.count_pos, Multiset.count_sub]
              have h1 := hcount x
              have hpx : ({(h.getD 0 (0, 0)).2} : Multiset F).count x = 0 := by
                rw [Multiset.count_singleton, if_neg hxp]
              have hdx : ({d} : Multiset F).count x ≤ 1 := by
                rw [Multiset.count_singleton]
                by_cases hxd : x = d
                · rw [if_pos hxd]
                · rw [if_neg hxd]
                  omega
              rw [Multiset.count_add] at hxc
              omega
            have hpeekin : (h.getD 0 (0, 0)).2 ∈ (↑(h.map (fun e => e.2)) : Multiset F) :=
              Multiset.mem_coe.mpr (List.mem_map_of_mem _ hpeekmem)
            exact le_trans hyb (hdq x hxm _ hpeekin)
    · rw [if_neg hfull, if_neg hd] at hh1
      rw [hh1]
      refine ⟨hh, hlen, le_trans hle (Multiset.le_add_right V {d}), ?_, ?_⟩
      · rw [Multiset.card_add, Multiset.card_singleton, hcq,
          min_eq_left hcV, min_eq_left (by omega)]
      · intro x hx y hy
        have hxc : Multiset.count x V + ({d} : Multiset F).count x >
            Multiset.count x (↑(h.map (fun e => e.2)) : Multiset F) := by
          have := Multiset.count_pos.mpr hx
          rw [Multiset.count_sub, Multiset.count_add] at this
          omega
        by_cases hxd : x = d
        · subst hxd
          have hpeek2 : y ≤ (h.getD 0 (0, 0)).2 := by
            obtain ⟨e, he, hye⟩ := List.mem_map.mp (Multiset.mem_coe.mp hy)
            rw [← hye]
            exact isMaxHeap_mem_le_peek h hh e he
          exact le_trans hpeek2 (not_lt.mp hd)
        · have hdx : ({d} : Multiset F).count x = 0 := by
            rw [Multiset.count_singleton, if_neg hxd]
          have hxm : x ∈ V - ↑(h.map (fun e => e.2)) := by
            rw [← Multiset.count_pos, Multiset.count_sub]
            omega
          exact hdq x hxm y hy

/-- `searchKNearest` unfolding at a node, near child = right. -/
theorem searchKNearest_node_ge (m : List F → List F → F) (coords : ℕ → List F)
    (q : List F) (cap : ℕ) (ax i : ℕ) (v : F) (l r : KDNode F)
    (h : List (ℕ × F)) (hqv : q.getD ax 0 ≥ v) :
    searchKNearest m coords q cap (KDNode.node ax i v l r) h =
      (let h1 := if h.length < cap then hpush h (i, m q (coords i))
        else if m q (coords i) < (h.getD 0 (0, 0)).2
          then hdown (h.set 0 (i, m q (coords i))) 0
          else h
       let h2 := searchKNearest m coords q cap r h1
       let threshold := if h2.length = cap then (h2.getD 0 (0, 0)).2
         else if 0 < h2.length then (h2.getD 0 (0, 0)).2
         else maxFloat64 F
       if (if q.getD ax 0 - v < 0 then -(q.getD ax 0 - v) else q.getD ax 0 - v)
          ≤ threshold
       then searchKNearest m coords q cap l h2 else h2) := by
  rw [searchKNearest]
  simp only [if_pos hqv]

/-- `searchKNearest` unfolding at a node, near child = left. -/
theorem searchKNearest_node_lt (m : List F → List F → F) (coords : ℕ → List F)
    (q : List F) (cap : ℕ) (ax i : ℕ) (v : F) (l r : KDNode F)
    (h : List (ℕ × F)) (hqv : ¬ q.getD ax 0 ≥ v) :
    searchKNearest m coords q cap (KDNode.node ax i v l r) h =
      (let h1 := if h.length < cap then hpush h (i, m q (coords i))
        else if m q (coords i) < (h.getD 0 (0, 0)).2
          then hdown (h.set 0 (i, m q (coords i))) 0
          else h
       let h2 := searchKNearest m coords q cap l h1
       let threshold := if h2.length = cap then (h2.getD 0 (0, 0)).2
         else if 0 < h2.length then (h2.getD 0 (0, 0)).2
         else maxFloat64 F
       if (if q.getD ax 0 - v < 0 then -(q.getD ax 0 - v) else q.getD ax 0 - v)
          ≤ threshold
       then searchKNearest m coords q cap r h2 else h2) := by
  rw [searchKNearest]
  simp only [if_neg hqv]

/-- State lemma for `searchKNearest` on a well-formed tree: the heap stays
a max-heap within capacity, and always holds a `cap`-smallest multiset of
the distances seen so far — the far subtrees skipped by the pruning test
only hold distances at least the heap maximum of a full heap, so skipping
them does not change that multiset. -/
theorem searchKNearest_spec (m : List F → List F → F) (coords : ℕ → List F)
    (q : List F) (dim : ℕ)
    (hax : ∀ p ax, p.length = dim → ax < dim → |q.getD ax 0 - p.getD ax 0| ≤ m q p)
    (cap : ℕ) (hcap : 0 < cap) :
    ∀ t : KDNode F, TreeWF coords dim t →
      (∀ j ∈ t.idxs, (coords j).length = dim) →
      ∀ (h : List (ℕ × F)) (V : Multiset F),
        IsMaxHeap h → h.length ≤ cap →
        KBest cap V ↑(h.map (fun e => e.2)) →
        IsMaxHeap (searchKNearest m coords q cap t h) ∧
        (searchKNearest m coords q cap t h).length ≤ cap ∧
        KBest cap (V + (↑(t.idxs.map (fun j => m q (coords j))) : Multiset F))
          (↑((searchKNearest m coords q cap t h).map (fun e => e.2)) : Multiset F) := by
  intro t
  induction t with
  | nil =>
    intro _ _ h V hh hlen hK
    rw [searchKNearest]
    refine ⟨hh, hlen, ?_⟩
    simpa [KDNode.idxs] using hK
  | node ax i v l r ihl ihr =>
    intro hwf hclen h V hh hlen hK
    obtain ⟨haxlt, hveq, hlb, hrb, hwl, hwr⟩ := hwf
    have hcli : (coords i).length = dim := hclen i (by simp [KDNode.idxs])
    have hcll : ∀ j ∈ l.idxs, (coords j).length = dim := fun j hj =>
      hclen j (by simp [KDNode.idxs]; exact Or.inr (Or.inl hj))
    have hclr : ∀ j ∈ r.idxs, (coords j).length = dim := fun j hj =>
      hclen j (by simp [KDNode.idxs]; exact Or.inr (Or.inr hj))
    have hsplit : (↑((KDNode.node ax i v l r).idxs.map
        (fun j => m q (coords j))) : Multiset F)
        = {m q (coords i)} + (↑(l.idxs.map (fun j => m q (coords j))) : Multiset F)
          + (↑(r.idxs.map (fun j => m q (coords j))) : Multiset F) := by
      simp only [KDNode.idxs, List.map_cons, List.map_append]
      have hcns : (↑(m q (coords i) :: (l.idxs.map (fun j => m q (coords j))
          ++ r.idxs.map (fun j => m q (coords j)))) : Multiset F)
          = m q (coords i) ::ₘ ((↑(l.idxs.map (fun j => m q (coords j))) : Multiset F)
            + (↑(r.idxs.map (fun j => m q (coords j))) : Multiset F)) := rfl
      rw [hcns, ← Multiset.singleton_add, add_assoc]
    have hdiffi : (if q.getD ax 0 - v < 0 then -(q.getD ax 0 - v) else q.getD ax 0 - v)
        ≤ m q (coords i) := by
      by_cases hqv : q.getD ax 0 ≥ v
      · exact far_dist_lb m q dim hax ax haxlt v (coords i) hcli
          (Or.inl ⟨hqv, le_of_eq hveq.symm⟩)
      · exact far_dist_lb m q dim hax ax haxlt v (coords i) hcli
          (Or.inr ⟨le_of_lt (not_le.mp hqv), le_of_eq hveq⟩)
    by_cases hqv : q.getD ax 0 ≥ v
    · rw [searchKNearest_node_ge m coords q cap ax i v l r h hqv]
      dsimp only
      set h1 := if h.length < cap then hpush h (i, m q (coords i))
        else if m q (coords i) < (h.getD 0 (0, 0)).2
          then hdown (h.set 0 (i, m q (coords i))) 0
          else h with hh1def
      obtain ⟨hH1, hlen1, hK1⟩ := knnStep_spec cap hcap h V i (m q (coords i))
        hh hlen hK h1 hh1def
      obtain ⟨hH2, hlen2, hK2⟩ := ihr hwr hclr h1 (V + {m q (coords i)}) hH1 hlen1 hK1
      set h2 := searchKNearest m coords q cap r h1 with hh2def
      by_cases hprune : (if q.getD ax 0 - v < 0 then -(q.getD ax 0 - v)
          else q.getD ax 0 - v) ≤
          (if h2.length = cap then (h2.getD 0 (0, 0)).2
           else if 0 < h2.length then (h2.getD 0 (0, 0)).2
           else maxFloat64 F)
      · rw [if_pos hprune]
        obtain ⟨hH3, hlen3, hK3⟩ := ihl hwl hcll h2
          (V + {m q (coords i)} + (↑(r.idxs.map (fun j => m q (coords j))) : Multiset F))
          hH2 hlen2 hK2
        refine ⟨hH3, hlen3, ?_⟩
        rw [hsplit]
        have harr : V + ({m q (coords i)} + (↑(l.idxs.map (fun j => m q (coords j))) : Multiset F)
            + (↑(r.idxs.map (fun j => m q (coords j))) : Multiset F))
            = V + {m q (coords i)} + (↑(r.idxs.map (fun j => m q (coords j))) : Multiset F)
              + (↑(l.idxs.map (fun j => m q (coords j))) : Multiset F) := by
          abel
        rw [harr]
        exact hK3
      · rw [if_neg hprune]
        refine ⟨hH2, hlen2, ?_⟩
        have hdi2 : m q (coords i) ∈ V + {m q (coords i)}
            + (↑(r.idxs.map (fun j => m q (coords j))) : Multiset F) :=
          Multiset.mem_add.mpr (Or.inl (Multiset.mem_add.mpr
            (Or.inr (Multiset.mem_singleton_self _))))
        have hV2pos : 0 < Multiset.card (V + {m q (coords i)}
            + (↑(r.idxs.map (fun j => m q (coords j))) : Multiset F)) := by
          rw [Multiset.card_add, Multiset.card_add, Multiset.card_singleton]
          omega
        have hh2pos : 0 < h2.length := by
          by_contra hcon
          push_neg at hcon
          have h2nil : h2 = [] := List.length_eq_zero.mp (by omega)
          have hc := hK2.2.1
          rw [h2nil] at hc
          have hc0 : (0 : ℕ) = min cap (Multiset.card (V + {m q (coords i)}
              + (↑(r.idxs.map (fun j => m q (coords j))) : Multiset F))) := hc
          rcases le_total cap (Multiset.card (V + {m q (coords i)}
              + (↑(r.idxs.map (fun j => m q (coords j))) : Multiset F))) with hcc | hcc
          · rw [min_eq_left hcc] at hc0
            omega
          · rw [min_eq_right hcc] at hc0
            omega
        have hfull2 : h2.length = cap := by
          by_contra hcon
          have hth : (if h2.length = cap then (h2.getD 0 (0, 0)).2
              else if 0 < h2.length then (h2.getD 0 (0, 0)).2
              else maxFloat64 F) = (h2.getD 0 (0, 0)).2 := by
            rw [if_neg hcon, if_pos hh2pos]
          have hcard2 : Multiset.card (↑(h2.map (fun e => e.2)) : Multiset F)
              = h2.length := by simp
          have hmin2 : min cap (Multiset.card (V + {m q (coords i)}
              + (↑(r.idxs.map (fun j => m q (coords j))) : Multiset F))) < cap := by
            rw [← hK2.2.1, hcard2]
            omega
          have hcV2 : Multiset.card (V + {m q (coords i)}
              + (↑(r.idxs.map (fun j => m q (coords j))) : Multiset F))
              ≤ Multiset.card (↑(h2.map (fun e => e.2)) : Multiset F) := by
            rcases le_total cap (Multiset.card (V + {m q (coords i)}
                + (↑(r.idxs.map (fun j => m q (coords j))) : Multiset F))) with hx | hx
            · rw [min_eq_left hx] at hmin2
              omega
            · rw [hK2.2.1, min_eq_right hx]
          have hH2V2 : (↑(h2.map (fun e => e.2)) : Multiset F)
              = V + {m q (coords i)} + (↑(r.idxs.map (fun j => m q (coords j))) : Multiset F) :=
            Multiset.eq_of_le_of_card_le hK2.1 hcV2
          have hdih2 : m q (coords i) ∈ (↑(h2.map (fun e => e.2)) : Multiset F) := by
            rw [hH2V2]
            exact hdi2
          have hdipeek : m q (coords i) ≤ (h2.getD 0 (0, 0)).2 := by
            obtain ⟨e, he, hye⟩ := List.mem_map.mp (Multiset.mem_coe.mp hdih2)
            rw [← hye]
            exact isMaxHeap_mem_le_peek h2 hH2 e he
          rw [hth] at hprune
          exact hprune (le_trans hdiffi hdipeek)
        have hth : (if h2.length = cap then (h2.getD 0 (0, 0)).2
            else if 0 < h2.length then (h2.getD 0 (0, 0)).2
            else maxFloat64 F) = (h2.getD 0 (0, 0)).2 := by
          rw [if_pos hfull2]
        rw [hth] at hprune
        have hpeeklt : (h2.getD 0 (0, 0)).2 < (if q.getD ax 0 - v < 0
            then -(q.getD ax 0 - v) else q.getD ax 0 - v) := not_le.mp hprune
        rw [hsplit]
        have harr : V + ({m q (coords i)} + (↑(l.idxs.map (fun j => m q (coords j))) : Multiset F)
            + (↑(r.idxs.map (fun j => m q (coords j))) : Multiset F))
            = V + {m q (coords i)} + (↑(r.idxs.map (fun j => m q (coords j))) : Multiset F)
              + (↑(l.idxs.map (fun j => m q (coords j))) : Multiset F) := by
          abel
        rw [harr]
        have hcard2 : Multiset.card (↑(h2.map (fun e => e.2)) : Multiset F)
            = cap := by simp [hfull2]
        refine ⟨le_trans hK2.1 (Multiset.le_add_right _ _), ?_, ?_⟩
        · rw [hcard2, Multiset.card_add]
          have hcV2 : cap ≤ Multiset.card (V + {m q (coords i)}
              + (↑(r.idxs.map (fun j => m q (coords j))) : Multiset F)) := by
            have := Multiset.card_le_card hK2.1
            omega
          rw [min_eq_left (by omega)]
        · intro x hx y hy
          have hy2 : y ≤ (h2.getD 0 (0, 0)).2 := by
            obtain ⟨e, he, hye⟩ := List.mem_map.mp (Multiset.mem_coe.mp hy)
            rw [← hye]
            exact isMaxHeap_mem_le_peek h2 hH2 e he
          have hxc := Multiset.count_pos.mpr hx
          rw [Multiset.count_sub, Multiset.count_add] at hxc
          by_cases hxv : x ∈ V + {m q (coords i)}
              + (↑(r.idxs.map (fun j => m q (coords j))) : Multiset F)
              - ↑(h2.map (fun e => e.2))
          · exact hK2.2.2 x hxv y hy
          · have hxl : x ∈ (↑(l.idxs.map (fun j => m q (coords j))) : Multiset F) := by
              rw [← Multiset.count_pos]
              have hxv2 : Multiset.count x (V + {m q (coords i)}
                  + (↑(r.idxs.map (fun j => m q (coords j))) : Multiset F))
                  - Multiset.count x (↑(h2.map (fun e => e.2)) : Multiset F) = 0 := by
                by_contra hcon
                exact hxv (by
                  rw [← Multiset.count_pos, Multiset.count_sub]
                  omega)
              omega
            obtain ⟨j, hj, hjx⟩ := List.mem_map.mp (Multiset.mem_coe.mp hxl)
            have hfar := far_dist_lb m q dim hax ax haxlt v (coords j) (hcll j hj)
              (Or.inl ⟨hqv, hlb j hj⟩)
            rw [hjx] at hfar
            exact le_trans hy2 (le_trans (le_of_lt hpeeklt) hfar)
    · rw [searchKNearest_node_lt m coords q cap ax i v l r h hqv]
      dsimp only
      set h1 := if h.length < cap then hpush h (i, m q (coords i))
        else if m q (coords i) < (h.getD 0 (0, 0)).2
          then hdown (h.set 0 (i, m q (coords i))) 0
          else h with hh1def
      obtain ⟨hH1, hlen1, hK1⟩ := knnStep_spec cap hcap h V i (m q (coords i))
        hh hlen hK h1 hh1def
      obtain ⟨hH2, hlen2, hK2⟩ := ihl hwl hcll h1 (V + {m q (coords i)}) hH1 hlen1 hK1
      set h2 := searchKNearest m coords q cap l h1 with hh2def
      by_cases hprune : (if q.getD ax 0 - v < 0 then -(q.getD ax 0 - v)
          else q.getD ax 0 - v) ≤
          (if h2.length = cap then (h2.getD 0 (0, 0)).2
           else if 0 < h2.length then (h2.getD 0 (0, 0)).2
           else maxFloat64 F)
      · rw [if_pos hprune]
        obtain ⟨hH3, hlen3, hK3⟩ := ihr hwr hclr h2
          (V + {m q (coords i)} + (↑(l.idxs.map (fun j => m q (coords j))) : Multiset F))
          hH2 hlen2 hK2
        refine ⟨hH3, hlen3, ?_⟩
        rw [hsplit]
        have harr : V + ({m q (coords i)} + (↑(l.idxs.map (fun j => m q (coords j))) : Multiset F)
            + (↑(r.idxs.map (fun j => m q (coords j))) : Multiset F))
            = V + {m q (coords i)} + (↑(l.idxs.map (fun j => m q (coords j))) : Multiset F)
              + (↑(r.idxs.map (fun j => m q (coords j))) : Multiset F) := by
          abel
        rw [harr]
        exact hK3
      · rw [if_neg hprune]
        refine ⟨hH2, hlen2, ?_⟩
        have hdi2 : m q (coords i) ∈ V + {m q (coords i)}
            + (↑(l.idxs.map (fun j => m q (coords j))) : Multiset F) :=
          Multiset.mem_add.mpr (Or.inl (Multiset.mem_add.mpr
            (Or.inr (Multiset.mem_singleton_self _))))
        have hV2pos : 0 < Multiset.card (V + {m q (coords i)}
            + (↑(l.idxs.map (fun j => m q (coords j))) : Multiset F)) := by
          rw [Multiset.card_add, Multiset.card_add, Multiset.card_singleton]
          omega
        have hh2pos : 0 < h2.length := by
          by_contra hcon
          push_neg at hcon
          have h2nil : h2 = [] := List.length_eq_zero.mp (by omega)
          have hc := hK2.2.1
          rw [h2nil] at hc
          have hc0 : (0 : ℕ) = min cap (Multiset.card (V + {m q (coords i)}
              + (↑(l.idxs.map (fun j => m q (coords j))) : Multiset F))) := hc
          rcases le_total cap (Multiset.card (V + {m q (coords i)}
              + (↑(l.idxs.map (fun j => m q (coords j))) : Multiset F))) with hcc | hcc
          · rw [min_eq_left hcc] at hc0
            omega
          · rw [min_eq_right hcc] at hc0
            omega
        have hfull2 : h2.length = cap := by
          by_contra hcon
          have hth : (if h2.length = cap then (h2.getD 0 (0, 0)).2
              else if 0 < h2.length then (h2.getD 0 (0, 0)).2
              else maxFloat64 F) = (h2.getD 0 (0, 0)).2 := by
            rw [if_neg hcon, if_pos hh2pos]
          have hcard2 : Multiset.card (↑(h2.map (fun e => e.2)) : Multiset F)
              = h2.length := by simp
          have hmin2 : min cap (Multiset.card (V + {m q (coords i)}
              + (↑(l.idxs.map (fun j => m q (coords j))) : Multiset F))) < cap := by
            rw [← hK2.2.1, hcard2]
            omega
          have hcV2 : Multiset.card (V + {m q (coords i)}
              + (↑(l.idxs.map (fun j => m q (coords j))) : Multiset F))
              ≤ Multiset.card (↑(h2.map (fun e => e.2)) : Multiset F) := by
            rcases le_total cap (Multiset.card (V + {m q (coords i)}
                + (↑(l.idxs.map (fun j => m q (coords j))) : Multiset F))) with hx | hx
            · rw [min_eq_left hx] at hmin2
              omega
            · rw [hK2.2.1, min_eq_right hx]
          have hH2V2 : (↑(h2.map (fun e => e.2)) : Multiset F)
              = V + {m q (coords i)} + (↑(l.idxs.map (fun j => m q (coords j))) : Multiset F) :=
            Multiset.eq_of_le_of_card_le hK2.1 hcV2
          have hdih2 : m q (coords i) ∈ (↑(h2.map (fun e => e.2)) : Multiset F) := by
            rw [hH2V2]
            exact hdi2
          have hdipeek : m q (coords i) ≤ (h2.getD 0 (0, 0)).2 := by
            obtain ⟨e, he, hye⟩ := List.mem_map.mp (Multiset.mem_coe.mp hdih2)
            rw [← hye]
            exact isMaxHeap_mem_le_peek h2 hH2 e he
          rw [hth] at hprune
          exact hprune (le_trans hdiffi hdipeek)
        have hth : (if h2.length = cap then (h2.getD 0 (0, 0)).2
            else if 0 < h2.length then (h2.getD 0 (0, 0)).2
            else maxFloat64 F) = (h2.getD 0 (0, 0)).2 := by
          rw [if_pos hfull2]
        rw [hth] at hprune
        have hpeeklt : (h2.getD 0 (0, 0)).2 < (if q.getD ax 0 - v < 0
            then -(q.getD ax 0 - v) else q.getD ax 0 - v) := not_le.mp hprune
        rw [hsplit]
        have harr : V + ({m q (coords i)} + (↑(l.idxs.map (fun j => m q (coords j))) : Multiset F)
            + (↑(r.idxs.map (fun j => m q (coords j))) : Multiset F))
            = V + {m q (coords i)} + (↑(l.idxs.map (fun j => m q (coords j))) : Multiset F)
              + (↑(r.idxs.map (fun j => m q (coords j))) : Multiset F) := by
          abel
        rw [harr]
        have hcard2 : Multiset.card (↑(h2.map (fun e => e.2)) : Multiset F)
            = cap := by simp [hfull2]
        refine ⟨le_trans hK2.1 (Multiset.le_add_right _ _), ?_, ?_⟩
        · rw [hcard2, Multiset.card_add]
          have hcV2 : cap ≤ Multiset.card (V + {m q (coords i)}
              + (↑(l.idxs.map (fun j => m q (coords j))) : Multiset F)) := by
            have := Multiset.card_le_card hK2.1
            omega
          rw [min_eq_left (by omega)]
        · intro x hx y hy
          have hy2 : y ≤ (h2.getD 0 (0, 0)).2 := by
            obtain ⟨e, he, hye⟩ := List.mem_map.mp (Multiset.mem_coe.mp hy)
            rw [← hye]
            exact isMaxHeap_mem_le_peek h2 hH2 e he
          have hxc := Multiset.count_pos.mpr hx
          rw [Multiset.count_sub, Multiset.count_add] at hxc
          by_cases hxv : x ∈ V + {m q (coords i)}
              + (↑(l.idxs.map (fun j => m q (coords j))) : Multiset F)
              - ↑(h2.map (fun e => e.2))
          · exact hK2.2.2 x hxv y hy
          · have hxl : x ∈ (↑(r.idxs.map (fun j => m q (coords j))) : Multiset F) := by
              rw [← Multiset.count_pos]
              have hxv2 : Multiset.count x (V + {m q (coords i)}
                  + (↑(l.idxs.map (fun j => m q (coords j))) : Multiset F))
                  - Multiset.count x (↑(h2.map (fun e => e.2)) : Multiset F) = 0 := by
                by_contra hcon
                exact hxv (by
                  rw [← Multiset.count_pos, Multiset.count_sub]
                  omega)
              omega
            obtain ⟨j, hj, hjx⟩ := List.mem_map.mp (Multiset.mem_coe.mp hxl)
            have hfar := far_dist_lb m q dim hax ax haxlt v (coords j) (hclr j hj)
              (Or.inr ⟨le_of_lt (not_le.mp hqv), hrb j hj⟩)
            rw [hjx] at hfar
            exact le_trans hy2 (le_trans (le_of_lt hpeeklt) hfar)

/-- Lists append to multiset sums. -/
theorem coe_append {α : Type*} (l1 l2 : List α) :
    (↑(l1 ++ l2) : Multiset α) = ↑l1 + ↑l2 := rfl

/-- The prefix of an ascending list is a `c`-smallest multiset of the whole
list. -/
theorem sorted_take_kbest (s : List F)
    (hs : List.Pairwise (fun a b : F => a ≤ b) s) (c : ℕ) :
    KBest c (↑s : Multiset F) (↑(s.take (min c s.length)) : Multiset F) := by
  refine ⟨?_, ?_, ?_⟩
  · conv_rhs => rw [← List.take_append_drop (min c s.length) s]
    rw [coe_append]
    exact Multiset.le_add_right (↑(s.take (min c s.length)) : Multiset F)
      (↑(s.drop (min c s.length)) : Multiset F)
  · rw [Multiset.coe_card, Multiset.coe_card, List.length_take,
      min_eq_left (min_le_right c s.length)]
  · intro x hx y hy
    have hsplit2 : (↑(s.take (min c s.length)) : Multiset F)
        + ↑(s.drop (min c s.length)) = ↑s := by
      rw [← coe_append, List.take_append_drop]
    have hsd : (↑s : Multiset F) - ↑(s.take (min c s.length))
        = ↑(s.drop (min c s.length)) := by
      rw [← hsplit2]
      exact add_tsub_cancel_left _ _
    rw [hsd] at hx
    have hpw := List.pairwise_append.mp
      (by rw [List.take_append_drop]
          exact hs :
        List.Pairwise (fun a b : F => a ≤ b)
          (s.take (min c s.length) ++ s.drop (min c s.length)))
    exact hpw.2.2 y (Multiset.mem_coe.mp hy) x (Multiset.mem_coe.mp hx)

/-- The two engines agree on `KNearest`: the same multiset of the
`min(k, n)` smallest distances. -/
theorem knnAgree (t : KDTree F) (q : List F) (hdim : 0 < t.dim)
    (hlen : ∀ p ∈ t.points, p.Coords.length = t.dim) (hq : q.length = t.dim)
    (hax : ∀ p ax, p.length = t.dim → ax < t.dim →
      |q.getD ax 0 - p.getD ax 0| ≤ t.metric q p) (k : Int) :
    (↑((gonumKNearest t.metric (buildGonumBackend t.points) q k).2) : Multiset F) =
      ↑((t.KNearest q k).2) := by
  by_cases hemp : t.points.length = 0
  · have hempl := List.length_eq_zero.mp hemp
    have hg : gonumKNearest t.metric (buildGonumBackend t.points) q k = ([], []) := by
      rw [hempl]
      simp [gonumKNearest, buildGonumBackend, KDNode.isNil]
    have hl : t.KNearest q k = ([], []) := by
      simp only [KDTree.KNearest, if_pos (Or.inr (Or.inr hemp))]
    rw [hg, hl]
  · by_cases hk : k ≤ 0
    · have hg : gonumKNearest t.metric (buildGonumBackend t.points) q k = ([], []) := by
        simp only [gonumKNearest, if_pos (Or.inr (Or.inr hk))]
      have hl : t.KNearest q k = ([], []) := by
        simp only [KDTree.KNearest, if_pos (Or.inl hk)]
      rw [hg, hl]
    · have hkpos : (0 : Int) < k := not_le.mp hk
      have hcap : 0 < k.toNat := by omega
      have hne : t.points ≠ [] := fun h => hemp (by rw [h]; rfl)
      have hhead : (t.points.headD default).Coords.length = t.dim := by
        obtain ⟨p0, rest, hps⟩ := List.exists_cons_of_ne_nil hne
        rw [hps]
        exact hlen p0 (by rw [hps]; exact List.mem_cons_self _ _)
      have hperm := buildKD_perm (fun i => (t.points.getD i default).Coords) t.dim hdim
        (List.range t.points.length)
      have hclen : ∀ j ∈ (buildKDRecursive (fun i => (t.points.getD i default).Coords)
          t.dim (List.range t.points.length)).idxs,
          ((fun i => (t.points.getD i default).Coords) j).length = t.dim := by
        intro j hj
        have hjn : j < t.points.length := List.mem_range.mp (hperm.mem_iff.mp hj)
        show (t.points.getD j default).Coords.length = t.dim
        rw [List.getD_eq_getElem t.points default hjn]
        exact hlen _ (List.getElem_mem hjn)
      have hnil : (buildKDRecursive (fun i => (t.points.getD i default).Coords) t.dim
          (List.range t.points.length)).isNil = false := by
        rw [buildKD_eq (fun i => (t.points.getD i default).Coords) t.dim
          (List.range t.points.length) (by rw [List.length_range]; exact hemp) _ rfl _ rfl]
        rfl
      obtain ⟨hHfin, hlenfin, hKfin⟩ := searchKNearest_spec t.metric
        (fun i => (t.points.getD i default).Coords) q t.dim hax k.toNat hcap
        (buildKDRecursive (fun i => (t.points.getD i default).Coords) t.dim
          (List.range t.points.length))
        (buildKD_wf _ t.dim hdim _) hclen [] 0
        (by intro a b hab hb; simp at hb)
        (Nat.zero_le _)
        ⟨le_refl 0, by simp, by
          intro x hx y hy
          simp at hx⟩
      rw [zero_add] at hKfin
      have hguardL : ¬ (k ≤ 0 ∨ q.length ≠ t.dim ∨ t.points.length = 0) := by
        push_neg
        exact ⟨hkpos, hq, hemp⟩
      simp only [gonumKNearest, buildGonumBackend, if_neg hemp, hhead, hnil,
        Bool.false_eq_true, false_or]
      rw [if_neg (fun hc : q.length ≠ t.dim ∨ k ≤ 0 =>
        hc.elim (fun h1 => h1 hq) (fun h2 => hk h2))]
      simp only [KDTree.KNearest, if_neg hguardL]
      have hL : (↑(((searchKNearest t.metric
          (fun i => (t.points.getD i default).Coords) q k.toNat
          (buildKDRecursive (fun i => (t.points.getD i default).Coords) t.dim
            (List.range t.points.length)) []).mergeSort
          (fun a b => decide (a.2 ≤ b.2))).map (fun e => e.2)) : Multiset F)
          = ↑((searchKNearest t.metric
            (fun i => (t.points.getD i default).Coords) q k.toNat
            (buildKDRecursive (fun i => (t.points.getD i default).Coords) t.dim
              (List.range t.points.length)) []).map (fun e => e.2)) := by
        apply Multiset.coe_eq_coe.mpr
        exact (List.mergeSort_perm _ _).map _
      rw [hL]
      set tmp := (distPairs t.metric q t.points).mergeSort
        (fun a b => decide (a.2 ≤ b.2)) with htmp
      have hpairw : List.Pairwise (fun a b : F => a ≤ b)
          (tmp.map (fun e => e.2)) := by
        have h0 := mergeSort_dist_pairwise (distPairs t.metric q t.points)
        rw [← htmp] at h0
        exact List.Pairwise.map _ (fun a b hab => hab) h0
      have hslen : (tmp.map (fun e : ℕ × F => e.2)).length = tmp.length :=
        List.length_map _ _
      have hKlin : KBest k.toNat (↑(tmp.map (fun e : ℕ × F => e.2)) : Multiset F)
          (↑((tmp.map (fun e : ℕ × F => e.2)).take (min k.toNat tmp.length))
            : Multiset F) := by
        have hst := sorted_take_kbest (tmp.map (fun e : ℕ × F => e.2)) hpairw k.toNat
        rw [hslen] at hst
        exact hst
      have hVeq : (↑((buildKDRecursive (fun i => (t.points.getD i default).Coords)
          t.dim (List.range t.points.length)).idxs.map
            (fun j => t.metric q ((fun i => (t.points.getD i default).Coords) j)))
          : Multiset F) = ↑(tmp.map (fun e : ℕ × F => e.2)) := by
        apply Multiset.coe_eq_coe.mpr
        refine (hperm.map _).trans ?_
        have h1 : (tmp.map (fun e : ℕ × F => e.2)).Perm
            ((distPairs t.metric q t.points).map (fun e : ℕ × F => e.2)) :=
          (List.mergeSort_perm _ _).map _
        have h2 : (distPairs t.metric q t.points).map (fun e : ℕ × F => e.2)
            = (List.range t.points.length).map
              (fun j => t.metric q ((fun i => (t.points.getD i default).Coords) j)) := by
          rw [distPairs_eq_range, List.map_map]
          rfl
        exact (h2 ▸ h1).symm
      rw [hVeq] at hKfin
      have huniq := kbest_unique
        (Multiset.card (↑((searchKNearest t.metric
          (fun i => (t.points.getD i default).Coords) q k.toNat
          (buildKDRecursive (fun i => (t.points.getD i default).Coords) t.dim
            (List.range t.points.length)) []).map (fun e => e.2)) : Multiset F))
        k.toNat (↑(tmp.map (fun e : ℕ × F => e.2)) : Multiset F) _ _ rfl hKfin hKlin
      rw [List.map_take]
      exact huniq

/-- C1: on any index whose points all carry `dim ≥ 1` coordinates, for any
dimension-matching query, under any metric admitting the per-axis lower
bound `|q[ax] − p[ax]| ≤ dist(q, p)` — established for L1, L2 and L∞ by
`manhattan_axis_bound`, `euclidean_axis_bound` and `chebyshev_axis_bound`,
which is exactly the class of metrics the pruning backend accepts — the
pruning tree engine and the linear engine agree: `gonumNearest` returns the
same found flag and the same minimal distance as the linear `Nearest` and
its index realises that distance; `gonumKNearest` returns the same multiset
of the `min(k, n)` smallest distances as `KNearest` for every `k`; and
`gonumRadius` returns the same multiset of (point, distance ≤ r) pairs as
`Radius` for every radius.  Only tie order may differ. -/
theorem C1_engines_agree (t : KDTree F) (q : List F) (hdim : 0 < t.dim)
    (hlen : ∀ p ∈ t.points, p.Coords.length = t.dim) (hq : q.length = t.dim)
    (hax : ∀ p ax, p.length = t.dim → ax < t.dim →
      |q.getD ax 0 - p.getD ax 0| ≤ t.metric q p) :
    ((gonumNearest t.metric (buildGonumBackend t.points) q).2.2 = (t.Nearest q).2.2 ∧
     (gonumNearest t.metric (buildGonumBackend t.points) q).2.1 = (t.Nearest q).2.1 ∧
     ((gonumNearest t.metric (buildGonumBackend t.points) q).2.2 = true →
       ∃ j, j < t.points.length ∧
         (gonumNearest t.metric (buildGonumBackend t.points) q).1 = (j : Int) ∧
         t.metric q (t.points.getD j default).Coords =
           (gonumNearest t.metric (buildGonumBackend t.points) q).2.1)) ∧
    (∀ k : Int,
      (↑((gonumKNearest t.metric (buildGonumBackend t.points) q k).2) : Multiset F) =
        ↑((t.KNearest q k).2)) ∧
    (∀ r : F,
      (↑(((gonumRadius t.metric (buildGonumBackend t.points) q r).1.map
          (fun j => t.points.getD j default)).zip
          ((gonumRadius t.metric (buildGonumBackend t.points) q r).2)) :
        Multiset (KDPoint F × F)) =
        ↑(((t.Radius q r).1).zip ((t.Radius q r).2))) :=
  ⟨nearestAgree t q hdim hlen hq hax,
   fun k => knnAgree t q hdim hlen hq hax k,
   fun r => radiusAgree t q hdim hlen hq hax r⟩

/-- C1's hypotheses hold at a concrete index and query: the three-point
one-dimensional Manhattan index `exTreeC` queried at `[1]`. -/
theorem C1_witness :
    (0 < exTreeC.dim) ∧
    (∀ p ∈ exTreeC.points, p.Coords.length = exTreeC.dim) ∧
    (([(1 : ℚ)]).length = exTreeC.dim) ∧
    (∀ p ax, p.length = exTreeC.dim → ax < exTreeC.dim →
      |([(1 : ℚ)]).getD ax 0 - p.getD ax 0| ≤ exTreeC.metric [(1 : ℚ)] p) ∧
    (((gonumNearest exTreeC.metric (buildGonumBackend exTreeC.points)
        [(1 : ℚ)]).2.2 = (exTreeC.Nearest [(1 : ℚ)]).2.2 ∧
      (gonumNearest exTreeC.metric (buildGonumBackend exTreeC.points)
        [(1 : ℚ)]).2.1 = (exTreeC.Nearest [(1 : ℚ)]).2.1 ∧
      ((gonumNearest exTreeC.metric (buildGonumBackend exTreeC.points)
          [(1 : ℚ)]).2.2 = true →
        ∃ j, j < exTreeC.points.length ∧
          (gonumNearest exTreeC.metric (buildGonumBackend exTreeC.points)
            [(1 : ℚ)]).1 = (j : Int) ∧
          exTreeC.metric [(1 : ℚ)] (exTreeC.points.getD j default).Coords =
            (gonumNearest exTreeC.metric (buildGonumBackend exTreeC.points)
              [(1 : ℚ)]).2.1)) ∧
     (∀ k : Int,
       (↑((gonumKNearest exTreeC.metric (buildGonumBackend exTreeC.points)
          [(1 : ℚ)] k).2) : Multiset ℚ) =
         ↑((exTreeC.KNearest [(1 : ℚ)] k).2)) ∧
     (∀ r : ℚ,
       (↑(((gonumRadius exTreeC.metric (buildGonumBackend exTreeC.points)
            [(1 : ℚ)] r).1.map (fun j => exTreeC.points.getD j default)).zip
          ((gonumRadius exTreeC.metric (buildGonumBackend exTreeC.points)
            [(1 : ℚ)] r).2)) : Multiset (KDPoint ℚ × ℚ)) =
         ↑(((exTreeC.Radius [(1 : ℚ)] r).1).zip ((exTreeC.Radius [(1 : ℚ)] r).2)))) :=
  ⟨by decide, by decide, by decide,
   fun p ax hp haxlt => manhattan_axis_bound [(1 : ℚ)] p hp ax haxlt,
   C1_engines_agree exTreeC [(1 : ℚ)] (by decide) (by decide) (by decide)
     (fun p ax hp haxlt => manhattan_axis_bound [(1 : ℚ)] p hp ax haxlt)⟩

end Poindexter
